import Mathlib

/-!
# A segregated explicit free-list allocator (`mm.c`)

Shallow embedding of `src/mm.c`.  Memory is byte addressed; a word is four
little-endian bytes.  Addresses and `size_t`/`unsigned long` values are natural
numbers reduced modulo `2^64`, `unsigned int` values are reduced modulo `2^32`.
The region provider (`mem_sbrk`) is not part of the source file; its answers
are a parameter (`grant`), indexed by the number of calls made so far.
-/

namespace MM

/-- Byte-addressed memory: the value stored at each address. -/
abbrev Mem := Nat → Nat

abbrev WSIZE : Nat := 4
abbrev DSIZE : Nat := 8
abbrev BSIZE : Nat := 16
abbrev CHUNKSIZE : Nat := 512

/-- The modulus of `size_t`, `unsigned long` and of addresses. -/
abbrev U64 : Nat := 18446744073709551616
/-- The modulus of `unsigned int`. -/
abbrev U32 : Nat := 4294967296

/-- Address plus a byte count (wraps at `2^64`). -/
def padd (p n : Nat) : Nat := (p + n) % U64

/-- Address minus a byte count (wraps at `2^64`). -/
def psub (p n : Nat) : Nat := (p + U64 - n % U64) % U64

/-- `MAX(x, y)`. -/
def MAX (x y : Nat) : Nat := if x > y then x else y

/-- `PACK(size, alloc)`. -/
def PACK (size alloc : Nat) : Nat := size ||| alloc

/-- `GET(p)`: the `unsigned int` stored in the four bytes at `p`. -/
def GET (m : Mem) (p : Nat) : Nat :=
  m p % 256 + 256 * (m (p + 1) % 256) + 65536 * (m (p + 2) % 256)
    + 16777216 * (m (p + 3) % 256)

/-- `PUT(p, val)`: store `val`, converted to `unsigned int`, in the four bytes at `p`. -/
def PUT (m : Mem) (p val : Nat) : Mem := fun a =>
  if a = p then val % 256
  else if a = p + 1 then val / 256 % 256
  else if a = p + 2 then val / 65536 % 256
  else if a = p + 3 then val / 16777216 % 256
  else m a

/-- `GET_SIZE(p)`: `GET(p) & ~0x7`. -/
def GET_SIZE (m : Mem) (p : Nat) : Nat := GET m p &&& 0xFFFFFFF8

/-- `GET_ALLOC(p)`: `GET(p) & 0x1`. -/
def GET_ALLOC (m : Mem) (p : Nat) : Nat := GET m p &&& 1

/-- `HDRP(bp)`. -/
def HDRP (bp : Nat) : Nat := psub bp WSIZE

/-- `FTRP(bp)`. -/
def FTRP (m : Mem) (bp : Nat) : Nat := psub (padd bp (GET_SIZE m (HDRP bp))) DSIZE

/-- `NEXT_BLKP(bp)`. -/
def NEXT_BLKP (m : Mem) (bp : Nat) : Nat := padd bp (GET_SIZE m (psub bp WSIZE))

/-- `PREV_BLKP(bp)`. -/
def PREV_BLKP (m : Mem) (bp : Nat) : Nat := psub bp (GET_SIZE m (psub bp DSIZE))

/-- The allocator's globals, the memory, and the provider's side of the region. -/
structure State where
  mem : Mem
  /-- Provider: current end of the region (`mem_sbrk` returns it and moves it). -/
  brk : Nat
  /-- Provider: number of `mem_sbrk` calls made so far. -/
  calls : Nat
  heap_listp : Nat
  free_listp_16 : Nat
  free_listp_32 : Nat
  free_listp_40 : Nat
  free_listp_72 : Nat
  free_listp_132 : Nat
  free_listp_520 : Nat
  free_listp_1032 : Nat
  free_listp_2056 : Nat
  free_listp_3080 : Nat
  free_listp_5128 : Nat
  free_listp_7168 : Nat
  free_listp_max : Nat
  forinit : Nat

/-- Modelled from the spec: the region provider `mem_sbrk` (memlib is not in the
source file).  `extend(bytes)` grows the region by `bytes` and returns the old
end; the sentinel `-1` signals failure.  `grant n` is the provider's answer to
its `n`-th call. -/
def mem_sbrk (grant : Nat → Bool) (s : State) (incr : Nat) : Nat × State :=
  if grant s.calls then
    (s.brk, { s with brk := s.brk + incr, calls := s.calls + 1 })
  else
    (U64 - 1, { s with calls := s.calls + 1 })

/-- `CONVERTTOOFFSET(ap)`. -/
def CONVERTTOOFFSET (s : State) (ap : Nat) : Nat :=
  (psub ap s.heap_listp * (if ap ≠ 0 then 1 else 0)) % U64 % U32

/-- `CONVERTFROMOFFSET(p)`. -/
def CONVERTFROMOFFSET (s : State) (p : Nat) : Nat :=
  (padd (GET s.mem p) s.heap_listp * (if GET s.mem p ≠ 0 then 1 else 0)) % U64

/-- `GETA(p)`. -/
def GETA (s : State) (p : Nat) : Nat := CONVERTFROMOFFSET s p

/-- `PUTAFREE(fl, val)`. -/
def PUTAFREE (s : State) (fl val : Nat) : State :=
  { s with mem := PUT s.mem fl (CONVERTTOOFFSET s val) }

/-- Store a word: `PUT(p, val)` on the state's memory. -/
def State.put (s : State) (p val : Nat) : State := { s with mem := PUT s.mem p val }

/-- `getlist`: the bucket head for `asize` and the bucket's index. -/
def getlist (s : State) (asize : Nat) : Nat × Nat :=
  if asize = 16 then (s.free_listp_16, 0)
  else if asize ≤ 32 then (s.free_listp_32, 1)
  else if asize ≤ 40 then (s.free_listp_40, 2)
  else if asize ≤ 72 then (s.free_listp_72, 3)
  else if asize ≤ 132 then (s.free_listp_132, 4)
  else if asize ≤ 520 then (s.free_listp_520, 5)
  else if asize ≤ 1032 then (s.free_listp_1032, 6)
  else if asize ≤ 2056 then (s.free_listp_2056, 7)
  else if asize ≤ 3080 then (s.free_listp_3080, 8)
  else if asize ≤ 5128 then (s.free_listp_5128, 9)
  else if asize ≤ 7168 then (s.free_listp_7168, 10)
  else (s.free_listp_max, 11)

/-- `nextlist`: the head of the bucket after bucket `index`. -/
def nextlist (s : State) (index : Nat) : Nat :=
  match index with
  | 0 => s.free_listp_32
  | 1 => s.free_listp_40
  | 2 => s.free_listp_72
  | 3 => s.free_listp_132
  | 4 => s.free_listp_520
  | 5 => s.free_listp_1032
  | 6 => s.free_listp_2056
  | 7 => s.free_listp_3080
  | 8 => s.free_listp_5128
  | 9 => s.free_listp_7168
  | 10 => s.free_listp_max
  | _ => s.free_listp_max

/-- `update`: set the bucket head selected by `asize`. -/
def update (s : State) (asize free_listp : Nat) : State :=
  if asize = 16 then { s with free_listp_16 := free_listp }
  else if asize ≤ 32 then { s with free_listp_32 := free_listp }
  else if asize ≤ 40 then { s with free_listp_40 := free_listp }
  else if asize ≤ 72 then { s with free_listp_72 := free_listp }
  else if asize ≤ 132 then { s with free_listp_132 := free_listp }
  else if asize ≤ 520 then { s with free_listp_520 := free_listp }
  else if asize ≤ 1032 then { s with free_listp_1032 := free_listp }
  else if asize ≤ 2056 then { s with free_listp_2056 := free_listp }
  else if asize ≤ 3080 then { s with free_listp_3080 := free_listp }
  else if asize ≤ 5128 then { s with free_listp_5128 := free_listp }
  else if asize ≤ 7168 then { s with free_listp_7168 := free_listp }
  else { s with free_listp_max := free_listp }

/-- The value of an `unsigned int` after `int size = ...` and the conversion of
that `int` back to `size_t` at the calls of `getlist` and `update`. -/
def int_to_size_t (v : Nat) : Nat :=
  if v % U32 < 2147483648 then v % U32 else v % U32 + (U64 - U32)

/-- `addtolist`: push `bp` at the head of the bucket selected by its size. -/
def addtolist (s : State) (bp : Nat) : State :=
  let size := int_to_size_t (GET_SIZE s.mem (HDRP bp))
  let free_listp := (getlist s size).1
  let s := PUTAFREE s bp free_listp
  let s := PUTAFREE s (padd bp WSIZE) 0
  let s := if free_listp ≠ 0 then PUTAFREE s (padd free_listp WSIZE) bp else s
  update s size bp

/-- `removefromlist`: unlink the block whose links are `next` and `prev` from
the bucket selected by `size`. -/
def removefromlist (s : State) (next prev size : Nat) : State :=
  let free_listp := (getlist s size).1
  let s1 := if prev ≠ 0 then PUTAFREE s prev next else s
  let free_listp := if prev ≠ 0 then free_listp else next
  let s2 := if next ≠ 0 then PUTAFREE s1 (padd next WSIZE) prev else s1
  update s2 size free_listp

/-- `coalesce`: boundary-tag coalescing; returns the coalesced block. -/
def coalesce (s : State) (bp : Nat) : Nat × State :=
  let prev_alloc := GET_ALLOC s.mem (HDRP (PREV_BLKP s.mem bp))
  let next_alloc := GET_ALLOC s.mem (HDRP (NEXT_BLKP s.mem bp))
  let size := GET_SIZE s.mem (HDRP bp)
  if s.forinit ≠ 0 then
    let s := { s with forinit := 0 }
    let s := { s with free_listp_520 := bp }
    let s := PUTAFREE s s.free_listp_520 0
    let s := PUTAFREE s (padd s.free_listp_520 WSIZE) 0
    (bp, s)
  else if prev_alloc ≠ 0 ∧ next_alloc ≠ 0 then
    (bp, addtolist s bp)
  else if prev_alloc ≠ 0 ∧ ¬ next_alloc ≠ 0 then
    let next := GETA s (NEXT_BLKP s.mem bp)
    let prev := GETA s (padd (NEXT_BLKP s.mem bp) WSIZE)
    let size := (size + GET_SIZE s.mem (HDRP (NEXT_BLKP s.mem bp))) % U64
    let tempsize := GET_SIZE s.mem (HDRP (NEXT_BLKP s.mem bp))
    let s := removefromlist s next prev tempsize
    let s := s.put (HDRP bp) (PACK size 0)
    let s := s.put (FTRP s.mem bp) (PACK size 0)
    (bp, addtolist s bp)
  else if ¬ prev_alloc ≠ 0 ∧ next_alloc ≠ 0 then
    let next := GETA s (PREV_BLKP s.mem bp)
    let prev := GETA s (padd (PREV_BLKP s.mem bp) WSIZE)
    let size := (size + GET_SIZE s.mem (HDRP (PREV_BLKP s.mem bp))) % U64
    let tempsize := GET_SIZE s.mem (HDRP (PREV_BLKP s.mem bp))
    let s := removefromlist s next prev tempsize
    let bp := PREV_BLKP s.mem bp
    let s := s.put (HDRP bp) (PACK size 0)
    let s := s.put (FTRP s.mem bp) (PACK size 0)
    (bp, addtolist s bp)
  else
    let size := (size + (GET_SIZE s.mem (HDRP (PREV_BLKP s.mem bp))
                  + GET_SIZE s.mem (HDRP (NEXT_BLKP s.mem bp))) % U64) % U64
    let prev := GETA s (padd (NEXT_BLKP s.mem bp) WSIZE)
    let next := GETA s (NEXT_BLKP s.mem bp)
    let tempsize := GET_SIZE s.mem (HDRP (NEXT_BLKP s.mem bp))
    let s := removefromlist s next prev tempsize
    let prev := GETA s (padd (PREV_BLKP s.mem bp) WSIZE)
    let next := GETA s (PREV_BLKP s.mem bp)
    let tempsize := GET_SIZE s.mem (HDRP (PREV_BLKP s.mem bp))
    let s := removefromlist s next prev tempsize
    let bp := PREV_BLKP s.mem bp
    let s := s.put (HDRP bp) (PACK size 0)
    let s := s.put (FTRP s.mem bp) (PACK size 0)
    (bp, addtolist s bp)

/-- `extend_heap`: grow the region by `words` words (rounded up to even) and
coalesce the new free block; `0` (NULL) when the provider refuses. -/
def extend_heap (grant : Nat → Bool) (s : State) (words : Nat) : Nat × State :=
  let size := if words % 2 ≠ 0 then ((words + 1) * WSIZE) % U64 else (words * WSIZE) % U64
  let r := mem_sbrk grant s size
  let bp := r.1
  let s := r.2
  if bp = U64 - 1 then (0, s)
  else
    let s := s.put (HDRP bp) (PACK size 0)
    let s := s.put (FTRP s.mem bp) (PACK size 0)
    let s := s.put (HDRP (NEXT_BLKP s.mem bp)) (PACK 0 1)
    coalesce s bp

/-- `mm_init`: returns the status (`0`, or `-1` on provider failure). -/
def mm_init (grant : Nat → Bool) (s : State) : Int × State :=
  let s := { s with forinit := 1 }
  let s := { s with heap_listp := 0 }
  let s := { s with
    free_listp_16 := 0, free_listp_32 := 0, free_listp_40 := 0, free_listp_72 := 0,
    free_listp_132 := 0, free_listp_520 := 0, free_listp_1032 := 0, free_listp_2056 := 0,
    free_listp_3080 := 0, free_listp_5128 := 0, free_listp_7168 := 0, free_listp_max := 0 }
  let r := mem_sbrk grant s (4 * WSIZE)
  let s := { r.2 with heap_listp := r.1 }
  if s.heap_listp = U64 - 1 then (-1, s)
  else
    let s := s.put s.heap_listp 0
    let s := s.put (padd s.heap_listp (1 * WSIZE)) (PACK DSIZE 1)
    let s := s.put (padd s.heap_listp (2 * WSIZE)) (PACK DSIZE 1)
    let s := s.put (padd s.heap_listp (3 * WSIZE)) (PACK 0 1)
    let s := { s with heap_listp := padd s.heap_listp (2 * WSIZE) }
    let r := extend_heap grant s (CHUNKSIZE / WSIZE)
    if r.1 = 0 then (-1, r.2)
    else (0, { r.2 with free_listp_520 := padd r.2.heap_listp DSIZE })

/-- `place`: place a block of `asize` bytes at the start of free block `bp`,
splitting when the remainder is at least the minimum block size. -/
def place (s : State) (bp asize : Nat) : State :=
  let csize := GET_SIZE s.mem (HDRP bp)
  if (csize + U64 - asize % U64) % U64 ≥ BSIZE then
    let s := s.put (HDRP bp) (PACK asize 1)
    let s := s.put (FTRP s.mem bp) (PACK asize 1)
    let next := GETA s bp
    let prev := GETA s (padd bp WSIZE)
    let s := removefromlist s next prev csize
    let bp := NEXT_BLKP s.mem bp
    let s := s.put (HDRP bp) (PACK ((csize + U64 - asize % U64) % U64) 0)
    let s := s.put (FTRP s.mem bp) (PACK ((csize + U64 - asize % U64) % U64) 0)
    addtolist s bp
  else
    let s := s.put (HDRP bp) (PACK csize 1)
    let s := s.put (FTRP s.mem bp) (PACK csize 1)
    let next := GETA s bp
    let prev := GETA s (padd bp WSIZE)
    removefromlist s next prev csize

/-- The `for` loop of `find_fit` over one bucket list, starting at `bp`:
`some bp` for the first fitting block, `some 0` when the list ends without a
fit, `none` when `fuel` nodes were visited without reaching either. -/
def find_in_list (s : State) (asize : Nat) : Nat → Nat → Option Nat
  | 0, _ => none
  | fuel + 1, bp =>
    if bp = 0 then some 0
    else if asize ≤ GET_SIZE s.mem (HDRP bp) then some bp
    else find_in_list s asize fuel (GETA s bp)

/-- The `do ... while (index <= 10)` loop of `find_fit`; `n` bounds the number
of iterations (twelve are enough, the index only grows). -/
def find_fit_loop (fuel : Nat) (s : State) (asize : Nat) :
    Nat → Bool → Nat → Nat → Option Nat
  | 0, _, _, _ => none
  | n + 1, first, free_listp, index =>
    let free_listp := if first then free_listp else nextlist s index
    let index := if first then index else index + 1
    match find_in_list s asize fuel free_listp with
    | none => none
    | some bp =>
      if bp ≠ 0 then some bp
      else if index ≤ 10 then find_fit_loop fuel s asize n false free_listp index
      else some 0

/-- `find_fit`: first fit, from the bucket of `asize` upwards. -/
def find_fit (fuel : Nat) (s : State) (asize : Nat) : Option Nat :=
  find_fit_loop fuel s asize 12 true (getlist s asize).1 (getlist s asize).2

/-- The adjusted block size computed by `malloc`. -/
def adjust (size : Nat) : Nat :=
  if size ≤ DSIZE then BSIZE
  else (DSIZE * (((size + DSIZE + (DSIZE - 1)) % U64) / DSIZE)) % U64

/-- `malloc`: the returned pointer (`0` is NULL) and the new state; `none` when
the free-list search ran out of fuel. -/
def malloc (fuel : Nat) (grant : Nat → Bool) (s : State) (size : Nat) :
    Option (Nat × State) :=
  let s := if s.heap_listp = 0 then (mm_init grant s).2 else s
  if size = 0 then some (0, s)
  else
    let asize := adjust size
    match find_fit fuel s asize with
    | none => none
    | some bp =>
      if bp ≠ 0 then some (bp, place s bp asize)
      else
        let extendsize := MAX asize CHUNKSIZE
        let r := extend_heap grant s (extendsize / WSIZE)
        if r.1 = 0 then some (0, r.2)
        else some (r.1, place r.2 r.1 asize)

/-- `free`. -/
def free (grant : Nat → Bool) (s : State) (bp : Nat) : State :=
  if bp = 0 then s
  else
    let size := GET_SIZE s.mem (HDRP bp)
    let s := if s.heap_listp = 0 then (mm_init grant s).2 else s
    let s := s.put (HDRP bp) (PACK size 0)
    let s := s.put (FTRP s.mem bp) (PACK size 0)
    (coalesce s bp).2

/-- `memset(p, c, n)` on the byte memory. -/
def memset (m : Mem) (p c n : Nat) : Mem := fun a =>
  if p ≤ a ∧ a < p + n then c % 256 else m a

/-- `memcpy(dst, src, n)` on the byte memory (the ranges do not overlap). -/
def memcpy (m : Mem) (dst src n : Nat) : Mem := fun a =>
  if dst ≤ a ∧ a < dst + n then m (src + (a - dst)) else m a

/-- `calloc`. -/
def calloc (fuel : Nat) (grant : Nat → Bool) (s : State) (nmemb size : Nat) :
    Option (Nat × State) :=
  let bytes := (nmemb * size) % U64
  match malloc fuel grant s bytes with
  | none => none
  | some (newptr, s) => some (newptr, { s with mem := memset s.mem newptr 0 bytes })

/-- `realloc`. -/
def realloc (fuel : Nat) (grant : Nat → Bool) (s : State) (ptr size : Nat) :
    Option (Nat × State) :=
  if size = 0 then some (0, free grant s ptr)
  else if ptr = 0 then malloc fuel grant s size
  else
    match malloc fuel grant s size with
    | none => none
    | some (newptr, s) =>
      if newptr = 0 then some (0, s)
      else
        let oldsize := GET_SIZE s.mem (HDRP ptr)
        let oldsize := if size < oldsize then size else oldsize
        let s := { s with mem := memcpy s.mem newptr ptr oldsize }
        some (newptr, free grant s ptr)

/-- `mm_free` (the name `realloc` calls `free` by). -/
def mm_free (grant : Nat → Bool) (s : State) (bp : Nat) : State := free grant s bp

/-- Walk the heap by `NEXT_BLKP` from block `bp` until a header of size zero
(the epilogue): the blocks visited, and the block pointer where the walk
stopped.  `none` when `fuel` blocks were visited without reaching one. -/
def walk (m : Mem) : Nat → Nat → Option (List Nat × Nat)
  | 0, _ => none
  | fuel + 1, bp =>
    if GET_SIZE m (HDRP bp) = 0 then some ([], bp)
    else
      match walk m fuel (NEXT_BLKP m bp) with
      | none => none
      | some r => some (bp :: r.1, r.2)

/-- An uninitialised allocator over an empty region that starts at address
4096, with all memory bytes zero. -/
def fresh : State := {
  mem := fun _ => 0, brk := 4096, calls := 0, heap_listp := 0,
  free_listp_16 := 0, free_listp_32 := 0, free_listp_40 := 0, free_listp_72 := 0,
  free_listp_132 := 0, free_listp_520 := 0, free_listp_1032 := 0, free_listp_2056 := 0,
  free_listp_3080 := 0, free_listp_5128 := 0, free_listp_7168 := 0, free_listp_max := 0,
  forinit := 1 }

/-- As `fresh`, with every memory byte holding `0xFF`. -/
def dirty : State := { fresh with mem := fun _ => 255 }

/-- A provider that grants every request. -/
def grantAll : Nat → Bool := fun _ => true

/-- A provider that refuses its second request only (the initial 512-byte
extension made by `mm_init`). -/
def refuseSecond : Nat → Bool := fun n => n != 1

/-- A provider that grants its first two requests (those of `mm_init`) and
refuses every later one. -/
def grantInitOnly : Nat → Bool := fun n => decide (n < 2)

/-! ## Definitions for the heap invariant -/

/-- Index of the size class of a block size: the index `getlist` reports. -/
def bucket (asize : Nat) : Nat :=
  if asize = 16 then 0
  else if asize ≤ 32 then 1
  else if asize ≤ 40 then 2
  else if asize ≤ 72 then 3
  else if asize ≤ 132 then 4
  else if asize ≤ 520 then 5
  else if asize ≤ 1032 then 6
  else if asize ≤ 2056 then 7
  else if asize ≤ 3080 then 8
  else if asize ≤ 5128 then 9
  else if asize ≤ 7168 then 10
  else 11

/-- The head pointer of bucket `k`. -/
def headOf (s : State) (k : Nat) : Nat :=
  match k with
  | 0 => s.free_listp_16
  | 1 => s.free_listp_32
  | 2 => s.free_listp_40
  | 3 => s.free_listp_72
  | 4 => s.free_listp_132
  | 5 => s.free_listp_520
  | 6 => s.free_listp_1032
  | 7 => s.free_listp_2056
  | 8 => s.free_listp_3080
  | 9 => s.free_listp_5128
  | 10 => s.free_listp_7168
  | 11 => s.free_listp_max
  | _ => 0

/-- A block of the heap: its block pointer, total size and allocated bit. -/
structure Blk where
  addr : Nat
  size : Nat
  alloc : Nat
deriving DecidableEq

/-- The blocks `bs` tile the addresses from block pointer `a` to block pointer `e`. -/
def Chain : Nat → List Blk → Nat → Prop
  | a, [], e => a = e
  | a, b :: bs, e => b.addr = a ∧ Chain (a + b.size) bs e

/-- Header and footer of block `b` are written in memory `m`. -/
def BlkOK (m : Mem) (b : Blk) : Prop :=
  16 ≤ b.size ∧ b.size % 8 = 0 ∧ b.alloc ≤ 1 ∧
  GET m (b.addr - 4) = b.size + b.alloc ∧ GET m (b.addr + b.size - 8) = b.size + b.alloc

/-- The blocks of `S` lie between `lo` and `hi` and do not overlap. -/
def Geo (lo hi : Nat) (S : Blk → Prop) : Prop :=
  (∀ b, S b → lo ≤ b.addr ∧ 16 ≤ b.size ∧ b.addr + b.size ≤ hi) ∧
  (∀ b c, S b → S c → b = c ∨ b.addr + b.size ≤ c.addr ∨ c.addr + c.size ≤ b.addr)

/-- The free lists are consistent on the set `S` of listed blocks: `nx a` and
`pv a` are the next and prev offsets stored in the block at `a`, `hd k` is the
head of bucket `k`, `H` is the base the offsets are relative to. -/
def LInv (H : Nat) (nx pv hd : Nat → Nat) (S : Blk → Prop) : Prop :=
  (∀ b, S b → nx b.addr = 0 ∨
      ∃ c, S c ∧ c.addr = H + nx b.addr ∧ H + pv c.addr = b.addr ∧ bucket c.size = bucket b.size) ∧
  (∀ b, S b → pv b.addr = 0 → hd (bucket b.size) = b.addr) ∧
  (∀ b, S b → pv b.addr ≠ 0 →
      ∃ c, S c ∧ c.addr = H + pv b.addr ∧ H + nx c.addr = b.addr ∧ bucket c.size = bucket b.size) ∧
  (∀ k, hd k = 0 ∨ ∃ b, S b ∧ b.addr = hd k ∧ pv b.addr = 0 ∧ bucket b.size = k)

/-- The free-list invariant `LInv` read off the memory and bucket heads of `s`. -/
def LInvS (s : State) (S : Blk → Prop) : Prop :=
  LInv s.heap_listp (fun a => GET s.mem a) (fun a => GET s.mem (a + 4)) (headOf s) S

/-- The heap of `s` is well formed with block list `bs`, and `S` is the set of
blocks threaded on the free lists (always free blocks of `bs`). -/
structure Heap (s : State) (bs : List Blk) (S : Blk → Prop) : Prop where
  forinit : s.forinit = 0
  base_lo : 8 ≤ s.heap_listp
  base_al : s.heap_listp % 8 = 0
  base_hi : s.heap_listp + 4294967296 ≤ 18446744073709551616
  brk_hi : s.brk < s.heap_listp + 4294967296
  pro_hdr : GET s.mem (s.heap_listp - 4) = 9
  pro_ftr : GET s.mem s.heap_listp = 9
  epi : GET s.mem (s.brk - 4) = 1
  chain : Chain (s.heap_listp + 8) bs s.brk
  blocks : ∀ b ∈ bs, BlkOK s.mem b
  listed : ∀ b, S b → b ∈ bs ∧ b.alloc = 0
  lists : LInvS s S

/-- The allocator invariant: the heap is well formed and exactly the free
blocks are on the free lists. -/
def Inv (s : State) (bs : List Blk) : Prop :=
  Heap s bs (fun b => b ∈ bs ∧ b.alloc = 0)

/-- Write header and footer `(size, al)` of the block at `bp`: the effect of
`PUT(HDRP(bp), PACK(size, al)); PUT(FTRP(bp), PACK(size, al))`. -/
def setBlock (s : State) (bp size al : Nat) : State :=
  (s.put (bp - 4) (size + al)).put (bp + size - 8) (size + al)

/-- The word at `q` meets no link word of a block of `S`. -/
def sepL (S : Blk → Prop) (q : Nat) : Prop := ∀ c, S c → q + 4 ≤ c.addr ∨ c.addr + 8 ≤ q

/-- The free lists of `s` are consistent on `S`, whose blocks lie below `hi`. -/
structure Links (s : State) (hi : Nat) (S : Blk → Prop) : Prop where
  base_hi : s.heap_listp + 4294967296 ≤ 18446744073709551616
  top : hi < s.heap_listp + 4294967296
  geo : Geo (s.heap_listp + 8) hi S
  inv : LInvS s S

/-- State `s'` agrees with `s` on the base pointer, the region end, the flag,
the provider's counter, and on every memory word that satisfies `P`. -/
structure Frame (s s' : State) (P : Nat → Prop) : Prop where
  heap_listp : s'.heap_listp = s.heap_listp
  brk : s'.brk = s.brk
  forinit : s'.forinit = s.forinit
  calls : s'.calls = s.calls
  mem : ∀ q, P q → GET s'.mem q = GET s.mem q

/-- The size-class table of the specification: `inClass k s` says that the block
size `s` lies in the range of bucket `k` (bucket 0 is exactly 16, buckets 1 to
10 are `(previous bound, bound]`, bucket 11 is everything above 7168). -/
def inClass : Nat → Nat → Prop
  | 0, s => s = 16
  | 1, s => 16 < s ∧ s ≤ 32
  | 2, s => 32 < s ∧ s ≤ 40
  | 3, s => 40 < s ∧ s ≤ 72
  | 4, s => 72 < s ∧ s ≤ 132
  | 5, s => 132 < s ∧ s ≤ 520
  | 6, s => 520 < s ∧ s ≤ 1032
  | 7, s => 1032 < s ∧ s ≤ 2056
  | 8, s => 2056 < s ∧ s ≤ 3080
  | 9, s => 3080 < s ∧ s ≤ 5128
  | 10, s => 5128 < s ∧ s ≤ 7168
  | 11, s => 7168 < s
  | _, _ => False

/-- `checkblock`: `true` when the block passes, `false` when the checker calls
`exit(1)`.  A block pointer that is not doubleword aligned is only reported
with `printf` (no `exit`), so it does not change the result. -/
def checkblock (s : State) (bp : Nat) : Bool :=
  if GET s.mem (HDRP bp) ≠ GET s.mem (FTRP s.mem bp) then false
  else if GETA s bp ≠ 0 ∧ GETA s (padd (GETA s bp) WSIZE) ≠ bp then false
  else if GETA s (padd bp WSIZE) ≠ 0 ∧ GETA s (GETA s (padd bp WSIZE)) ≠ bp then false
  else true

/-- The `for` loop of `mm_checkheap` over one bucket list, starting at `bp`:
`some true` when every block passed, `some false` when `checkblock` exited,
`none` when `fuel` nodes were visited without reaching the end of the list. -/
def check_list (s : State) : Nat → Nat → Option Bool
  | 0, _ => none
  | fuel + 1, bp =>
    if bp = 0 then some true
    else if checkblock s bp then check_list s fuel (GETA s bp)
    else some false

/-- The `do ... while (index <= 10)` loop of `mm_checkheap`; `n` bounds the
number of iterations. -/
def mm_checkheap_loop (fuel : Nat) (s : State) : Nat → Bool → Nat → Nat → Option Bool
  | 0, _, _, _ => none
  | n + 1, first, free_listp, index =>
    let free_listp := if first then free_listp else nextlist s index
    let index := if first then index else index + 1
    match check_list s fuel free_listp with
    | none => none
    | some false => some false
    | some true =>
      if index ≤ 10 then mm_checkheap_loop fuel s n false free_listp index
      else some true

/-- The test of the first statement of `mm_checkheap`, on the prologue header
at `HDRP(heap_listp)`; when it holds the checker prints "Bad prologue header"
and goes on. -/
def bad_prologue (s : State) : Bool :=
  decide (GET_SIZE s.mem (HDRP s.heap_listp) ≠ DSIZE ∨ GET_ALLOC s.mem (HDRP s.heap_listp) = 0)

/-- `mm_checkheap`: `some true` when the check completes, `some false` when it
does not complete, `none` when a list walk ran out of fuel.  The check does not
complete when `checkblock` calls `exit(1)`, and when the base pointer is null:
the first statement then reads the prologue header at `HDRP(NULL)`, four bytes
below address 0, where the process faults.  The diagnostics printed have no
effect on the result; the state is only read. -/
def mm_checkheap (fuel : Nat) (s : State) : Option Bool :=
  if s.heap_listp = 0 then some false
  else
    let _report := bad_prologue s
    mm_checkheap_loop fuel s 12 true s.free_listp_16 0

/-- The `n`-th node of the list that starts at `bp`, following next links. -/
def nthNode (s : State) (bp : Nat) : Nat → Nat
  | 0 => bp
  | n + 1 => GETA s (nthNode s bp n)

/-- Block `bp` is on the list of bucket `k`: it is reached from the head by
following next links through non-null nodes. -/
def onList (s : State) (k bp : Nat) : Prop :=
  ∃ n, nthNode s (headOf s k) n = bp ∧ ∀ m, m ≤ n → nthNode s (headOf s k) m ≠ 0

/-- The address of the last block of `L`, or `p` when `L` is empty. -/
def lastA : Nat → List Blk → Nat
  | p, [] => p
  | _, b :: L => lastA b.addr L

/-- A doubly linked list segment: starting at pointer `a`, whose predecessor is
`p`, the next pointers `nx` visit exactly the blocks of `L` in order and then
reach `t`, and the prev pointer `pv` of every block is its predecessor. -/
def SegF (nx pv : Nat → Nat) : Nat → Nat → List Blk → Nat → Prop
  | a, _, [], t => a = t
  | a, p, b :: L, t => b.addr = a ∧ pv b.addr = p ∧ SegF nx pv (nx b.addr) b.addr L t

/-- The list segment `SegF` read off the memory of `s` with `GETA`. -/
def Seg (s : State) (a p : Nat) (L : List Blk) (t : Nat) : Prop :=
  SegF (fun x => GETA s x) (fun x => GETA s (x + 4)) a p L t

/-- Block `b` is on the list of its bucket. -/
abbrev listed (Ls : Nat → List Blk) (b : Blk) : Prop := b ∈ Ls (bucket b.size)

/-- The free list of every bucket `k` is exactly the sequence `Ls k`: the head
of bucket `k` starts a null-terminated list that visits `Ls k` in order, with
consistent prev links and prev link null at the head; a block is only on the
list of the bucket of its size, and at most once. -/
structure Lists (s : State) (Ls : Nat → List Blk) : Prop where
  seg : ∀ k, Seg s (headOf s k) 0 (Ls k) 0
  bkt : ∀ k b, b ∈ Ls k → bucket b.size = k
  nd : ∀ k, (Ls k).Nodup

/-- The free lists of `s` are the sequences `Ls`, whose blocks lie below `hi`. -/
structure LL (s : State) (hi : Nat) (Ls : Nat → List Blk) : Prop where
  links : Links s hi (listed Ls)
  lists : Lists s Ls

/-- The heap of `s` is well formed with block list `bs`, and its free lists are
the sequences `Ls`. -/
structure HeapL (s : State) (bs : List Blk) (Ls : Nat → List Blk) : Prop where
  heap : Heap s bs (listed Ls)
  lists : Lists s Ls

/-- The well-formed heap: block list `bs`, free lists `Ls`, and every free
block is on the list of its bucket. -/
def Wf (s : State) (bs : List Blk) (Ls : Nat → List Blk) : Prop :=
  HeapL s bs Ls ∧ ∀ b, b ∈ bs → b.alloc = 0 → listed Ls b

/-- The blocks on the lists of the `n` buckets from bucket `k` on, in the order
in which `find_fit` visits them: bucket by bucket, each list from its head. -/
def fromBuckets (Ls : Nat → List Blk) : Nat → Nat → List Blk
  | _, 0 => []
  | k, n + 1 => Ls k ++ fromBuckets Ls (k + 1) n

/-- The pointer of the first block of `L` that has at least `asize` bytes, or
null when there is none. -/
def firstFit (asize : Nat) (L : List Blk) : Nat :=
  ((L.find? (fun b => decide (asize ≤ b.size))).map Blk.addr).getD 0

/-- No two blocks that are neighbours in the heap are both free. -/
def NoAdj (bs : List Blk) : Prop :=
  List.Chain' (fun x y => ¬ (x.alloc = 0 ∧ y.alloc = 0)) bs

/-- The payload pointers of the allocated blocks of a block list. -/
def live (bs : List Blk) : List Nat :=
  (bs.filter (fun b => decide (b.alloc ≠ 0))).map Blk.addr

/-- A sequence of `malloc` calls, one per request size; the returned pointers
in request order and the final state. -/
def mallocs (fuel : Nat) (grant : Nat → Bool) : State → List Nat → Option (List Nat × State)
  | s, [] => some ([], s)
  | s, n :: ns =>
    match malloc fuel grant s n with
    | none => none
    | some r =>
      match mallocs fuel grant r.2 ns with
      | none => none
      | some q => some (r.1 :: q.1, q.2)

/-- A sequence of `free` calls, one per pointer. -/
def frees (grant : Nat → Bool) : State → List Nat → State
  | s, [] => s
  | s, p :: ps => frees grant (free grant s p) ps

/-! ## Theorems -/

set_option linter.unusedVariables false

theorem and_even (x M : Nat) (hM : M % 2 = 0) : (x &&& M) % 2 = 0 := by
  rcases Nat.mod_two_eq_zero_or_one (x &&& M) with h | h
  · exact h
  · have := (Nat.and_mod_two_eq_one.mp h).2
    omega

theorem and_mask (x : Nat) (h : x < 4294967296) : x &&& 0xFFFFFFF8 = 8 * (x / 8) := by
  have h0 := and_even x 0xFFFFFFF8 (by decide)
  have h1 : (x &&& 0xFFFFFFF8) / 2 = x / 2 &&& 0x7FFFFFFC := by rw [Nat.and_div_two]
  have h1' := and_even (x / 2) 0x7FFFFFFC (by decide)
  have h2 : (x / 2 &&& 0x7FFFFFFC) / 2 = x / 2 / 2 &&& 0x3FFFFFFE := by rw [Nat.and_div_two]
  have h2' := and_even (x / 2 / 2) 0x3FFFFFFE (by decide)
  have h3 : (x / 2 / 2 &&& 0x3FFFFFFE) / 2 = x / 2 / 2 / 2 &&& 0x1FFFFFFF := by
    rw [Nat.and_div_two]
  have h4 : x / 2 / 2 / 2 &&& 0x1FFFFFFF = x / 2 / 2 / 2 := by
    have := Nat.and_pow_two_sub_one_of_lt_two_pow (x := x / 2 / 2 / 2) (n := 29)
      (by omega)
    simpa using this
  omega

theorem lor_one (x : Nat) (h : x % 2 = 0) : x ||| 1 = x + 1 := by
  have h1 : (x ||| 1) % 2 = 1 := by simp
  have h2 : (x ||| 1) / 2 = x / 2 := by rw [Nat.or_div_two]; simp
  omega

theorem GET_lt (m : Mem) (p : Nat) : GET m p < 4294967296 := by
  simp only [GET, U32]; omega

theorem GET_PUT_same (m : Mem) (p v : Nat) : GET (PUT m p v) p = v % 4294967296 := by
  simp only [GET, PUT, U32]
  simp
  omega

theorem PUT_apply_other (m : Mem) (p v a : Nat) (h : a < p ∨ p + 4 ≤ a) :
    PUT m p v a = m a := by
  simp only [PUT]
  rw [if_neg (by omega), if_neg (by omega), if_neg (by omega), if_neg (by omega)]

theorem GET_PUT_other (m : Mem) (p v q : Nat) (h : q + 4 ≤ p ∨ p + 4 ≤ q) :
    GET (PUT m p v) q = GET m q := by
  have h0 := PUT_apply_other m p v q (by omega)
  have h1 := PUT_apply_other m p v (q + 1) (by omega)
  have h2 := PUT_apply_other m p v (q + 2) (by omega)
  have h3 := PUT_apply_other m p v (q + 3) (by omega)
  simp only [GET, h0, h1, h2, h3]

theorem GET_SIZE_eq (m : Mem) (p : Nat) : GET_SIZE m p = 8 * (GET m p / 8) :=
  and_mask _ (GET_lt m p)

theorem GET_ALLOC_eq (m : Mem) (p : Nat) : GET_ALLOC m p = GET m p % 2 :=
  Nat.and_one_is_mod _

theorem PACK_zero (size : Nat) : PACK size 0 = size := Nat.or_zero _

theorem PACK_one (size : Nat) (h : size % 2 = 0) : PACK size 1 = size + 1 := lor_one _ h

theorem padd_eq (p n : Nat) (h : p + n < 18446744073709551616) : padd p n = p + n := Nat.mod_eq_of_lt h

theorem psub_eq (p n : Nat) (h : n ≤ p) (hp : p < 18446744073709551616) : psub p n = p - n := by
  simp only [psub, U64] at *; omega

theorem bucket_lt (a : Nat) : bucket a < 12 := by
  unfold bucket
  repeat' split
  all_goals omega

theorem getlist_eq (s : State) (a : Nat) : getlist s a = (headOf s (bucket a), bucket a) := by
  unfold getlist bucket
  by_cases h : a = 16
  · simp only [if_pos h]; rfl
  simp only [if_neg h]; clear h
  by_cases h : a ≤ 32
  · simp only [if_pos h]; rfl
  simp only [if_neg h]; clear h
  by_cases h : a ≤ 40
  · simp only [if_pos h]; rfl
  simp only [if_neg h]; clear h
  by_cases h : a ≤ 72
  · simp only [if_pos h]; rfl
  simp only [if_neg h]; clear h
  by_cases h : a ≤ 132
  · simp only [if_pos h]; rfl
  simp only [if_neg h]; clear h
  by_cases h : a ≤ 520
  · simp only [if_pos h]; rfl
  simp only [if_neg h]; clear h
  by_cases h : a ≤ 1032
  · simp only [if_pos h]; rfl
  simp only [if_neg h]; clear h
  by_cases h : a ≤ 2056
  · simp only [if_pos h]; rfl
  simp only [if_neg h]; clear h
  by_cases h : a ≤ 3080
  · simp only [if_pos h]; rfl
  simp only [if_neg h]; clear h
  by_cases h : a ≤ 5128
  · simp only [if_pos h]; rfl
  simp only [if_neg h]; clear h
  by_cases h : a ≤ 7168
  · simp only [if_pos h]; rfl
  simp only [if_neg h]; clear h
  rfl

@[simp] theorem update_mem (s : State) (a p : Nat) : (update s a p).mem = s.mem := by
  unfold update
  simp only [apply_ite State.mem, ite_self]

@[simp] theorem update_brk (s : State) (a p : Nat) : (update s a p).brk = s.brk := by
  unfold update
  simp only [apply_ite State.brk, ite_self]

@[simp] theorem update_calls (s : State) (a p : Nat) : (update s a p).calls = s.calls := by
  unfold update
  simp only [apply_ite State.calls, ite_self]

@[simp] theorem update_heap_listp (s : State) (a p : Nat) : (update s a p).heap_listp = s.heap_listp := by
  unfold update
  simp only [apply_ite State.heap_listp, ite_self]

@[simp] theorem update_forinit (s : State) (a p : Nat) : (update s a p).forinit = s.forinit := by
  unfold update
  simp only [apply_ite State.forinit, ite_self]

theorem headOf_update (s : State) (a p k : Nat) :
    headOf (update s a p) k = if k = bucket a then p else headOf s k := by
  unfold update bucket
  by_cases h : a = 16
  · simp only [if_pos h]; by_cases hk : k = 0
    · subst hk; rfl
    · rw [if_neg hk]; unfold headOf; split <;> first | rfl | omega
  simp only [if_neg h]; clear h
  by_cases h : a ≤ 32
  · simp only [if_pos h]; by_cases hk : k = 1
    · subst hk; rfl
    · rw [if_neg hk]; unfold headOf; split <;> first | rfl | omega
  simp only [if_neg h]; clear h
  by_cases h : a ≤ 40
  · simp only [if_pos h]; by_cases hk : k = 2
    · subst hk; rfl
    · rw [if_neg hk]; unfold headOf; split <;> first | rfl | omega
  simp only [if_neg h]; clear h
  by_cases h : a ≤ 72
  · simp only [if_pos h]; by_cases hk : k = 3
    · subst hk; rfl
    · rw [if_neg hk]; unfold headOf; split <;> first | rfl | omega
  simp only [if_neg h]; clear h
  by_cases h : a ≤ 132
  · simp only [if_pos h]; by_cases hk : k = 4
    · subst hk; rfl
    · rw [if_neg hk]; unfold headOf; split <;> first | rfl | omega
  simp only [if_neg h]; clear h
  by_cases h : a ≤ 520
  · simp only [if_pos h]; by_cases hk : k = 5
    · subst hk; rfl
    · rw [if_neg hk]; unfold headOf; split <;> first | rfl | omega
  simp only [if_neg h]; clear h
  by_cases h : a ≤ 1032
  · simp only [if_pos h]; by_cases hk : k = 6
    · subst hk; rfl
    · rw [if_neg hk]; unfold headOf; split <;> first | rfl | omega
  simp only [if_neg h]; clear h
  by_cases h : a ≤ 2056
  · simp only [if_pos h]; by_cases hk : k = 7
    · subst hk; rfl
    · rw [if_neg hk]; unfold headOf; split <;> first | rfl | omega
  simp only [if_neg h]; clear h
  by_cases h : a ≤ 3080
  · simp only [if_pos h]; by_cases hk : k = 8
    · subst hk; rfl
    · rw [if_neg hk]; unfold headOf; split <;> first | rfl | omega
  simp only [if_neg h]; clear h
  by_cases h : a ≤ 5128
  · simp only [if_pos h]; by_cases hk : k = 9
    · subst hk; rfl
    · rw [if_neg hk]; unfold headOf; split <;> first | rfl | omega
  simp only [if_neg h]; clear h
  by_cases h : a ≤ 7168
  · simp only [if_pos h]; by_cases hk : k = 10
    · subst hk; rfl
    · rw [if_neg hk]; unfold headOf; split <;> first | rfl | omega
  simp only [if_neg h]; clear h
  by_cases hk : k = 11
  · subst hk; rfl
  · rw [if_neg hk]; unfold headOf; split <;> first | rfl | omega

theorem bucket_int_to_size_t (v : Nat) (h : v < 4294967296) : bucket (int_to_size_t v) = bucket v := by
  unfold int_to_size_t
  rw [Nat.mod_eq_of_lt h]
  by_cases h1 : v < 2147483648
  · rw [if_pos h1]
  · rw [if_neg h1]
    unfold bucket
    repeat rw [if_neg (by omega)]

theorem LInv_remove {H : Nat} {nx pv hd : Nat → Nat} {S : Blk → Prop}
    (hinv : LInv H nx pv hd S)
    (hlow : ∀ b, S b → H < b.addr)
    (huniq : ∀ b c, S b → S c → b.addr = c.addr → b = c)
    {b : Blk} (hb : S b) {nx' pv' hd' : Nat → Nat}
    (hnx : ∀ d, S d → d ≠ b →
      nx' d.addr = if pv b.addr ≠ 0 ∧ d.addr = H + pv b.addr then nx b.addr else nx d.addr)
    (hpv : ∀ d, S d → d ≠ b →
      pv' d.addr = if nx b.addr ≠ 0 ∧ d.addr = H + nx b.addr then pv b.addr else pv d.addr)
    (hhd : ∀ k, hd' k = if pv b.addr = 0 ∧ k = bucket b.size
      then (if nx b.addr = 0 then 0 else H + nx b.addr) else hd k) :
    LInv H nx' pv' hd' (fun d => S d ∧ d ≠ b) := by
  obtain ⟨hN, hP0, hP, hHd⟩ := hinv
  have hbl := hlow b hb
  refine ⟨?_, ?_, ?_, ?_⟩
  · -- next links
    rintro d ⟨hd1, hdb⟩
    have hdl := hlow d hd1
    rw [hnx d hd1 hdb]
    by_cases hc : pv b.addr ≠ 0 ∧ d.addr = H + pv b.addr
    · rw [if_pos hc]
      by_cases hnb : nx b.addr = 0
      · exact Or.inl hnb
      · right
        rcases hN b hb with h0 | ⟨cn, hcn, hcna, hcnp, hcnb⟩
        · exact absurd h0 hnb
        · obtain ⟨cp, hcp, hcpa, hcpn, hcpb⟩ := hP b hb hc.1
          have hdcp : d = cp := huniq d cp hd1 hcp (by omega)
          have hcnb' : cn ≠ b := by
            intro h; subst h
            exact hdb (huniq d cn hd1 hb (by omega))
          refine ⟨cn, ⟨hcn, hcnb'⟩, hcna, ?_, ?_⟩
          · rw [hpv cn hcn hcnb', if_pos ⟨hnb, hcna⟩]; omega
          · rw [hcnb, hdcp, hcpb]
    · rw [if_neg hc]
      rcases hN d hd1 with h0 | ⟨c, hc1, hca, hcp, hcb⟩
      · exact Or.inl h0
      · right
        have hcb' : c ≠ b := by
          intro h; subst h
          exact hc ⟨by omega, by omega⟩
        refine ⟨c, ⟨hc1, hcb'⟩, hca, ?_, hcb⟩
        rw [hpv c hc1 hcb']
        by_cases hcc : nx b.addr ≠ 0 ∧ c.addr = H + nx b.addr
        · exfalso
          rcases hN b hb with h0 | ⟨cn, hcn, hcna, hcnp, _⟩
          · exact hcc.1 h0
          · have : c = cn := huniq c cn hc1 hcn (by omega)
            subst this
            exact hdb (huniq d b hd1 hb (by omega))
        · rw [if_neg hcc]; exact hcp
  · -- prev link zero: the block is the head of its bucket
    rintro d ⟨hd1, hdb⟩ hz
    have hdl := hlow d hd1
    rw [hpv d hd1 hdb] at hz
    rw [hhd]
    by_cases hcc : nx b.addr ≠ 0 ∧ d.addr = H + nx b.addr
    · rw [if_pos hcc] at hz
      rcases hN b hb with h0 | ⟨cn, hcn, hcna, hcnp, hcnb⟩
      · exact absurd h0 hcc.1
      · have : d = cn := huniq d cn hd1 hcn (by omega)
        subst this
        rw [if_pos ⟨hz, hcnb⟩, if_neg hcc.1]; omega
    · rw [if_neg hcc] at hz
      have h1 := hP0 d hd1 hz
      by_cases hk : pv b.addr = 0 ∧ bucket d.size = bucket b.size
      · exfalso
        have h2 := hP0 b hb hk.1
        rw [← hk.2, h1] at h2
        exact hdb (huniq d b hd1 hb h2)
      · rw [if_neg hk]; exact h1
  · -- prev link nonzero
    rintro d ⟨hd1, hdb⟩ hnz
    have hdl := hlow d hd1
    rw [hpv d hd1 hdb] at hnz ⊢
    by_cases hcc : nx b.addr ≠ 0 ∧ d.addr = H + nx b.addr
    · rw [if_pos hcc] at hnz ⊢
      obtain ⟨cp, hcp, hcpa, hcpn, hcpb⟩ := hP b hb hnz
      rcases hN b hb with h0 | ⟨cn, hcn, hcna, hcnp, hcnb⟩
      · exact absurd h0 hcc.1
      · have hdcn : d = cn := huniq d cn hd1 hcn (by omega)
        have hcpb' : cp ≠ b := by
          intro h; subst h
          exact hdb (huniq d cp hd1 hb (by omega))
        refine ⟨cp, ⟨hcp, hcpb'⟩, hcpa, ?_, ?_⟩
        · rw [hnx cp hcp hcpb', if_pos ⟨hnz, hcpa⟩]; omega
        · rw [hcpb, hdcn, hcnb]
    · rw [if_neg hcc] at hnz ⊢
      obtain ⟨c, hc1, hca, hcn, hcb⟩ := hP d hd1 hnz
      have hcb' : c ≠ b := by
        intro h; subst h
        exact hcc ⟨by omega, by omega⟩
      refine ⟨c, ⟨hc1, hcb'⟩, hca, ?_, hcb⟩
      rw [hnx c hc1 hcb']
      by_cases hc2 : pv b.addr ≠ 0 ∧ c.addr = H + pv b.addr
      · exfalso
        obtain ⟨cp, hcp, hcpa, hcpn, _⟩ := hP b hb hc2.1
        have : c = cp := huniq c cp hc1 hcp (by omega)
        subst this
        exact hdb (huniq d b hd1 hb (by omega))
      · rw [if_neg hc2]; exact hcn
  · -- heads
    intro k
    rw [hhd]
    by_cases hk : pv b.addr = 0 ∧ k = bucket b.size
    · rw [if_pos hk]
      by_cases hnb : nx b.addr = 0
      · rw [if_pos hnb]; exact Or.inl rfl
      · rw [if_neg hnb]
        right
        rcases hN b hb with h0 | ⟨cn, hcn, hcna, hcnp, hcnb⟩
        · exact absurd h0 hnb
        · have hcnb' : cn ≠ b := by
            intro h; subst h
            omega
          refine ⟨cn, ⟨hcn, hcnb'⟩, hcna, ?_, ?_⟩
          · rw [hpv cn hcn hcnb', if_pos ⟨hnb, hcna⟩]; exact hk.1
          · rw [hcnb, hk.2]
    · rw [if_neg hk]
      rcases hHd k with h0 | ⟨c, hc1, hca, hcp, hcb⟩
      · exact Or.inl h0
      · right
        have hcb' : c ≠ b := by
          intro h; subst h
          exact hk ⟨hcp, hcb.symm⟩
        refine ⟨c, ⟨hc1, hcb'⟩, hca, ?_, hcb⟩
        rw [hpv c hc1 hcb']
        by_cases hcc : nx b.addr ≠ 0 ∧ c.addr = H + nx b.addr
        · exfalso
          rcases hN b hb with h0 | ⟨cn, hcn, hcna, hcnp, _⟩
          · exact hcc.1 h0
          · have : c = cn := huniq c cn hc1 hcn (by omega)
            subst this
            omega
        · rw [if_neg hcc]; exact hcp

theorem LInv_add {H : Nat} {nx pv hd : Nat → Nat} {S : Blk → Prop}
    (hinv : LInv H nx pv hd S)
    (hlow : ∀ b, S b → H < b.addr)
    (huniq : ∀ b c, S b → S c → b.addr = c.addr → b = c)
    {r : Blk} (hrl : H < r.addr) (hr : ∀ c, S c → c.addr ≠ r.addr)
    {nx' pv' hd' : Nat → Nat}
    (hnxr : nx' r.addr = if hd (bucket r.size) = 0 then 0 else hd (bucket r.size) - H)
    (hpvr : pv' r.addr = 0)
    (hnx : ∀ d, S d → nx' d.addr = nx d.addr)
    (hpv : ∀ d, S d →
      pv' d.addr = if d.addr = hd (bucket r.size) then r.addr - H else pv d.addr)
    (hhd : ∀ k, hd' k = if k = bucket r.size then r.addr else hd k) :
    LInv H nx' pv' hd' (fun d => d = r ∨ S d) := by
  obtain ⟨hN, hP0, hP, hHd⟩ := hinv
  refine ⟨?_, ?_, ?_, ?_⟩
  · rintro d (rfl | hd1)
    · rw [hnxr]
      by_cases h0 : hd (bucket d.size) = 0
      · rw [if_pos h0]; exact Or.inl rfl
      · rw [if_neg h0]
        right
        rcases hHd (bucket d.size) with h | ⟨c, hc1, hca, hcp, hcb⟩
        · exact absurd h h0
        · have := hlow c hc1
          refine ⟨c, Or.inr hc1, by omega, ?_, hcb⟩
          rw [hpv c hc1, if_pos hca]; omega
    · rw [hnx d hd1]
      rcases hN d hd1 with h0 | ⟨c, hc1, hca, hcp, hcb⟩
      · exact Or.inl h0
      · right
        refine ⟨c, Or.inr hc1, hca, ?_, hcb⟩
        rw [hpv c hc1]
        by_cases hh : c.addr = hd (bucket r.size)
        · exfalso
          rcases hHd (bucket r.size) with h | ⟨c', hc'1, hc'a, hc'p, _⟩
          · have := hlow c hc1; omega
          · have : c = c' := huniq c c' hc1 hc'1 (by omega)
            subst this
            have := hlow d hd1; omega
        · rw [if_neg hh]; exact hcp
  · rintro d (rfl | hd1) hz
    · rw [hhd, if_pos rfl]
    · rw [hpv d hd1] at hz
      by_cases hh : d.addr = hd (bucket r.size)
      · rw [if_pos hh] at hz; omega
      · rw [if_neg hh] at hz
        have h1 := hP0 d hd1 hz
        rw [hhd]
        by_cases hk : bucket d.size = bucket r.size
        · rw [hk] at h1; exact absurd h1.symm hh
        · rw [if_neg hk]; exact h1
  · rintro d (rfl | hd1) hnz
    · exact absurd hpvr hnz
    · rw [hpv d hd1] at hnz ⊢
      by_cases hh : d.addr = hd (bucket r.size)
      · rw [if_pos hh]
        have hdl := hlow d hd1
        refine ⟨r, Or.inl rfl, by omega, ?_, ?_⟩
        · rw [hnxr, if_neg (by omega)]; omega
        · rcases hHd (bucket r.size) with h | ⟨c', hc'1, hc'a, hc'p, hc'b⟩
          · omega
          · have : d = c' := huniq d c' hd1 hc'1 (by omega)
            subst this
            exact hc'b.symm
      · rw [if_neg hh] at hnz ⊢
        obtain ⟨c, hc1, hca, hcn, hcb⟩ := hP d hd1 hnz
        exact ⟨c, Or.inr hc1, hca, by rw [hnx c hc1]; exact hcn, hcb⟩
  · intro k
    rw [hhd]
    by_cases hk : k = bucket r.size
    · rw [if_pos hk]
      exact Or.inr ⟨r, Or.inl rfl, rfl, hpvr, hk.symm⟩
    · rw [if_neg hk]
      rcases hHd k with h0 | ⟨c, hc1, hca, hcp, hcb⟩
      · exact Or.inl h0
      · right
        refine ⟨c, Or.inr hc1, hca, ?_, hcb⟩
        rw [hpv c hc1]
        by_cases hh : c.addr = hd (bucket r.size)
        · exfalso
          rcases hHd (bucket r.size) with h | ⟨c', hc'1, hc'a, hc'p, hc'b⟩
          · have := hlow c hc1; omega
          · have : c = c' := huniq c c' hc1 hc'1 (by omega)
            subst this
            exact hk (hcb.symm.trans hc'b)
        · rw [if_neg hh]; exact hcp

theorem LInv_congr {H : Nat} {nx pv hd nx' pv' hd' : Nat → Nat} {S S' : Blk → Prop}
    (hinv : LInv H nx pv hd S)
    (hS : ∀ b, S' b ↔ S b)
    (hnx : ∀ d, S d → nx' d.addr = nx d.addr)
    (hpv : ∀ d, S d → pv' d.addr = pv d.addr)
    (hhd : ∀ k, hd' k = hd k) :
    LInv H nx' pv' hd' S' := by
  obtain ⟨hN, hP0, hP, hHd⟩ := hinv
  refine ⟨?_, ?_, ?_, ?_⟩
  · intro b hb
    have hb := (hS b).mp hb
    rw [hnx b hb]
    rcases hN b hb with h | ⟨c, hc, h1, h2, h3⟩
    · exact Or.inl h
    · exact Or.inr ⟨c, (hS c).mpr hc, h1, by rw [hpv c hc]; exact h2, h3⟩
  · intro b hb hz
    have hb := (hS b).mp hb
    rw [hpv b hb] at hz
    rw [hhd]; exact hP0 b hb hz
  · intro b hb hnz
    have hb := (hS b).mp hb
    rw [hpv b hb] at hnz ⊢
    obtain ⟨c, hc, h1, h2, h3⟩ := hP b hb hnz
    exact ⟨c, (hS c).mpr hc, h1, by rw [hnx c hc]; exact h2, h3⟩
  · intro k
    rw [hhd]
    rcases hHd k with h | ⟨c, hc, h1, h2, h3⟩
    · exact Or.inl h
    · exact Or.inr ⟨c, (hS c).mpr hc, h1, by rw [hpv c hc]; exact h2, h3⟩

theorem GETA_eq (s : State) (p : Nat) (hH : s.heap_listp + 4294967296 ≤ 18446744073709551616) :
    GETA s p = if GET s.mem p = 0 then 0 else s.heap_listp + GET s.mem p := by
  have := GET_lt s.mem p
  simp only [GETA, CONVERTFROMOFFSET, padd, U64, U32] at *
  by_cases h : GET s.mem p = 0
  · simp [h]
  · simp only [h, ne_eq, not_false_eq_true, if_true, if_false, mul_one]
    omega

theorem CTO_eq (s : State) (ap : Nat) (h1 : ap ≠ 0 → s.heap_listp ≤ ap)
    (h2 : ap < s.heap_listp + 4294967296) (h3 : ap < 18446744073709551616) (hH : s.heap_listp < 18446744073709551616) :
    CONVERTTOOFFSET s ap = if ap = 0 then 0 else ap - s.heap_listp := by
  simp only [CONVERTTOOFFSET, psub, U64, U32] at *
  by_cases h : ap = 0
  · simp [h]
  · have := h1 h
    simp only [h, ne_eq, not_false_eq_true, if_true, if_false, mul_one]
    omega

theorem two_puts (m : Mem) (c1 c2 : Prop) [Decidable c1] [Decidable c2] (p1 v1 p2 v2 q : Nat)
    (h1 : c1 → q = p1 ∨ q + 4 ≤ p1 ∨ p1 + 4 ≤ q)
    (h2 : c2 → q = p2 ∨ q + 4 ≤ p2 ∨ p2 + 4 ≤ q)
    (hv1 : v1 < 4294967296) (hv2 : v2 < 4294967296) :
    GET (if c2 then PUT (if c1 then PUT m p1 v1 else m) p2 v2
          else (if c1 then PUT m p1 v1 else m)) q
      = if c2 ∧ q = p2 then v2 else if c1 ∧ q = p1 then v1 else GET m q := by
  have e1 : GET (if c1 then PUT m p1 v1 else m) q = if c1 ∧ q = p1 then v1 else GET m q := by
    by_cases hc1 : c1
    · rw [if_pos hc1]
      by_cases hq : q = p1
      · subst hq; rw [GET_PUT_same, if_pos ⟨hc1, rfl⟩, Nat.mod_eq_of_lt hv1]
      · rw [if_neg (fun h => hq h.2), GET_PUT_other]
        rcases h1 hc1 with h | h | h
        · exact absurd h hq
        · exact Or.inl h
        · exact Or.inr h
    · rw [if_neg hc1, if_neg (fun h => hc1 h.1)]
  by_cases hc2 : c2
  · by_cases hq : q = p2
    · subst hq
      simp only [hc2, if_true, true_and, GET_PUT_same, Nat.mod_eq_of_lt hv2]
    · have : GET (PUT (if c1 then PUT m p1 v1 else m) p2 v2) q
          = GET (if c1 then PUT m p1 v1 else m) q := by
        apply GET_PUT_other
        rcases h2 hc2 with h | h | h
        · exact absurd h hq
        · exact Or.inl h
        · exact Or.inr h
      simp only [hc2, if_true, hq, and_false, if_false, this, e1]
  · simp only [hc2, if_false, false_and, e1]

theorem headOf_PUTAFREE (s : State) (fl v k : Nat) : headOf (PUTAFREE s fl v) k = headOf s k := rfl

theorem headOf_put (s : State) (p v k : Nat) : headOf (s.put p v) k = headOf s k := rfl

theorem Geo_uniq {lo hi : Nat} {S : Blk → Prop} (hgeo : Geo lo hi S) :
    ∀ b c, S b → S c → b.addr = c.addr → b = c := by
  intro b c hb hc h
  rcases hgeo.2 b c hb hc with h1 | h1 | h1
  · exact h1
  · have := (hgeo.1 b hb).2.1; omega
  · have := (hgeo.1 c hc).2.1; omega

theorem LInvS_iff (s : State) (S : Blk → Prop) : LInvS s S ↔
    (∀ b, S b → GET s.mem b.addr = 0 ∨
      ∃ c, S c ∧ c.addr = s.heap_listp + GET s.mem b.addr
        ∧ s.heap_listp + GET s.mem (c.addr + 4) = b.addr ∧ bucket c.size = bucket b.size) ∧
    (∀ b, S b → GET s.mem (b.addr + 4) = 0 → headOf s (bucket b.size) = b.addr) ∧
    (∀ b, S b → GET s.mem (b.addr + 4) ≠ 0 →
      ∃ c, S c ∧ c.addr = s.heap_listp + GET s.mem (b.addr + 4)
        ∧ s.heap_listp + GET s.mem c.addr = b.addr ∧ bucket c.size = bucket b.size) ∧
    (∀ k, headOf s k = 0 ∨
      ∃ b, S b ∧ b.addr = headOf s k ∧ GET s.mem (b.addr + 4) = 0 ∧ bucket b.size = k) :=
  Iff.rfl

theorem removefromlist_mem (s : State) (next prev sz : Nat) :
    (removefromlist s next prev sz).mem =
      if next ≠ 0 then
        PUT (if prev ≠ 0 then PUT s.mem prev (CONVERTTOOFFSET s next) else s.mem)
          (padd next WSIZE) (CONVERTTOOFFSET s prev)
      else (if prev ≠ 0 then PUT s.mem prev (CONVERTTOOFFSET s next) else s.mem) := by
  simp only [removefromlist, update_mem]
  split_ifs <;> rfl

theorem removefromlist_head (s : State) (next prev sz k : Nat) :
    headOf (removefromlist s next prev sz) k =
      if k = bucket sz then (if prev ≠ 0 then headOf s (bucket sz) else next)
      else headOf s k := by
  simp only [removefromlist, headOf_update, getlist_eq]
  split_ifs <;> rfl

theorem removefromlist_effect (s : State) (S : Blk → Prop) (b : Blk) (hi sz : Nat)
    (hH : s.heap_listp + 4294967296 ≤ 18446744073709551616) (hhi : hi < s.heap_listp + 4294967296)
    (hgeo : Geo (s.heap_listp + 8) hi S) (hinv : LInvS s S) (hb : S b)
    (hsz : bucket sz = bucket b.size) :
    ((∀ d, S d → d ≠ b →
        GET (removefromlist s (GETA s b.addr) (GETA s (padd b.addr WSIZE)) sz).mem d.addr
          = if GET s.mem (b.addr + 4) ≠ 0 ∧ d.addr = s.heap_listp + GET s.mem (b.addr + 4)
            then GET s.mem b.addr else GET s.mem d.addr)
      ∧ (∀ d, S d → d ≠ b →
        GET (removefromlist s (GETA s b.addr) (GETA s (padd b.addr WSIZE)) sz).mem (d.addr + 4)
          = if GET s.mem b.addr ≠ 0 ∧ d.addr = s.heap_listp + GET s.mem b.addr
            then GET s.mem (b.addr + 4) else GET s.mem (d.addr + 4))
      ∧ (∀ k, headOf (removefromlist s (GETA s b.addr) (GETA s (padd b.addr WSIZE)) sz) k
          = if GET s.mem (b.addr + 4) = 0 ∧ k = bucket b.size
            then (if GET s.mem b.addr = 0 then 0 else s.heap_listp + GET s.mem b.addr)
            else headOf s k))
      ∧ (∀ q, (∀ c, S c → q + 4 ≤ c.addr ∨ c.addr + 8 ≤ q) →
          GET (removefromlist s (GETA s b.addr) (GETA s (padd b.addr WSIZE)) sz).mem q
            = GET s.mem q)
      ∧ (removefromlist s (GETA s b.addr) (GETA s (padd b.addr WSIZE)) sz).heap_listp
          = s.heap_listp
      ∧ (removefromlist s (GETA s b.addr) (GETA s (padd b.addr WSIZE)) sz).brk = s.brk
      ∧ (removefromlist s (GETA s b.addr) (GETA s (padd b.addr WSIZE)) sz).forinit = s.forinit
      ∧ (removefromlist s (GETA s b.addr) (GETA s (padd b.addr WSIZE)) sz).calls = s.calls := by
  have hbg := hgeo.1 b hb
  have huniq := Geo_uniq hgeo
  have hlow : ∀ c, S c → s.heap_listp < c.addr := fun c hc => by
    have := (hgeo.1 c hc).1; omega
  have hnlt := GET_lt s.mem b.addr
  have hplt := GET_lt s.mem (b.addr + 4)
  have e_next : GETA s b.addr
      = if GET s.mem b.addr = 0 then 0 else s.heap_listp + GET s.mem b.addr :=
    GETA_eq s _ hH
  have e_pa : padd b.addr WSIZE = b.addr + 4 := padd_eq _ 4 (by omega)
  have e_prev : GETA s (padd b.addr WSIZE)
      = if GET s.mem (b.addr + 4) = 0 then 0 else s.heap_listp + GET s.mem (b.addr + 4) := by
    rw [e_pa]; exact GETA_eq s _ hH
  obtain ⟨hN, hP0, hP, hHd⟩ := (LInvS_iff s S).mp hinv
  -- the neighbours in the list
  have hsepN : ∀ d, S d → GET s.mem b.addr = 0 ∨ d.addr = s.heap_listp + GET s.mem b.addr
      ∨ d.addr + 16 ≤ s.heap_listp + GET s.mem b.addr
      ∨ s.heap_listp + GET s.mem b.addr + 16 ≤ d.addr := by
    intro d hd
    rcases hN b hb with h | ⟨cn, hcn, hcna, _, _⟩
    · exact Or.inl h
    · have h1 := hgeo.1 d hd
      have h2 := hgeo.1 cn hcn
      rcases hgeo.2 d cn hd hcn with h | h | h
      · subst h; omega
      · omega
      · omega
  have hsepP : ∀ d, S d → GET s.mem (b.addr + 4) = 0
      ∨ d.addr = s.heap_listp + GET s.mem (b.addr + 4)
      ∨ d.addr + 16 ≤ s.heap_listp + GET s.mem (b.addr + 4)
      ∨ s.heap_listp + GET s.mem (b.addr + 4) + 16 ≤ d.addr := by
    intro d hd
    by_cases h0 : GET s.mem (b.addr + 4) = 0
    · exact Or.inl h0
    · obtain ⟨cp, hcp, hcpa, _, _⟩ := hP b hb h0
      have h1 := hgeo.1 d hd
      have h2 := hgeo.1 cp hcp
      rcases hgeo.2 d cp hd hcp with h | h | h
      · subst h; omega
      · omega
      · omega
  have hNhi : GET s.mem b.addr = 0 ∨ s.heap_listp + GET s.mem b.addr + 16 ≤ hi := by
    rcases hN b hb with h | ⟨cn, hcn, hcna, _, _⟩
    · exact Or.inl h
    · have h2 := hgeo.1 cn hcn; omega
  -- the words written
  have e_cn : CONVERTTOOFFSET s (GETA s b.addr) = GET s.mem b.addr := by
    rw [CTO_eq s _ (by rw [e_next]; split_ifs <;> omega)
      (by rw [e_next]; split_ifs <;> omega)
      (by rw [e_next]; split_ifs <;> omega) (by omega), e_next]
    split_ifs <;> omega
  have e_cp : CONVERTTOOFFSET s (GETA s (padd b.addr WSIZE)) = GET s.mem (b.addr + 4) := by
    rw [CTO_eq s _ (by rw [e_prev]; split_ifs <;> omega)
      (by rw [e_prev]; split_ifs <;> omega)
      (by rw [e_prev]; split_ifs <;> omega) (by omega), e_prev]
    split_ifs <;> omega
  have e_n0 : GETA s b.addr ≠ 0 ↔ GET s.mem b.addr ≠ 0 := by
    rw [e_next]; split_ifs <;> omega
  have e_p0 : GETA s (padd b.addr WSIZE) ≠ 0 ↔ GET s.mem (b.addr + 4) ≠ 0 := by
    rw [e_prev]; split_ifs <;> omega
  have e_n4 : GET s.mem b.addr ≠ 0 →
      padd (GETA s b.addr) WSIZE = s.heap_listp + GET s.mem b.addr + 4 := by
    intro h
    rw [e_next, if_neg h]; exact padd_eq _ 4 (by omega)
  have hread : ∀ q,
      (GET s.mem b.addr = 0 ∨ q = s.heap_listp + GET s.mem b.addr + 4
        ∨ q + 4 ≤ s.heap_listp + GET s.mem b.addr + 4
        ∨ s.heap_listp + GET s.mem b.addr + 8 ≤ q) →
      (GET s.mem (b.addr + 4) = 0 ∨ q = s.heap_listp + GET s.mem (b.addr + 4)
        ∨ q + 4 ≤ s.heap_listp + GET s.mem (b.addr + 4)
        ∨ s.heap_listp + GET s.mem (b.addr + 4) + 4 ≤ q) →
      GET (removefromlist s (GETA s b.addr) (GETA s (padd b.addr WSIZE)) sz).mem q
        = if GET s.mem b.addr ≠ 0 ∧ q = s.heap_listp + GET s.mem b.addr + 4
          then GET s.mem (b.addr + 4)
          else if GET s.mem (b.addr + 4) ≠ 0 ∧ q = s.heap_listp + GET s.mem (b.addr + 4)
          then GET s.mem b.addr else GET s.mem q := by
    intro q h1 h2
    rw [removefromlist_mem, two_puts, e_cn, e_cp]
    · by_cases hn : GET s.mem b.addr = 0
      · by_cases hp : GET s.mem (b.addr + 4) = 0
        · simp [e_n0, e_p0, hn, hp]
        · simp [e_n0, e_p0, hn, hp, e_prev]
      · by_cases hp : GET s.mem (b.addr + 4) = 0
        · simp [e_n0, e_p0, hn, hp, e_n4 hn]
        · simp [e_n0, e_p0, hn, hp, e_prev, e_n4 hn]
    · intro h
      have hp := e_p0.mp h
      rw [e_prev, if_neg hp]; omega
    · intro h
      have hn := e_n0.mp h
      rw [e_n4 hn]; omega
    · rw [e_cn]; omega
    · rw [e_cp]; omega
  refine ⟨⟨?_, ?_, ?_⟩, ?_, ?_, ?_, ?_, ?_⟩
  · intro d hd hdb
    have h1 := hsepN d hd
    have h2 := hsepP d hd
    show GET _ d.addr = _
    rw [hread d.addr (by omega) (by omega), if_neg (by omega)]
  · intro d hd hdb
    have h1 := hsepN d hd
    have h2 := hsepP d hd
    show GET _ (d.addr + 4) = _
    rw [hread (d.addr + 4) (by omega) (by omega)]
    by_cases hc : GET s.mem b.addr ≠ 0 ∧ d.addr = s.heap_listp + GET s.mem b.addr
    · rw [if_pos ⟨hc.1, by omega⟩, if_pos hc]
    · rw [if_neg (by omega), if_neg hc, if_neg (by omega)]
  · intro k
    rw [removefromlist_head, hsz]
    by_cases hk : k = bucket b.size
    · subst hk
      by_cases hp : GET s.mem (b.addr + 4) = 0
      · simp [e_p0, hp, e_next]
      · simp [e_p0, hp]
    · simp [hk]
  · intro q hq
    have h1 : GET s.mem b.addr = 0 ∨ q + 4 ≤ s.heap_listp + GET s.mem b.addr
        ∨ s.heap_listp + GET s.mem b.addr + 8 ≤ q := by
      rcases hN b hb with h | ⟨cn, hcn, hcna, _, _⟩
      · exact Or.inl h
      · have := hq cn hcn; omega
    have h2 : GET s.mem (b.addr + 4) = 0 ∨ q + 4 ≤ s.heap_listp + GET s.mem (b.addr + 4)
        ∨ s.heap_listp + GET s.mem (b.addr + 4) + 8 ≤ q := by
      by_cases h0 : GET s.mem (b.addr + 4) = 0
      · exact Or.inl h0
      · obtain ⟨cp, hcp, hcpa, _, _⟩ := hP b hb h0
        have := hq cp hcp; omega
    rw [hread q (by omega) (by omega), if_neg (by omega), if_neg (by omega)]
  · simp [removefromlist, PUTAFREE]; split_ifs <;> rfl
  · simp [removefromlist, PUTAFREE]; split_ifs <;> rfl
  · simp [removefromlist, PUTAFREE]; split_ifs <;> rfl
  · simp [removefromlist, PUTAFREE]; split_ifs <;> rfl

theorem removefromlist_spec (s : State) (S : Blk → Prop) (b : Blk) (hi sz : Nat)
    (hH : s.heap_listp + 4294967296 ≤ 18446744073709551616) (hhi : hi < s.heap_listp + 4294967296)
    (hgeo : Geo (s.heap_listp + 8) hi S) (hinv : LInvS s S) (hb : S b)
    (hsz : bucket sz = bucket b.size) :
    LInvS (removefromlist s (GETA s b.addr) (GETA s (padd b.addr WSIZE)) sz)
        (fun d => S d ∧ d ≠ b)
      ∧ (∀ q, (∀ c, S c → q + 4 ≤ c.addr ∨ c.addr + 8 ≤ q) →
          GET (removefromlist s (GETA s b.addr) (GETA s (padd b.addr WSIZE)) sz).mem q
            = GET s.mem q)
      ∧ (removefromlist s (GETA s b.addr) (GETA s (padd b.addr WSIZE)) sz).heap_listp
          = s.heap_listp
      ∧ (removefromlist s (GETA s b.addr) (GETA s (padd b.addr WSIZE)) sz).brk = s.brk
      ∧ (removefromlist s (GETA s b.addr) (GETA s (padd b.addr WSIZE)) sz).forinit = s.forinit
      ∧ (removefromlist s (GETA s b.addr) (GETA s (padd b.addr WSIZE)) sz).calls = s.calls := by
  obtain ⟨⟨e1, e2, e3⟩, fq, hl, r⟩ := removefromlist_effect s S b hi sz hH hhi hgeo hinv hb hsz
  refine ⟨?_, fq, hl, r⟩
  have huniq := Geo_uniq hgeo
  have hlow : ∀ c, S c → s.heap_listp < c.addr := fun c hc => by
    have := (hgeo.1 c hc).1; omega
  unfold LInvS
  rw [hl]
  exact LInv_remove hinv hlow huniq hb e1 e2 e3

theorem GET_PUT_cases (m : Mem) (p v q : Nat) (h : q = p ∨ q + 4 ≤ p ∨ p + 4 ≤ q) :
    GET (PUT m p v) q = if q = p then v % 4294967296 else GET m q := by
  by_cases hq : q = p
  · subst hq; rw [if_pos rfl, GET_PUT_same]
  · rw [if_neg hq, GET_PUT_other]; omega

theorem GET_SIZE_of (m : Mem) (p size al : Nat) (h : GET m p = size + al) (h8 : size % 8 = 0)
    (hal : al ≤ 1) : GET_SIZE m p = size ∧ GET_ALLOC m p = al := by
  rw [GET_SIZE_eq, GET_ALLOC_eq, h]; omega

theorem addtolist_mem (s : State) (bp : Nat) :
    (addtolist s bp).mem =
      if headOf s (bucket (int_to_size_t (GET_SIZE s.mem (HDRP bp)))) ≠ 0 then
        PUT (PUT (PUT s.mem bp
            (CONVERTTOOFFSET s (headOf s (bucket (int_to_size_t (GET_SIZE s.mem (HDRP bp)))))))
          (padd bp WSIZE) (CONVERTTOOFFSET s 0))
          (padd (headOf s (bucket (int_to_size_t (GET_SIZE s.mem (HDRP bp))))) WSIZE)
          (CONVERTTOOFFSET s bp)
      else
        PUT (PUT s.mem bp
            (CONVERTTOOFFSET s (headOf s (bucket (int_to_size_t (GET_SIZE s.mem (HDRP bp)))))))
          (padd bp WSIZE) (CONVERTTOOFFSET s 0) := by
  simp only [addtolist, update_mem, getlist_eq]
  split_ifs <;> rfl

theorem addtolist_head (s : State) (bp k : Nat) :
    headOf (addtolist s bp) k =
      if k = bucket (int_to_size_t (GET_SIZE s.mem (HDRP bp))) then bp else headOf s k := by
  simp only [addtolist, headOf_update, getlist_eq]
  split_ifs <;> rfl

theorem addtolist_effect (s : State) (S : Blk → Prop) (r : Blk) (hi : Nat)
    (hH : s.heap_listp + 4294967296 ≤ 18446744073709551616) (hhi : hi < s.heap_listp + 4294967296)
    (hgeo : Geo (s.heap_listp + 8) hi (fun d => d = r ∨ S d)) (hinv : LInvS s S)
    (hr : ¬ S r) (hhdr : GET s.mem (r.addr - 4) = r.size) (h8 : r.size % 8 = 0) :
    (GET (addtolist s r.addr).mem r.addr
          = (if headOf s (bucket r.size) = 0 then 0
             else headOf s (bucket r.size) - s.heap_listp)
      ∧ GET (addtolist s r.addr).mem (r.addr + 4) = 0
      ∧ (∀ d, S d → GET (addtolist s r.addr).mem d.addr = GET s.mem d.addr)
      ∧ (∀ d, S d → GET (addtolist s r.addr).mem (d.addr + 4)
          = if d.addr = headOf s (bucket r.size) then r.addr - s.heap_listp
            else GET s.mem (d.addr + 4))
      ∧ (∀ k, headOf (addtolist s r.addr) k
          = if k = bucket r.size then r.addr else headOf s k))
      ∧ (∀ q, (∀ c, (c = r ∨ S c) → q + 4 ≤ c.addr ∨ c.addr + 8 ≤ q) →
          GET (addtolist s r.addr).mem q = GET s.mem q)
      ∧ (addtolist s r.addr).heap_listp = s.heap_listp
      ∧ (addtolist s r.addr).brk = s.brk
      ∧ (addtolist s r.addr).forinit = s.forinit
      ∧ (addtolist s r.addr).calls = s.calls := by
  have hrg := hgeo.1 r (Or.inl rfl)
  have hgeoS : Geo (s.heap_listp + 8) hi S :=
    ⟨fun b hb => hgeo.1 b (Or.inr hb), fun b c hb hc => hgeo.2 b c (Or.inr hb) (Or.inr hc)⟩
  have huniq := Geo_uniq hgeoS
  have hlow : ∀ c, S c → s.heap_listp < c.addr := fun c hc => by
    have := (hgeoS.1 c hc).1; omega
  have hsep : ∀ c, S c → c.addr + 16 ≤ r.addr ∨ r.addr + 16 ≤ c.addr := by
    intro c hc
    have h1 := hgeoS.1 c hc
    rcases hgeo.2 c r (Or.inr hc) (Or.inl rfl) with h | h | h
    · subst h; exact absurd hc hr
    · omega
    · omega
  obtain ⟨hN, hP0, hP, hHd⟩ := (LInvS_iff s S).mp hinv
  have hslt : r.size < 4294967296 := by omega
  have e_hdrp : HDRP r.addr = r.addr - 4 := psub_eq _ 4 (by omega) (by omega)
  have e_sz : GET_SIZE s.mem (HDRP r.addr) = r.size := by
    rw [e_hdrp]; exact (GET_SIZE_of _ _ r.size 0 hhdr h8 (by omega)).1
  have e_bk : bucket (int_to_size_t (GET_SIZE s.mem (HDRP r.addr))) = bucket r.size := by
    rw [e_sz]; exact bucket_int_to_size_t _ hslt
  have e_pa : padd r.addr WSIZE = r.addr + 4 := padd_eq _ 4 (by omega)
  -- the old head
  have hhead : headOf s (bucket r.size) = 0 ∨
      ∃ h, S h ∧ h.addr = headOf s (bucket r.size) ∧ GET s.mem (h.addr + 4) = 0 :=  by
    rcases hHd (bucket r.size) with h | ⟨h, h1, h2, h3, _⟩
    · exact Or.inl h
    · exact Or.inr ⟨h, h1, h2, h3⟩
  have hfl : headOf s (bucket r.size) = 0 ∨
      (s.heap_listp + 8 ≤ headOf s (bucket r.size) ∧ headOf s (bucket r.size) + 16 ≤ hi
        ∧ (headOf s (bucket r.size) + 16 ≤ r.addr ∨ r.addr + 16 ≤ headOf s (bucket r.size))) := by
    rcases hhead with h | ⟨h, h1, h2, _⟩
    · exact Or.inl h
    · have := hgeoS.1 h h1
      have := hsep h h1
      right; omega
  have hsepH : ∀ d, S d → headOf s (bucket r.size) = 0 ∨ d.addr = headOf s (bucket r.size)
      ∨ d.addr + 16 ≤ headOf s (bucket r.size) ∨ headOf s (bucket r.size) + 16 ≤ d.addr := by
    intro d hd
    rcases hhead with h | ⟨h, h1, h2, _⟩
    · exact Or.inl h
    · have := hgeoS.1 h h1
      have := hgeoS.1 d hd
      rcases hgeoS.2 d h hd h1 with h | h | h
      · subst h; omega
      · omega
      · omega
  have e_pf : headOf s (bucket r.size) ≠ 0 →
      padd (headOf s (bucket r.size)) WSIZE = headOf s (bucket r.size) + 4 := fun h =>
    padd_eq _ 4 (by omega)
  have e_c0 : CONVERTTOOFFSET s 0 = 0 := by simp [CONVERTTOOFFSET]
  have e_cr : CONVERTTOOFFSET s r.addr = r.addr - s.heap_listp := by
    rw [CTO_eq s _ (by omega) (by omega) (by omega)
      (by omega), if_neg (by omega)]
  have e_cf : CONVERTTOOFFSET s (headOf s (bucket r.size))
      = if headOf s (bucket r.size) = 0 then 0 else headOf s (bucket r.size) - s.heap_listp :=
    CTO_eq s _ (by omega) (by omega) (by omega)
      (by omega)
  have hread : ∀ q,
      (q = r.addr ∨ q + 4 ≤ r.addr ∨ r.addr + 4 ≤ q) →
      (q = r.addr + 4 ∨ q + 4 ≤ r.addr + 4 ∨ r.addr + 8 ≤ q) →
      (headOf s (bucket r.size) = 0 ∨ q = headOf s (bucket r.size) + 4
        ∨ q + 4 ≤ headOf s (bucket r.size) + 4 ∨ headOf s (bucket r.size) + 8 ≤ q) →
      GET (addtolist s r.addr).mem q
        = if headOf s (bucket r.size) ≠ 0 ∧ q = headOf s (bucket r.size) + 4
          then r.addr - s.heap_listp
          else if q = r.addr + 4 then 0
          else if q = r.addr
          then (if headOf s (bucket r.size) = 0 then 0
                else headOf s (bucket r.size) - s.heap_listp)
          else GET s.mem q := by
    intro q h1 h2 h3
    have hv2 : (r.addr - s.heap_listp) % 4294967296 = r.addr - s.heap_listp := by
      apply Nat.mod_eq_of_lt; omega
    by_cases hf : headOf s (bucket r.size) = 0
    · rw [if_pos hf] at e_cf
      rw [addtolist_mem, e_bk, if_neg (not_not.mpr hf), e_pa, e_c0, e_cf,
        GET_PUT_cases _ _ _ _ (by omega), GET_PUT_cases _ _ _ _ (by omega)]
      simp [hf]
    · rw [if_neg hf] at e_cf
      have hv1 : (headOf s (bucket r.size) - s.heap_listp) % 4294967296
          = headOf s (bucket r.size) - s.heap_listp := by
        apply Nat.mod_eq_of_lt; omega
      rw [addtolist_mem, e_bk, if_pos hf, e_pf hf, e_pa, e_c0, e_cr, e_cf,
        GET_PUT_cases _ _ _ _ (by omega),
        GET_PUT_cases _ _ _ _ (by omega), GET_PUT_cases _ _ _ _ (by omega), hv1, hv2]
      simp [hf]
  have hl : (addtolist s r.addr).heap_listp = s.heap_listp := by
    simp [addtolist, PUTAFREE]; split_ifs <;> rfl
  refine ⟨⟨?_, ?_, ?_, ?_, ?_⟩, ?_, hl, ?_, ?_, ?_⟩
  · show GET _ r.addr = _
    rw [hread r.addr (by omega) (by omega) (by omega), if_neg (by omega), if_neg (by omega),
      if_pos rfl]
  · show GET _ (r.addr + 4) = _
    rw [hread (r.addr + 4) (by omega) (by omega) (by omega), if_neg (by omega), if_pos rfl]
  · intro d hd
    have h1 := hsep d hd
    have h2 := hsepH d hd
    show GET _ d.addr = _
    rw [hread d.addr (by omega) (by omega) (by omega), if_neg (by omega), if_neg (by omega),
      if_neg (by omega)]
  · intro d hd
    have h1 := hsep d hd
    have h2 := hsepH d hd
    have h3 := hlow d hd
    show GET _ (d.addr + 4) = _
    rw [hread (d.addr + 4) (by omega) (by omega) (by omega)]
    by_cases hc : d.addr = headOf s (bucket r.size)
    · rw [if_pos ⟨by omega, by omega⟩, if_pos hc]
    · rw [if_neg (by omega), if_neg (by omega), if_neg (by omega), if_neg hc]
  · intro k
    rw [addtolist_head, e_bk]
  · intro q hq
    have h1 := hq r (Or.inl rfl)
    have h2 : headOf s (bucket r.size) = 0 ∨ q + 4 ≤ headOf s (bucket r.size)
        ∨ headOf s (bucket r.size) + 8 ≤ q := by
      rcases hhead with h | ⟨h, hh1, hh2, _⟩
      · exact Or.inl h
      · have := hq h (Or.inr hh1); omega
    rw [hread q (by omega) (by omega) (by omega), if_neg (by omega), if_neg (by omega),
      if_neg (by omega)]
  · simp [addtolist, PUTAFREE]; split_ifs <;> rfl
  · simp [addtolist, PUTAFREE]; split_ifs <;> rfl
  · simp [addtolist, PUTAFREE]; split_ifs <;> rfl

theorem addtolist_spec (s : State) (S : Blk → Prop) (r : Blk) (hi : Nat)
    (hH : s.heap_listp + 4294967296 ≤ 18446744073709551616) (hhi : hi < s.heap_listp + 4294967296)
    (hgeo : Geo (s.heap_listp + 8) hi (fun d => d = r ∨ S d)) (hinv : LInvS s S)
    (hr : ¬ S r) (hhdr : GET s.mem (r.addr - 4) = r.size) (h8 : r.size % 8 = 0) :
    LInvS (addtolist s r.addr) (fun d => d = r ∨ S d)
      ∧ (∀ q, (∀ c, (c = r ∨ S c) → q + 4 ≤ c.addr ∨ c.addr + 8 ≤ q) →
          GET (addtolist s r.addr).mem q = GET s.mem q)
      ∧ (addtolist s r.addr).heap_listp = s.heap_listp
      ∧ (addtolist s r.addr).brk = s.brk
      ∧ (addtolist s r.addr).forinit = s.forinit
      ∧ (addtolist s r.addr).calls = s.calls := by
  obtain ⟨⟨e1, e2, e3, e4, e5⟩, fq, hl, rest⟩ :=
    addtolist_effect s S r hi hH hhi hgeo hinv hr hhdr h8
  refine ⟨?_, fq, hl, rest⟩
  have hrg := hgeo.1 r (Or.inl rfl)
  have hgeoS : Geo (s.heap_listp + 8) hi S :=
    ⟨fun b hb => hgeo.1 b (Or.inr hb), fun b c hb hc => hgeo.2 b c (Or.inr hb) (Or.inr hc)⟩
  have huniq := Geo_uniq hgeoS
  have hlow : ∀ c, S c → s.heap_listp < c.addr := fun c hc => by
    have := (hgeoS.1 c hc).1; omega
  have hsep : ∀ c, S c → c.addr ≠ r.addr := by
    intro c hc
    have h1 := hgeoS.1 c hc
    rcases hgeo.2 c r (Or.inr hc) (Or.inl rfl) with h | h | h
    · subst h; exact absurd hc hr
    · omega
    · omega
  unfold LInvS
  rw [hl]
  exact LInv_add hinv hlow huniq (by omega) hsep e1 e2 e3 e4 e5

theorem chain_append (l1 l2 : List Blk) (a e : Nat) :
    Chain a (l1 ++ l2) e ↔ ∃ mid, Chain a l1 mid ∧ Chain mid l2 e := by
  induction l1 generalizing a with
  | nil => simp [Chain]
  | cons b l1 ih =>
    show (b.addr = a ∧ Chain (a + b.size) (l1 ++ l2) e)
      ↔ ∃ mid, (b.addr = a ∧ Chain (a + b.size) l1 mid) ∧ Chain mid l2 e
    rw [ih]
    constructor
    · rintro ⟨h, mid, h1, h2⟩; exact ⟨mid, ⟨h, h1⟩, h2⟩
    · rintro ⟨mid, ⟨h, h1⟩, h2⟩; exact ⟨h, mid, h1, h2⟩

theorem chain_bounds {bs : List Blk} {a e : Nat} (h : Chain a bs e) :
    a ≤ e ∧ ∀ b ∈ bs, a ≤ b.addr ∧ b.addr + b.size ≤ e := by
  induction bs generalizing a with
  | nil => simp only [Chain] at h; subst h; simp
  | cons b l ih =>
    obtain ⟨h1, h2⟩ := h
    have := ih h2
    refine ⟨by omega, ?_⟩
    intro c hc
    rcases List.mem_cons.mp hc with rfl | hc
    · omega
    · have := this.2 c hc; omega

theorem chain_mid {l1 l2 : List Blk} {b : Blk} {a e : Nat} (h : Chain a (l1 ++ b :: l2) e) :
    Chain a l1 b.addr ∧ Chain (b.addr + b.size) l2 e := by
  obtain ⟨mid, h1, h2, h3⟩ := (chain_append _ _ _ _).mp h
  subst h2
  exact ⟨h1, h3⟩

theorem chain_join {l1 l2 : List Blk} {a mid e : Nat} (h1 : Chain a l1 mid)
    (h2 : Chain mid l2 e) : Chain a (l1 ++ l2) e :=
  (chain_append _ _ _ _).mpr ⟨mid, h1, h2⟩

theorem chain_pairwise {bs : List Blk} {a e : Nat} (h : Chain a bs e) :
    ∀ b ∈ bs, ∀ c ∈ bs, b = c ∨ b.addr + b.size ≤ c.addr ∨ c.addr + c.size ≤ b.addr := by
  induction bs generalizing a with
  | nil => intro b hb; cases hb
  | cons x l ih =>
    obtain ⟨h1, h2⟩ := h
    have hb := (chain_bounds h2).2
    intro b hb1 c hc1
    rcases List.mem_cons.mp hb1 with hbx | hb1
    · rcases List.mem_cons.mp hc1 with hcx | hc1
      · left; rw [hbx, hcx]
      · have := hb c hc1; subst hbx; right; left; omega
    · rcases List.mem_cons.mp hc1 with hcx | hc1
      · have := hb b hb1; subst hcx; right; right; omega
      · exact ih h2 b hb1 c hc1

theorem chain_sum {bs : List Blk} {a e : Nat} (h : Chain a bs e) :
    a + (bs.map Blk.size).sum = e := by
  induction bs generalizing a with
  | nil => simpa [Chain] using h
  | cons b l ih =>
    obtain ⟨h1, h2⟩ := h
    have := ih h2
    simp only [List.map_cons, List.sum_cons]
    omega

theorem chain_geo {bs : List Blk} {a e : Nat} (h : Chain a bs e)
    (h16 : ∀ b ∈ bs, 16 ≤ b.size) (S : Blk → Prop) (hS : ∀ b, S b → b ∈ bs) :
    Geo a e S :=
  ⟨fun b hb => by
      have := (chain_bounds h).2 b (hS b hb)
      have := h16 b (hS b hb)
      omega,
   fun b c hb hc => chain_pairwise h b (hS b hb) c (hS c hc)⟩

/-- The block before `b` in the chain, or the start of the chain. -/
theorem chain_prev {l1 l2 : List Blk} {b : Blk} {a e : Nat} (h : Chain a (l1 ++ b :: l2) e) :
    (l1 = [] ∧ b.addr = a) ∨ ∃ l p, l1 = l ++ [p] ∧ p.addr + p.size = b.addr := by
  rcases List.eq_nil_or_concat l1 with h0 | ⟨l, p, h0⟩
  all_goals try rw [List.concat_eq_append] at h0
  · subst h0
    left; exact ⟨rfl, h.1⟩
  · right
    subst h0
    refine ⟨l, p, rfl, ?_⟩
    have h1 := (chain_mid h).1
    have h2 := chain_mid h1
    simp only [Chain] at h2
    exact h2.2

/-- The block after `b` in the chain, or the end of the chain. -/
theorem chain_next {l1 l2 : List Blk} {b : Blk} {a e : Nat} (h : Chain a (l1 ++ b :: l2) e) :
    (l2 = [] ∧ b.addr + b.size = e) ∨ ∃ n l, l2 = n :: l ∧ n.addr = b.addr + b.size := by
  have h1 := (chain_mid h).2
  cases l2 with
  | nil => left; exact ⟨rfl, h1⟩
  | cons n l => right; exact ⟨n, l, rfl, h1.1⟩

@[simp] theorem put_mem (s : State) (p v : Nat) : (s.put p v).mem = PUT s.mem p v := rfl
@[simp] theorem put_heap_listp (s : State) (p v : Nat) : (s.put p v).heap_listp = s.heap_listp := rfl
@[simp] theorem put_brk (s : State) (p v : Nat) : (s.put p v).brk = s.brk := rfl
@[simp] theorem put_calls (s : State) (p v : Nat) : (s.put p v).calls = s.calls := rfl
@[simp] theorem put_forinit (s : State) (p v : Nat) : (s.put p v).forinit = s.forinit := rfl

@[simp] theorem setBlock_heap_listp (s : State) (bp size al : Nat) :
    (setBlock s bp size al).heap_listp = s.heap_listp := rfl
@[simp] theorem setBlock_brk (s : State) (bp size al : Nat) :
    (setBlock s bp size al).brk = s.brk := rfl
@[simp] theorem setBlock_calls (s : State) (bp size al : Nat) :
    (setBlock s bp size al).calls = s.calls := rfl
@[simp] theorem setBlock_forinit (s : State) (bp size al : Nat) :
    (setBlock s bp size al).forinit = s.forinit := rfl
theorem headOf_setBlock (s : State) (bp size al k : Nat) :
    headOf (setBlock s bp size al) k = headOf s k := rfl

theorem setBlock_hdr (s : State) (bp size al : Nat) (h4 : 4 ≤ bp) (h8 : 8 ≤ size)
    (hv : size + al < 4294967296) : GET (setBlock s bp size al).mem (bp - 4) = size + al := by
  simp only [setBlock, put_mem]
  rw [GET_PUT_other _ _ _ _ (by omega), GET_PUT_same, Nat.mod_eq_of_lt hv]

theorem setBlock_ftr (s : State) (bp size al : Nat)
    (hv : size + al < 4294967296) : GET (setBlock s bp size al).mem (bp + size - 8) = size + al := by
  simp only [setBlock, put_mem]
  rw [GET_PUT_same, Nat.mod_eq_of_lt hv]

theorem setBlock_other (s : State) (bp size al q : Nat) (h4 : 4 ≤ bp) (h8 : 8 ≤ size)
    (h1 : q + 4 ≤ bp - 4 ∨ bp ≤ q) (h2 : q + 4 ≤ bp + size - 8 ∨ bp + size - 4 ≤ q) :
    GET (setBlock s bp size al).mem q = GET s.mem q := by
  simp only [setBlock, put_mem]
  rw [GET_PUT_other _ _ _ _ (by omega), GET_PUT_other _ _ _ _ (by omega)]

/-- The two stores of a header/footer pair, as written in the source. -/
theorem put_hdr_ftr (s : State) (bp size al : Nat) (h4 : 4 ≤ bp) (h8 : size % 8 = 0)
    (hal : al ≤ 1) (h88 : 8 ≤ size) (hv : size + al < 4294967296) (hb : bp + size < 18446744073709551616) :
    (s.put (HDRP bp) (PACK size al)).put (FTRP (s.put (HDRP bp) (PACK size al)).mem bp)
        (PACK size al) = setBlock s bp size al := by
  have e1 : HDRP bp = bp - 4 := psub_eq _ 4 h4 (by omega)
  have e2 : PACK size al = size + al := by
    rcases Nat.le_one_iff_eq_zero_or_eq_one.mp hal with h | h
    · subst h; exact PACK_zero _
    · subst h; exact PACK_one _ (by omega)
  have e3 : GET (PUT s.mem (bp - 4) (size + al)) (bp - 4) = size + al := by
    rw [GET_PUT_same, Nat.mod_eq_of_lt hv]
  have e4 : FTRP (s.put (bp - 4) (size + al)).mem bp = bp + size - 8 := by
    simp only [FTRP, put_mem, e1]
    rw [(GET_SIZE_of _ _ size al e3 h8 hal).1, padd_eq _ _ hb]
    exact psub_eq _ 8 (by omega) hb
  rw [e1, e2, e4]
  rfl

theorem LInvS_frame {s s' : State} {S S' : Blk → Prop} (hinv : LInvS s S)
    (hH : s'.heap_listp = s.heap_listp) (hhd : ∀ k, headOf s' k = headOf s k)
    (hm : ∀ d, S d → GET s'.mem d.addr = GET s.mem d.addr
      ∧ GET s'.mem (d.addr + 4) = GET s.mem (d.addr + 4))
    (hS : ∀ b, S' b ↔ S b) : LInvS s' S' := by
  unfold LInvS
  rw [hH]
  exact LInv_congr hinv hS (fun d hd => (hm d hd).1) (fun d hd => (hm d hd).2) hhd

/-- Header and footer words of a block of the chain do not meet the link
words of any block of the chain. -/
theorem words_sep {bs : List Blk} {a e : Nat} (hch : Chain a bs e) (ha : 4 ≤ a)
    (h16 : ∀ b ∈ bs, 16 ≤ b.size) {d c : Blk} (hd : d ∈ bs) (hc : c ∈ bs) :
    (d.addr - 4 + 4 ≤ c.addr ∨ c.addr + 8 ≤ d.addr - 4)
      ∧ (d.addr + d.size - 8 + 4 ≤ c.addr ∨ c.addr + 8 ≤ d.addr + d.size - 8) := by
  have h1 := (chain_bounds hch).2 d hd
  have h2 := (chain_bounds hch).2 c hc
  have h3 := h16 d hd
  have h4 := h16 c hc
  rcases chain_pairwise hch d hd c hc with h | h | h
  · subst h; omega
  · omega
  · omega

/-- A word inside the extent of block `b` does not meet the header, footer or
link words of another block of the chain. -/
theorem extent_sep {bs : List Blk} {a e : Nat} (hch : Chain a bs e) (ha : 4 ≤ a)
    (h16 : ∀ b ∈ bs, 16 ≤ b.size) {b d : Blk} (hb : b ∈ bs) (hd : d ∈ bs) (hne : d ≠ b)
    (q : Nat) (hq1 : b.addr - 4 ≤ q) (hq2 : q + 4 ≤ b.addr + b.size - 4) :
    (q + 4 ≤ d.addr - 4 ∨ d.addr + d.size - 4 ≤ q) := by
  have h1 := (chain_bounds hch).2 d hd
  have h2 := (chain_bounds hch).2 b hb
  have h3 := h16 d hd
  have h4 := h16 b hb
  rcases chain_pairwise hch d hd b hb with h | h | h
  · exact absurd h hne
  · omega
  · omega

theorem chain_split_ne {l1 l2 : List Blk} {b : Blk} {a e : Nat}
    (h : Chain a (l1 ++ b :: l2) e) (hpos : 0 < b.size) :
    (∀ c ∈ l1, c ≠ b) ∧ (∀ c ∈ l2, c ≠ b) := by
  obtain ⟨h1, h2⟩ := chain_mid h
  constructor
  · intro c hc hcb
    have := (chain_bounds h1).2 c hc
    subst hcb; omega
  · intro c hc hcb
    have := (chain_bounds h2).2 c hc
    subst hcb; omega

theorem place_cond (csize asize : Nat) (hle : asize ≤ csize) (hc : csize < 4294967296) :
    (csize + 18446744073709551616 - asize % 18446744073709551616) % 18446744073709551616 = csize - asize := by
  omega

/-- A word inside the extent of block `b`, other than the link words of `b`,
does not meet the link words of any block of the chain. -/
theorem extent_link_sep {bs : List Blk} {a e : Nat} (hch : Chain a bs e) (ha : 4 ≤ a)
    (h16 : ∀ b ∈ bs, 16 ≤ b.size) {b d : Blk} (hb : b ∈ bs) (hd : d ∈ bs)
    (q : Nat) (hq1 : b.addr - 4 ≤ q) (hq2 : q + 4 ≤ b.addr + b.size - 4)
    (hq3 : q + 4 ≤ b.addr ∨ b.addr + 8 ≤ q) :
    (q + 4 ≤ d.addr ∨ d.addr + 8 ≤ q) := by
  have h1 := (chain_bounds hch).2 d hd
  have h2 := (chain_bounds hch).2 b hb
  have h3 := h16 d hd
  have h4 := h16 b hb
  rcases chain_pairwise hch d hd b hb with h | h | h
  · subst h; omega
  · omega
  · omega

theorem Frame.refl (s : State) (P : Nat → Prop) : Frame s s P :=
  ⟨rfl, rfl, rfl, rfl, fun _ _ => rfl⟩

theorem Frame.trans {s s' s'' : State} {P Q R : Nat → Prop} (h1 : Frame s s' P)
    (h2 : Frame s' s'' Q) (hR : ∀ q, R q → P q ∧ Q q) : Frame s s'' R :=
  ⟨h2.heap_listp.trans h1.heap_listp, h2.brk.trans h1.brk, h2.forinit.trans h1.forinit,
    h2.calls.trans h1.calls,
    fun q hq => (h2.mem q (hR q hq).2).trans (h1.mem q (hR q hq).1)⟩

theorem Frame.weaken {s s' : State} {P R : Nat → Prop} (h1 : Frame s s' P)
    (hR : ∀ q, R q → P q) : Frame s s' R :=
  ⟨h1.heap_listp, h1.brk, h1.forinit, h1.calls, fun q hq => h1.mem q (hR q hq)⟩

theorem Heap.links {s : State} {bs : List Blk} {S : Blk → Prop} (h : Heap s bs S) :
    Links s s.brk S :=
  ⟨h.base_hi, h.brk_hi,
    chain_geo h.chain (fun b hb => (h.blocks b hb).1) S (fun b hb => (h.listed b hb).1),
    h.lists⟩

theorem Links.congr {s : State} {hi : Nat} {S S' : Blk → Prop} (h : Links s hi S)
    (hS : ∀ b, S' b ↔ S b) : Links s hi S' :=
  ⟨h.base_hi, h.top,
    ⟨fun b hb => h.geo.1 b ((hS b).mp hb),
     fun b c hb hc => h.geo.2 b c ((hS b).mp hb) ((hS c).mp hc)⟩,
    LInvS_frame h.inv rfl (fun _ => rfl) (fun _ _ => ⟨rfl, rfl⟩) hS⟩

theorem remove_step {s : State} {hi : Nat} {S : Blk → Prop} (h : Links s hi S) {b : Blk}
    (hb : S b) (sz : Nat) (hsz : bucket sz = bucket b.size) :
    Links (removefromlist s (GETA s b.addr) (GETA s (padd b.addr WSIZE)) sz) hi
        (fun d => S d ∧ d ≠ b)
      ∧ Frame s (removefromlist s (GETA s b.addr) (GETA s (padd b.addr WSIZE)) sz) (sepL S) := by
  obtain ⟨h1, h2, h3, h4, h5, h6⟩ :=
    removefromlist_spec s S b hi sz h.base_hi h.top h.geo h.inv hb hsz
  refine ⟨⟨?_, ?_, ?_, h1⟩, ⟨h3, h4, h5, h6, h2⟩⟩
  · rw [h3]; exact h.base_hi
  · rw [h3]; exact h.top
  · rw [h3]
    exact ⟨fun c hc => h.geo.1 c hc.1, fun c d hc hd => h.geo.2 c d hc.1 hd.1⟩

theorem add_step {s : State} {hi : Nat} {S : Blk → Prop} (h : Links s hi S) {r : Blk}
    (hr : ¬ S r) (hlo : s.heap_listp + 8 ≤ r.addr) (h16 : 16 ≤ r.size)
    (hhi : r.addr + r.size ≤ hi)
    (hdis : ∀ c, S c → c.addr + c.size ≤ r.addr ∨ r.addr + r.size ≤ c.addr)
    (hhdr : GET s.mem (r.addr - 4) = r.size) (h8 : r.size % 8 = 0) :
    Links (addtolist s r.addr) hi (fun d => d = r ∨ S d)
      ∧ Frame s (addtolist s r.addr) (sepL (fun d => d = r ∨ S d)) := by
  have hgeo : Geo (s.heap_listp + 8) hi (fun d => d = r ∨ S d) := by
    constructor
    · rintro c (rfl | hc)
      · exact ⟨hlo, h16, hhi⟩
      · exact h.geo.1 c hc
    · rintro c d (rfl | hc) (rfl | hd)
      · exact Or.inl rfl
      · have := hdis d hd; right; omega
      · have := hdis c hc; right; omega
      · exact h.geo.2 c d hc hd
  obtain ⟨h1, h2, h3, h4, h5, h6⟩ :=
    addtolist_spec s S r hi h.base_hi h.top hgeo h.inv hr hhdr h8
  refine ⟨⟨?_, ?_, ?_, h1⟩, ⟨h3, h4, h5, h6, h2⟩⟩
  · rw [h3]; exact h.base_hi
  · rw [h3]; exact h.top
  · rw [h3]; exact hgeo

theorem setBlock_frame (s : State) (bp size al : Nat) (h4 : 4 ≤ bp) (h8 : 8 ≤ size) :
    Frame s (setBlock s bp size al)
      (fun q => (q + 4 ≤ bp - 4 ∨ bp ≤ q) ∧ (q + 4 ≤ bp + size - 8 ∨ bp + size - 4 ≤ q)) :=
  ⟨rfl, rfl, rfl, rfl, fun q hq => setBlock_other s bp size al q h4 h8 hq.1 hq.2⟩

theorem sepL_word {S : Blk → Prop} {p : Nat} (h : sepL S p) (c : Blk) (hc : S c) :
    (c.addr + 4 ≤ p ∨ p + 4 ≤ c.addr) ∧ (c.addr + 4 + 4 ≤ p ∨ p + 4 ≤ c.addr + 4) := by
  have := h c hc
  omega

theorem setBlock_step {s : State} {hi : Nat} {S : Blk → Prop} (h : Links s hi S)
    (bp size al : Nat) (h4 : 4 ≤ bp) (h8 : 8 ≤ size)
    (hs1 : sepL S (bp - 4)) (hs2 : sepL S (bp + size - 8)) :
    Links (setBlock s bp size al) hi S := by
  refine ⟨h.base_hi, h.top, h.geo, ?_⟩
  refine LInvS_frame h.inv rfl (fun _ => rfl) ?_ (fun _ => Iff.rfl)
  intro d hd
  have a1 := sepL_word hs1 d hd
  have a2 := sepL_word hs2 d hd
  constructor
  · exact setBlock_other _ _ _ _ _ h4 h8 (by omega) (by omega)
  · exact setBlock_other _ _ _ _ _ h4 h8 (by omega) (by omega)

theorem Heap.sep_sentinels {s : State} {bs : List Blk} {S : Blk → Prop} (h : Heap s bs S) :
    sepL S (s.heap_listp - 4) ∧ sepL S s.heap_listp ∧ sepL S (s.brk - 4) := by
  have hg := h.links.geo
  have hlo := h.base_lo
  refine ⟨fun c hc => ?_, fun c hc => ?_, fun c hc => ?_⟩
  · have := hg.1 c hc; omega
  · have := hg.1 c hc; omega
  · have := hg.1 c hc; omega

theorem Heap.sep_block {s : State} {bs : List Blk} {S : Blk → Prop} (h : Heap s bs S)
    {c : Blk} (hc : c ∈ bs) : sepL S (c.addr - 4) ∧ sepL S (c.addr + c.size - 8) := by
  have hlo := h.base_lo
  have h16 : ∀ b ∈ bs, 16 ≤ b.size := fun b hb => (h.blocks b hb).1
  exact ⟨fun d hd => (words_sep h.chain (by omega) h16 hc (h.listed d hd).1).1,
    fun d hd => (words_sep h.chain (by omega) h16 hc (h.listed d hd).1).2⟩

/-- A word inside block `b` that is not one of its link words meets no link word. -/
theorem Heap.sep_inside {s : State} {bs : List Blk} {S : Blk → Prop} (h : Heap s bs S)
    {b : Blk} (hb : b ∈ bs) (q : Nat) (hq1 : b.addr - 4 ≤ q) (hq2 : q + 4 ≤ b.addr + b.size - 4)
    (hq3 : q + 4 ≤ b.addr ∨ b.addr + 8 ≤ q) : sepL S q := by
  have hlo := h.base_lo
  have h16 : ∀ b ∈ bs, 16 ≤ b.size := fun b hb => (h.blocks b hb).1
  exact fun d hd => extent_link_sep h.chain (by omega) h16 hb (h.listed d hd).1 q hq1 hq2 hq3

theorem BlkOK_frame {m m' : Mem} {c : Blk} (h : BlkOK m c)
    (h1 : GET m' (c.addr - 4) = GET m (c.addr - 4))
    (h2 : GET m' (c.addr + c.size - 8) = GET m (c.addr + c.size - 8)) : BlkOK m' c :=
  ⟨h.1, h.2.1, h.2.2.1, h1.trans h.2.2.2.1, h2.trans h.2.2.2.2⟩

theorem Heap_rebuild {s s' : State} {l1 l2 : List Blk} (old mid : List Blk)
    {S S' : Blk → Prop} {x y : Nat}
    (h : Heap s (l1 ++ (old ++ l2)) S)
    (h1 : Chain (s.heap_listp + 8) l1 x) (hm : Chain x mid y) (h2 : Chain y l2 s.brk)
    (hfr : Frame s s' (fun q => (q + 4 ≤ x - 4 ∨ y - 4 ≤ q) ∧ sepL S q))
    (hmid : ∀ b ∈ mid, BlkOK s'.mem b)
    (hS' : ∀ c, S' c → c ∈ l1 ++ (mid ++ l2) ∧ c.alloc = 0)
    (hL : LInvS s' S') :
    Heap s' (l1 ++ (mid ++ l2)) S' := by
  have hlo := h.base_lo
  have hx := (chain_bounds h1).1
  have hy := (chain_bounds h2).1
  have hxy := (chain_bounds hm).1
  obtain ⟨p1, p2, p3⟩ := h.sep_sentinels
  refine
    { forinit := by rw [hfr.forinit]; exact h.forinit
      base_lo := by rw [hfr.heap_listp]; exact hlo
      base_al := by rw [hfr.heap_listp]; exact h.base_al
      base_hi := by rw [hfr.heap_listp]; exact h.base_hi
      brk_hi := by rw [hfr.heap_listp, hfr.brk]; exact h.brk_hi
      pro_hdr := by
        rw [hfr.heap_listp, hfr.mem _ ⟨by omega, p1⟩]; exact h.pro_hdr
      pro_ftr := by
        rw [hfr.heap_listp, hfr.mem _ ⟨by omega, p2⟩]; exact h.pro_ftr
      epi := by
        rw [hfr.brk, hfr.mem _ ⟨by omega, p3⟩]; exact h.epi
      chain := by
        rw [hfr.heap_listp, hfr.brk]; exact chain_join h1 (chain_join hm h2)
      blocks := ?_
      listed := hS'
      lists := hL }
  intro c hc
  rcases List.mem_append.mp hc with hc | hc
  · have hcm : c ∈ l1 ++ (old ++ l2) := by simp [hc]
    have hb := (chain_bounds h1).2 c hc
    have hs := h.sep_block hcm
    have h16 := (h.blocks c hcm).1
    exact BlkOK_frame (h.blocks c hcm) (hfr.mem _ ⟨by omega, hs.1⟩)
      (hfr.mem _ ⟨by omega, hs.2⟩)
  · rcases List.mem_append.mp hc with hc | hc
    · exact hmid c hc
    · have hcm : c ∈ l1 ++ (old ++ l2) := by simp [hc]
      have hb := (chain_bounds h2).2 c hc
      have hs := h.sep_block hcm
      have h16 := (h.blocks c hcm).1
      exact BlkOK_frame (h.blocks c hcm) (hfr.mem _ ⟨by omega, hs.1⟩)
        (hfr.mem _ ⟨by omega, hs.2⟩)

/-- Membership in a chain with the middle replaced. -/
theorem mem_replace {l1 l2 : List Blk} (mid : List Blk) {b : Blk} {a e : Nat}
    (h : Chain a (l1 ++ b :: l2) e) (hpos : 0 < b.size) (c : Blk) :
    c ∈ l1 ++ (mid ++ l2) ↔ (c ∈ mid ∨ (c ∈ l1 ++ b :: l2 ∧ c ≠ b)) := by
  have hne := chain_split_ne h hpos
  simp only [List.mem_append, List.mem_cons]
  constructor
  · rintro (h | h | h)
    · exact Or.inr ⟨Or.inl h, hne.1 c h⟩
    · exact Or.inl h
    · exact Or.inr ⟨Or.inr (Or.inr h), hne.2 c h⟩
  · rintro (h | ⟨h | h | h, hcb⟩)
    · exact Or.inr (Or.inl h)
    · exact Or.inl h
    · exact absurd h hcb
    · exact Or.inr (Or.inr h)

theorem HDRP_eq (bp : Nat) (h4 : 4 ≤ bp) (hb : bp < 18446744073709551616) : HDRP bp = bp - 4 :=
  psub_eq _ 4 h4 hb

theorem place_whole_shape (s : State) (bp asize csize : Nat) (h4 : 4 ≤ bp)
    (hb : bp + csize < 18446744073709551616) (hcs : GET s.mem (bp - 4) = csize) (hc8 : csize % 8 = 0)
    (hc16 : 8 ≤ csize) (hc32 : csize + 1 < 4294967296) (hle : asize ≤ csize)
    (hsmall : csize - asize < 16) :
    place s bp asize = removefromlist (setBlock s bp csize 1)
      (GETA (setBlock s bp csize 1) bp) (GETA (setBlock s bp csize 1) (padd bp WSIZE)) csize := by
  have e0 : GET_SIZE s.mem (HDRP bp) = csize := by
    rw [HDRP_eq _ h4 (by omega)]; exact (GET_SIZE_of _ _ _ 0 hcs hc8 (by omega)).1
  have hcond : ¬ (csize + 18446744073709551616 - asize % 18446744073709551616) % 18446744073709551616 ≥ 16 := by
    rw [place_cond _ _ hle (by omega)]; omega
  have e1 := put_hdr_ftr s bp csize 1 h4 hc8 (by omega) hc16 hc32 hb
  simp only [place]
  rw [e0, if_neg hcond, e1]

theorem place_split_shape (s : State) (bp asize csize : Nat) (h4 : 4 ≤ bp)
    (hb : bp + csize < 18446744073709551616) (hcs : GET s.mem (bp - 4) = csize) (hc8 : csize % 8 = 0)
    (hc32 : csize + 1 < 4294967296) (ha8 : asize % 8 = 0) (ha16 : 8 ≤ asize) (hle : asize ≤ csize)
    (hbig : 16 ≤ csize - asize)
    (hs3 : GET (removefromlist (setBlock s bp asize 1) (GETA (setBlock s bp asize 1) bp)
      (GETA (setBlock s bp asize 1) (padd bp WSIZE)) csize).mem (bp - 4) = asize + 1) :
    place s bp asize = addtolist (setBlock (removefromlist (setBlock s bp asize 1)
      (GETA (setBlock s bp asize 1) bp) (GETA (setBlock s bp asize 1) (padd bp WSIZE)) csize)
      (bp + asize) (csize - asize) 0) (bp + asize) := by
  have e0 : GET_SIZE s.mem (HDRP bp) = csize := by
    rw [HDRP_eq _ h4 (by omega)]; exact (GET_SIZE_of _ _ _ 0 hcs hc8 (by omega)).1
  have hpc := place_cond _ _ hle (show csize < 4294967296 by omega)
  have hcond : (csize + 18446744073709551616 - asize % 18446744073709551616) % 18446744073709551616 ≥ BSIZE := by
    rw [hpc]; exact hbig
  have e1 := put_hdr_ftr s bp asize 1 h4 ha8 (by omega) ha16 (by omega) (by omega)
  have e3 : NEXT_BLKP (removefromlist (setBlock s bp asize 1) (GETA (setBlock s bp asize 1) bp)
      (GETA (setBlock s bp asize 1) (padd bp WSIZE)) csize).mem bp = bp + asize := by
    simp only [NEXT_BLKP]
    rw [psub_eq _ 4 h4 (by omega), (GET_SIZE_of _ _ _ _ hs3 ha8 (by omega)).1]
    exact padd_eq _ _ (by omega)
  have e4 := put_hdr_ftr (removefromlist (setBlock s bp asize 1)
      (GETA (setBlock s bp asize 1) bp) (GETA (setBlock s bp asize 1) (padd bp WSIZE)) csize)
      (bp + asize) (csize - asize) 0 (by omega) (by omega) (by omega) (by omega)
      (by omega) (by omega)
  simp only [place]
  rw [e0, if_pos hcond, e1, hpc, e3, e4]

/-- Facts about a block of a well-formed heap, in the form `omega` uses. -/
theorem Heap.block_facts {s : State} {bs : List Blk} {S : Blk → Prop} (h : Heap s bs S)
    {b : Blk} (hb : b ∈ bs) :
    s.heap_listp + 8 ≤ b.addr ∧ b.addr + b.size ≤ s.brk ∧ 16 ≤ b.size ∧ b.size % 8 = 0
      ∧ b.alloc ≤ 1 ∧ 8 ≤ s.heap_listp ∧ s.brk < s.heap_listp + 4294967296
      ∧ s.heap_listp + 4294967296 ≤ 18446744073709551616 := by
  have h1 := (chain_bounds h.chain).2 b hb
  obtain ⟨h2, h3, h4, _, _⟩ := h.blocks b hb
  exact ⟨h1.1, h1.2, h2, h3, h4, h.base_lo, h.brk_hi, h.base_hi⟩

theorem chain_nodup {bs : List Blk} {a e : Nat} (h : Chain a bs e)
    (hpos : ∀ b ∈ bs, 0 < b.size) : bs.Nodup := by
  induction bs generalizing a with
  | nil => exact List.nodup_nil
  | cons b l ih =>
    obtain ⟨h1, h2⟩ := h
    refine List.nodup_cons.mpr ⟨?_, ih h2 (fun c hc => hpos c (List.mem_cons_of_mem _ hc))⟩
    intro hb
    have := (chain_bounds h2).2 b hb
    have := hpos b (List.mem_cons_self _ _)
    omega

/-- What `coalesce` reads about the neighbours of the block at `bp`. -/
theorem coalesce_reads (s : State) (bp bsize psz pal nsz nal : Nat)
    (hbp : psz + 8 ≤ bp) (hb : bp + bsize < 18446744073709551616)
    (hh : GET s.mem (bp - 4) = bsize) (hb8 : bsize % 8 = 0)
    (hpf : GET s.mem (bp - 8) = psz + pal) (hp8 : psz % 8 = 0) (hpal : pal ≤ 1)
    (hph : GET s.mem (bp - psz - 4) = psz + pal)
    (hnh : GET s.mem (bp + bsize - 4) = nsz + nal) (hn8 : nsz % 8 = 0) (hnal : nal ≤ 1) :
    PREV_BLKP s.mem bp = bp - psz ∧ NEXT_BLKP s.mem bp = bp + bsize
      ∧ GET_SIZE s.mem (HDRP bp) = bsize
      ∧ GET_ALLOC s.mem (HDRP (bp - psz)) = pal ∧ GET_SIZE s.mem (HDRP (bp - psz)) = psz
      ∧ GET_ALLOC s.mem (HDRP (bp + bsize)) = nal ∧ GET_SIZE s.mem (HDRP (bp + bsize)) = nsz := by
  have e1 : psub bp 8 = bp - 8 := psub_eq _ 8 (by omega) (by omega)
  have e2 : psub bp 4 = bp - 4 := psub_eq _ 4 (by omega) (by omega)
  have e3 := GET_SIZE_of _ _ _ _ hpf hp8 hpal
  have e4 := GET_SIZE_of _ _ _ 0 hh hb8 (by omega)
  have e5 : HDRP (bp - psz) = bp - psz - 4 := HDRP_eq _ (by omega) (by omega)
  have e6 : HDRP (bp + bsize) = bp + bsize - 4 := HDRP_eq _ (by omega) (by omega)
  have e7 := GET_SIZE_of _ _ _ _ hph hp8 hpal
  have e8 := GET_SIZE_of _ _ _ _ hnh hn8 hnal
  have e9 : HDRP bp = bp - 4 := HDRP_eq _ (by omega) (by omega)
  refine ⟨?_, ?_, ?_, ?_, ?_, ?_, ?_⟩
  · simp only [PREV_BLKP, DSIZE]; rw [e1, e3.1]; exact psub_eq _ _ (by omega) (by omega)
  · simp only [NEXT_BLKP, WSIZE]; rw [e2, e4.1]; exact padd_eq _ _ (by omega)
  · rw [e9]; exact e4.1
  · rw [e5]; exact e7.2
  · rw [e5]; exact e7.1
  · rw [e6]; exact e8.2
  · rw [e6]; exact e8.1

theorem coalesce_shape1 (s : State) (bp bsize psz nsz : Nat) (hf : s.forinit = 0)
    (hbp : psz + 8 ≤ bp) (hb : bp + bsize < 18446744073709551616)
    (hh : GET s.mem (bp - 4) = bsize) (hb8 : bsize % 8 = 0)
    (hpf : GET s.mem (bp - 8) = psz + 1) (hp8 : psz % 8 = 0)
    (hph : GET s.mem (bp - psz - 4) = psz + 1)
    (hnh : GET s.mem (bp + bsize - 4) = nsz + 1) (hn8 : nsz % 8 = 0) :
    coalesce s bp = (bp, addtolist s bp) := by
  obtain ⟨r1, r2, r3, r4, r5, r6, r7⟩ := coalesce_reads s bp bsize psz 1 nsz 1 hbp hb hh hb8 hpf hp8
    (by omega) hph hnh hn8 (by omega)
  simp only [coalesce, r1, r2, r3, r4, r5, r6, r7]
  rw [if_neg (not_not.mpr hf), if_pos (by decide)]

theorem coalesce_shape2 (s : State) (bp bsize psz nsz : Nat) (hf : s.forinit = 0)
    (hbp : psz + 8 ≤ bp) (hb : bp + bsize + nsz < 18446744073709551616)
    (hh : GET s.mem (bp - 4) = bsize) (hb8 : bsize % 8 = 0) (hb16 : 8 ≤ bsize)
    (hpf : GET s.mem (bp - 8) = psz + 1) (hp8 : psz % 8 = 0)
    (hph : GET s.mem (bp - psz - 4) = psz + 1)
    (hnh : GET s.mem (bp + bsize - 4) = nsz + 0) (hn8 : nsz % 8 = 0)
    (h32 : bsize + nsz < 4294967296) :
    coalesce s bp = (bp, addtolist (setBlock (removefromlist s (GETA s (bp + bsize))
      (GETA s (padd (bp + bsize) WSIZE)) nsz) bp (bsize + nsz) 0) bp) := by
  obtain ⟨r1, r2, r3, r4, r5, r6, r7⟩ := coalesce_reads s bp bsize psz 1 nsz 0 hbp (by omega) hh hb8
    hpf hp8 (by omega) hph hnh hn8 (by omega)
  have e1 := put_hdr_ftr (removefromlist s (GETA s (bp + bsize))
      (GETA s (padd (bp + bsize) WSIZE)) nsz) bp (bsize + nsz) 0 (by omega) (by omega) (by omega)
      (by omega) (by omega) (by omega)
  have e2 : (bsize + nsz) % U64 = bsize + nsz := Nat.mod_eq_of_lt (by simp only [U64]; omega)
  simp only [coalesce, r1, r2, r3, r4, r5, r6, r7]
  rw [if_neg (not_not.mpr hf), if_neg (by decide), if_pos (by decide), e2, e1]

theorem coalesce_shape3 (s : State) (bp bsize psz nsz : Nat) (hf : s.forinit = 0)
    (hbp : psz + 8 ≤ bp) (hb : bp + bsize < 18446744073709551616)
    (hh : GET s.mem (bp - 4) = bsize) (hb8 : bsize % 8 = 0)
    (hpf : GET s.mem (bp - 8) = psz + 0) (hp8 : psz % 8 = 0) (hp16 : 8 ≤ psz)
    (hph : GET s.mem (bp - psz - 4) = psz + 0)
    (hnh : GET s.mem (bp + bsize - 4) = nsz + 1) (hn8 : nsz % 8 = 0)
    (h32 : bsize + psz < 4294967296)
    (hs1 : GET (removefromlist s (GETA s (bp - psz)) (GETA s (padd (bp - psz) WSIZE)) psz).mem
      (bp - 8) = psz + 0) :
    coalesce s bp = (bp - psz, addtolist (setBlock (removefromlist s (GETA s (bp - psz))
      (GETA s (padd (bp - psz) WSIZE)) psz) (bp - psz) (bsize + psz) 0) (bp - psz)) := by
  obtain ⟨r1, r2, r3, r4, r5, r6, r7⟩ := coalesce_reads s bp bsize psz 0 nsz 1 hbp (by omega) hh hb8
    hpf hp8 (by omega) hph hnh hn8 (by omega)
  have e0 : PREV_BLKP (removefromlist s (GETA s (bp - psz))
      (GETA s (padd (bp - psz) WSIZE)) psz).mem bp = bp - psz := by
    simp only [PREV_BLKP, DSIZE]
    rw [psub_eq _ 8 (by omega) (by omega), (GET_SIZE_of _ _ _ _ hs1 hp8 (by omega)).1]
    exact psub_eq _ _ (by omega) (by omega)
  have e1 := put_hdr_ftr (removefromlist s (GETA s (bp - psz))
      (GETA s (padd (bp - psz) WSIZE)) psz) (bp - psz) (bsize + psz) 0 (by omega) (by omega)
      (by omega) (by omega) (by omega) (by omega)
  have e2 : (bsize + psz) % U64 = bsize + psz := Nat.mod_eq_of_lt (by simp only [U64]; omega)
  simp only [coalesce, r1, r2, r3, r4, r5, r6, r7]
  rw [if_neg (not_not.mpr hf), if_neg (by decide), if_neg (by decide), if_pos (by decide), e2,
    e0, e1]

theorem coalesce_shape4 (s : State) (bp bsize psz nsz : Nat) (hf : s.forinit = 0)
    (hbp : psz + 8 ≤ bp) (hb : bp + bsize + nsz < 18446744073709551616)
    (hh : GET s.mem (bp - 4) = bsize) (hb8 : bsize % 8 = 0)
    (hpf : GET s.mem (bp - 8) = psz + 0) (hp8 : psz % 8 = 0) (hp16 : 8 ≤ psz)
    (hph : GET s.mem (bp - psz - 4) = psz + 0)
    (hnh : GET s.mem (bp + bsize - 4) = nsz + 0) (hn8 : nsz % 8 = 0)
    (h32 : bsize + psz + nsz < 4294967296)
    (hs1 : GET (removefromlist s (GETA s (bp + bsize)) (GETA s (padd (bp + bsize) WSIZE)) nsz).mem
      (bp - 8) = psz + 0)
    (hs2 : GET (removefromlist s (GETA s (bp + bsize)) (GETA s (padd (bp + bsize) WSIZE)) nsz).mem
      (bp - psz - 4) = psz + 0)
    (hs3 : GET (removefromlist
        (removefromlist s (GETA s (bp + bsize)) (GETA s (padd (bp + bsize) WSIZE)) nsz)
        (GETA (removefromlist s (GETA s (bp + bsize)) (GETA s (padd (bp + bsize) WSIZE)) nsz)
          (bp - psz))
        (GETA (removefromlist s (GETA s (bp + bsize)) (GETA s (padd (bp + bsize) WSIZE)) nsz)
          (padd (bp - psz) WSIZE)) psz).mem (bp - 8) = psz + 0) :
    coalesce s bp = (bp - psz, addtolist (setBlock (removefromlist
        (removefromlist s (GETA s (bp + bsize)) (GETA s (padd (bp + bsize) WSIZE)) nsz)
        (GETA (removefromlist s (GETA s (bp + bsize)) (GETA s (padd (bp + bsize) WSIZE)) nsz)
          (bp - psz))
        (GETA (removefromlist s (GETA s (bp + bsize)) (GETA s (padd (bp + bsize) WSIZE)) nsz)
          (padd (bp - psz) WSIZE)) psz) (bp - psz) (bsize + (psz + nsz)) 0) (bp - psz)) := by
  obtain ⟨r1, r2, r3, r4, r5, r6, r7⟩ := coalesce_reads s bp bsize psz 0 nsz 0 hbp (by omega) hh hb8
    hpf hp8 (by omega) hph hnh hn8 (by omega)
  have e0 : PREV_BLKP (removefromlist s (GETA s (bp + bsize))
      (GETA s (padd (bp + bsize) WSIZE)) nsz).mem bp = bp - psz := by
    simp only [PREV_BLKP, DSIZE]
    rw [psub_eq _ 8 (by omega) (by omega), (GET_SIZE_of _ _ _ _ hs1 hp8 (by omega)).1]
    exact psub_eq _ _ (by omega) (by omega)
  have e0h : GET_SIZE (removefromlist s (GETA s (bp + bsize))
      (GETA s (padd (bp + bsize) WSIZE)) nsz).mem (HDRP (bp - psz)) = psz := by
    rw [HDRP_eq _ (by omega) (by omega)]
    exact (GET_SIZE_of _ _ _ _ hs2 hp8 (by omega)).1
  have e0' : PREV_BLKP (removefromlist
        (removefromlist s (GETA s (bp + bsize)) (GETA s (padd (bp + bsize) WSIZE)) nsz)
        (GETA (removefromlist s (GETA s (bp + bsize)) (GETA s (padd (bp + bsize) WSIZE)) nsz)
          (bp - psz))
        (GETA (removefromlist s (GETA s (bp + bsize)) (GETA s (padd (bp + bsize) WSIZE)) nsz)
          (padd (bp - psz) WSIZE)) psz).mem bp = bp - psz := by
    simp only [PREV_BLKP, DSIZE]
    rw [psub_eq _ 8 (by omega) (by omega), (GET_SIZE_of _ _ _ _ hs3 hp8 (by omega)).1]
    exact psub_eq _ _ (by omega) (by omega)
  have e1 := put_hdr_ftr (removefromlist
        (removefromlist s (GETA s (bp + bsize)) (GETA s (padd (bp + bsize) WSIZE)) nsz)
        (GETA (removefromlist s (GETA s (bp + bsize)) (GETA s (padd (bp + bsize) WSIZE)) nsz)
          (bp - psz))
        (GETA (removefromlist s (GETA s (bp + bsize)) (GETA s (padd (bp + bsize) WSIZE)) nsz)
          (padd (bp - psz) WSIZE)) psz) (bp - psz) (bsize + (psz + nsz)) 0 (by omega) (by omega)
      (by omega) (by omega) (by omega) (by omega)
  have e2 : (psz + nsz) % U64 = psz + nsz := Nat.mod_eq_of_lt (by simp only [U64]; omega)
  have e3 : (bsize + (psz + nsz)) % U64 = bsize + (psz + nsz) :=
    Nat.mod_eq_of_lt (by simp only [U64]; omega)
  simp only [coalesce, r1, r2, r3, r4, r5, r6, r7]
  rw [if_neg (not_not.mpr hf), if_neg (by decide), if_neg (by decide), if_neg (by decide), e2, e3,
    e0, e0h, e0', e1]

theorem Heap.prev_info {s : State} {l1 l2 : List Blk} {b : Blk} {S : Blk → Prop}
    (h : Heap s (l1 ++ b :: l2) S) :
    ∃ psz pal, GET s.mem (b.addr - 8) = psz + pal ∧ GET s.mem (b.addr - psz - 4) = psz + pal
      ∧ psz % 8 = 0 ∧ 8 ≤ psz ∧ psz + 8 ≤ b.addr
      ∧ (pal = 1 ∨ (pal = 0 ∧ ∃ l p, l1 = l ++ [p] ∧ p.size = psz ∧ p.alloc = 0
          ∧ p.addr + psz = b.addr)) := by
  have hlo := h.base_lo
  rcases chain_prev h.chain with ⟨h1, h2⟩ | ⟨l, p, h1, h2⟩
  · refine ⟨8, 1, ?_, ?_, by omega, by omega, by omega, Or.inl rfl⟩
    · have e : b.addr - 8 = s.heap_listp := by omega
      rw [e]; exact h.pro_ftr
    · have e : b.addr - 8 - 4 = s.heap_listp - 4 := by omega
      rw [e]; exact h.pro_hdr
  · have hp : p ∈ l1 ++ b :: l2 := by simp [h1]
    obtain ⟨f1, f2, f3, f4, f5, f6, f7, f8⟩ := h.block_facts hp
    obtain ⟨_, _, _, g1, g2⟩ := h.blocks p hp
    have e1 : b.addr - 8 = p.addr + p.size - 8 := by omega
    have e2 : b.addr - p.size - 4 = p.addr - 4 := by omega
    refine ⟨p.size, p.alloc, by rw [e1]; exact g2, by rw [e2]; exact g1, f4, by omega, by omega, ?_⟩
    rcases Nat.lt_or_ge p.alloc 1 with hz | hz
    · exact Or.inr ⟨by omega, l, p, h1, rfl, by omega, h2⟩
    · exact Or.inl (by omega)

theorem Heap.next_info {s : State} {l1 l2 : List Blk} {b : Blk} {S : Blk → Prop}
    (h : Heap s (l1 ++ b :: l2) S) :
    ∃ nsz nal, GET s.mem (b.addr + b.size - 4) = nsz + nal ∧ nsz % 8 = 0
      ∧ (nal = 1 ∨ (nal = 0 ∧ ∃ n l, l2 = n :: l ∧ n.size = nsz ∧ n.alloc = 0
          ∧ n.addr = b.addr + b.size)) := by
  rcases chain_next h.chain with ⟨h1, h2⟩ | ⟨n, l, h1, h2⟩
  · refine ⟨0, 1, ?_, by omega, Or.inl rfl⟩
    rw [h2]; exact h.epi
  · have hn : n ∈ l1 ++ b :: l2 := by simp [h1]
    obtain ⟨f1, f2, f3, f4, f5, f6, f7, f8⟩ := h.block_facts hn
    obtain ⟨_, _, _, g1, g2⟩ := h.blocks n hn
    refine ⟨n.size, n.alloc, by rw [← h2]; exact g1, f4, ?_⟩
    rcases Nat.lt_or_ge n.alloc 1 with hz | hz
    · exact Or.inr ⟨by omega, n, l, h1, rfl, by omega, h2⟩
    · exact Or.inl (by omega)

theorem mem_drop {l1 l2 : List Blk} (old : List Blk) (hnd : (l1 ++ (old ++ l2)).Nodup)
    (c : Blk) : c ∈ l1 ++ l2 ↔ (c ∈ l1 ++ (old ++ l2) ∧ c ∉ old) := by
  rw [List.nodup_append] at hnd
  obtain ⟨_, h2, h3⟩ := hnd
  rw [List.nodup_append] at h2
  obtain ⟨_, _, h4⟩ := h2
  simp only [List.mem_append]
  constructor
  · rintro (hc | hc)
    · exact ⟨Or.inl hc, fun ho => h3 hc (List.mem_append_left _ ho)⟩
    · exact ⟨Or.inr (Or.inr hc), fun ho => h4 ho hc⟩
  · rintro ⟨hc | hc | hc, hno⟩
    · exact Or.inl hc
    · exact absurd hc hno
    · exact Or.inr hc

theorem Heap.nodup {s : State} {bs : List Blk} {S : Blk → Prop} (h : Heap s bs S) : bs.Nodup :=
  chain_nodup h.chain (fun b hb => by have := (h.blocks b hb).1; omega)

theorem blk_eta (b : Blk) (h : b.alloc = 0) : (⟨b.addr, b.size, 0⟩ : Blk) = b := by
  cases b; simp only at h; subst h; rfl

theorem lastA_mem : ∀ (L : List Blk) (p : Nat), L ≠ [] → ∃ x, x ∈ L ∧ x.addr = lastA p L
  | [b], p, _ => ⟨b, List.mem_singleton.mpr rfl, rfl⟩
  | b :: c :: L, p, _ => by
    obtain ⟨x, hx, hxa⟩ := lastA_mem (c :: L) b.addr (by simp)
    exact ⟨x, List.mem_cons_of_mem _ hx, hxa⟩

theorem SegF_congr {nx pv nx' pv' : Nat → Nat} {L : List Blk} :
    ∀ {a p t : Nat}, (∀ d, d ∈ L → nx' d.addr = nx d.addr ∧ pv' d.addr = pv d.addr) →
      SegF nx pv a p L t → SegF nx' pv' a p L t := by
  induction L with
  | nil => intro a p t _ h; exact h
  | cons b L ih =>
    intro a p t hd h
    obtain ⟨h1, h2, h3⟩ := h
    have hb := hd b (List.mem_cons_self _ _)
    refine ⟨h1, by rw [hb.2]; exact h2, ?_⟩
    rw [hb.1]
    exact ih (fun d hd' => hd d (List.mem_cons_of_mem _ hd')) h3

theorem SegF_append {nx pv : Nat → Nat} : ∀ (L1 L2 : List Blk) (a p t : Nat),
    SegF nx pv a p (L1 ++ L2) t ↔ ∃ m, SegF nx pv a p L1 m ∧ SegF nx pv m (lastA p L1) L2 t
  | [], L2, a, p, t => by
    constructor
    · intro h; exact ⟨a, rfl, h⟩
    · rintro ⟨m, h1, h2⟩
      have : a = m := h1
      subst this; exact h2
  | b :: L1, L2, a, p, t => by
    show (b.addr = a ∧ pv b.addr = p ∧ SegF nx pv (nx b.addr) b.addr (L1 ++ L2) t) ↔
      ∃ m, (b.addr = a ∧ pv b.addr = p ∧ SegF nx pv (nx b.addr) b.addr L1 m)
        ∧ SegF nx pv m (lastA b.addr L1) L2 t
    rw [SegF_append L1 L2]
    constructor
    · rintro ⟨h1, h2, m, h3, h4⟩; exact ⟨m, ⟨h1, h2, h3⟩, h4⟩
    · rintro ⟨m, ⟨h1, h2, h3⟩, h4⟩; exact ⟨h1, h2, m, h3, h4⟩

theorem SegF_last {nx pv : Nat → Nat} : ∀ (L : List Blk) (a p t : Nat), L ≠ [] →
    SegF nx pv a p L t → nx (lastA p L) = t
  | [b], a, p, t, _, h => h.2.2
  | b :: c :: L, a, p, t, _, h => SegF_last (c :: L) _ _ t (by simp) h.2.2

theorem SegF_head {nx pv : Nat → Nat} {a p t : Nat} {b : Blk} {L : List Blk}
    (h : SegF nx pv a p (b :: L) t) : a = b.addr ∧ pv b.addr = p := ⟨h.1.symm, h.2.1⟩

theorem SegF_set_tail {nx pv nx' pv' : Nat → Nat} : ∀ (L : List Blk) (a p t t' : Nat), L ≠ [] →
    SegF nx pv a p L t →
    (∀ d, d ∈ L → pv' d.addr = pv d.addr) →
    (∀ d, d ∈ L → d.addr ≠ lastA p L → nx' d.addr = nx d.addr) →
    nx' (lastA p L) = t' →
    (∀ x, x ∈ L → ∀ y, y ∈ L → x.addr = y.addr → x = y) → L.Nodup →
    SegF nx' pv' a p L t'
  | [b], a, p, t, t', _, h, hpv, hnx, hl, _, _ =>
    ⟨h.1, by rw [hpv b (List.mem_singleton.mpr rfl)]; exact h.2.1, hl⟩
  | b :: c :: L, a, p, t, t', _, h, hpv, hnx, hl, hu, hnd => by
    obtain ⟨h1, h2, h3⟩ := h
    have hbm : b ∈ b :: c :: L := List.mem_cons_self _ _
    have hbl : b.addr ≠ lastA p (b :: c :: L) := by
      obtain ⟨x, hx, hxa⟩ := lastA_mem (c :: L) b.addr (by simp)
      intro he
      have hbx : b = x := hu b hbm x (List.mem_cons_of_mem _ hx) (by rw [hxa]; exact he)
      rw [← hbx] at hx
      exact (List.nodup_cons.mp hnd).1 hx
    refine ⟨h1, by rw [hpv b hbm]; exact h2, ?_⟩
    rw [hnx b hbm hbl]
    exact SegF_set_tail (c :: L) _ _ t t' (by simp) h3
      (fun d hd => hpv d (List.mem_cons_of_mem _ hd))
      (fun d hd hne => hnx d (List.mem_cons_of_mem _ hd) hne) hl
      (fun x hx y hy => hu x (List.mem_cons_of_mem _ hx) y (List.mem_cons_of_mem _ hy))
      (List.nodup_cons.mp hnd).2

/-- Unlinking `b` from the list `L1 ++ b :: L2`. -/
theorem SegF_remove {nx pv nx' pv' : Nat → Nat} {a : Nat} {L1 L2 : List Blk} {b : Blk}
    (h : SegF nx pv a 0 (L1 ++ b :: L2) 0)
    (hnd : (L1 ++ b :: L2).Nodup)
    (hu : ∀ x, x ∈ L1 ++ b :: L2 → ∀ y, y ∈ L1 ++ b :: L2 → x.addr = y.addr → x = y)
    (h0 : ∀ x, x ∈ L1 ++ b :: L2 → x.addr ≠ 0)
    (hnx : ∀ d, d ∈ L1 ++ L2 →
      nx' d.addr = if d.addr = pv b.addr then nx b.addr else nx d.addr)
    (hpv : ∀ d, d ∈ L1 ++ L2 →
      pv' d.addr = if d.addr = nx b.addr then pv b.addr else pv d.addr) :
    SegF nx' pv' (if pv b.addr = 0 then nx b.addr else a) 0 (L1 ++ L2) 0 := by
  obtain ⟨m, hL1, hbm, hbp, hL2⟩ := (SegF_append L1 (b :: L2) a 0 0).mp h
  have hnd' := List.nodup_append.mp hnd
  have hnd2 := List.nodup_cons.mp hnd'.2.1
  have hdisj : ∀ x, x ∈ L1 → ∀ y, y ∈ b :: L2 → x ≠ y := fun x hx y hy he =>
    hnd'.2.2 hx (he ▸ hy)
  have m1 : ∀ x, x ∈ L1 → x ∈ L1 ++ b :: L2 := fun x hx => List.mem_append_left _ hx
  have m2 : ∀ x, x ∈ L2 → x ∈ L1 ++ b :: L2 := fun x hx =>
    List.mem_append_right _ (List.mem_cons_of_mem _ hx)
  -- no block of `L2` is at the address `pv b`
  have hP : ∀ d, d ∈ L2 → d.addr ≠ pv b.addr := by
    intro d hd he
    rw [hbp] at he
    cases L1 with
    | nil => exact h0 d (m2 d hd) he
    | cons x L1' =>
      obtain ⟨y, hy, hya⟩ := lastA_mem (x :: L1') 0 (by simp)
      have : d = y := hu d (m2 d hd) y (m1 y hy) (by rw [hya]; exact he)
      exact hdisj y hy d (List.mem_cons_of_mem _ hd) this.symm
  -- no block of `L1` is at the address `nx b`
  have hN : ∀ d, d ∈ L1 → d.addr ≠ nx b.addr := by
    intro d hd he
    cases L2 with
    | nil =>
      have : nx b.addr = 0 := hL2
      exact h0 d (m1 d hd) (by rw [he]; exact this)
    | cons c L2' =>
      have hc : c.addr = nx b.addr := hL2.1
      have hcm : c ∈ L1 ++ b :: c :: L2' := m2 c (List.mem_cons_self _ _)
      have : d = c := hu d (m1 d hd) c hcm (by rw [hc]; exact he)
      exact hdisj d hd c (List.mem_cons_of_mem _ (List.mem_cons_self _ _)) this
  refine (SegF_append L1 L2 _ 0 0).mpr ⟨nx b.addr, ?_, ?_⟩
  · -- the part before `b`
    cases L1 with
    | nil =>
      have hp0 : pv b.addr = 0 := hbp
      rw [if_pos hp0]
      rfl
    | cons x L1' =>
      obtain ⟨y, hy, hya⟩ := lastA_mem (x :: L1') 0 (by simp)
      have hpne : pv b.addr ≠ 0 := by
        rw [hbp, ← hya]; exact h0 y (m1 y hy)
      rw [if_neg hpne]
      refine SegF_set_tail (x :: L1') a 0 m _ (by simp) hL1 ?_ ?_ ?_
        (fun u hu1 v hv => hu u (m1 u hu1) v (m1 v hv)) hnd'.1
      · intro d hd
        rw [hpv d (List.mem_append_left _ hd), if_neg (hN d hd)]
      · intro d hd hne
        rw [hnx d (List.mem_append_left _ hd), if_neg (by rw [hbp]; exact hne)]
      · rw [← hya, hnx y (List.mem_append_left _ hy), if_pos (by rw [hbp, hya])]
  · -- the part after `b`
    rw [← hbp]
    cases L2 with
    | nil => exact hL2
    | cons c L2' =>
      obtain ⟨hc1, hc2, hc3⟩ := hL2
      have hcm : c ∈ c :: L2' := List.mem_cons_self _ _
      have hnd3 := List.nodup_cons.mp hnd2.2
      refine ⟨hc1, ?_, ?_⟩
      · rw [hpv c (List.mem_append_right _ hcm), if_pos hc1]
      · rw [hnx c (List.mem_append_right _ hcm), if_neg (hP c hcm)]
        refine SegF_congr (fun d hd => ⟨?_, ?_⟩) hc3
        · rw [hnx d (List.mem_append_right _ (List.mem_cons_of_mem _ hd)),
            if_neg (hP d (List.mem_cons_of_mem _ hd))]
        · rw [hpv d (List.mem_append_right _ (List.mem_cons_of_mem _ hd)), if_neg]
          intro he
          have : d = c := hu d (m2 d (List.mem_cons_of_mem _ hd)) c (m2 c hcm)
            (by rw [hc1]; exact he)
          rw [this] at hd
          exact hnd3.1 hd

/-- Pushing `r` at the head of the list `L`. -/
theorem SegF_add {nx pv nx' pv' : Nat → Nat} {a : Nat} {L : List Blk} {r : Blk}
    (h : SegF nx pv a 0 L 0)
    (hnd : L.Nodup)
    (hu : ∀ x, x ∈ L → ∀ y, y ∈ L → x.addr = y.addr → x = y)
    (hnxr : nx' r.addr = a) (hpvr : pv' r.addr = 0)
    (hnx : ∀ d, d ∈ L → nx' d.addr = nx d.addr)
    (hpv : ∀ d, d ∈ L → pv' d.addr = if d.addr = a then r.addr else pv d.addr) :
    SegF nx' pv' r.addr 0 (r :: L) 0 := by
  refine ⟨rfl, hpvr, ?_⟩
  rw [hnxr]
  cases L with
  | nil => exact h
  | cons c L' =>
    obtain ⟨hc1, hc2, hc3⟩ := h
    have hcm : c ∈ c :: L' := List.mem_cons_self _ _
    have hnd3 := List.nodup_cons.mp hnd
    refine ⟨hc1, ?_, ?_⟩
    · rw [hpv c hcm, if_pos hc1]
    · rw [hnx c hcm]
      refine SegF_congr (fun d hd => ⟨hnx d (List.mem_cons_of_mem _ hd), ?_⟩) hc3
      rw [hpv d (List.mem_cons_of_mem _ hd), if_neg]
      intro he
      have : d = c := hu d (List.mem_cons_of_mem _ hd) c hcm (by rw [hc1]; exact he)
      rw [this] at hd
      exact hnd3.1 hd

/-- The neighbours of a block `b` of a list, as the list shows them. -/
theorem SegF_at {nx pv : Nat → Nat} {a : Nat} {L1 L2 : List Blk} {b : Blk}
    (h : SegF nx pv a 0 (L1 ++ b :: L2) 0) :
    pv b.addr = lastA 0 L1
      ∧ (L1 = [] → a = b.addr)
      ∧ (L1 ≠ [] → nx (lastA 0 L1) = b.addr)
      ∧ (L2 = [] → nx b.addr = 0)
      ∧ (∀ c L, L2 = c :: L → nx b.addr = c.addr ∧ pv c.addr = b.addr) := by
  obtain ⟨m, hL1, hbm, hbp, hL2⟩ := (SegF_append L1 (b :: L2) a 0 0).mp h
  refine ⟨hbp, ?_, ?_, ?_, ?_⟩
  · intro he; subst he
    have : a = m := hL1
    rw [this, hbm]
  · intro hne
    rw [SegF_last L1 a 0 m hne hL1, hbm]
  · intro he; subst he; exact hL2
  · intro c L he; subst he
    exact ⟨hL2.1.symm, hL2.2.1⟩

theorem GETA_congr {s s' : State} {p : Nat} (hH : s'.heap_listp = s.heap_listp)
    (hm : GET s'.mem p = GET s.mem p) : GETA s' p = GETA s p := by
  simp only [GETA, CONVERTFROMOFFSET, hH, hm]

theorem GETA_cases (s : State) (p : Nat)
    (hH : s.heap_listp + 4294967296 ≤ 18446744073709551616) :
    (GET s.mem p = 0 ∧ GETA s p = 0)
      ∨ (GET s.mem p ≠ 0 ∧ GETA s p = s.heap_listp + GET s.mem p) := by
  rw [GETA_eq s p hH]
  by_cases h : GET s.mem p = 0
  · left; rw [if_pos h]; exact ⟨h, rfl⟩
  · right; rw [if_neg h]; exact ⟨h, rfl⟩

theorem Seg_frame {s s' : State} {L : List Blk} {a p t : Nat}
    (hH : s'.heap_listp = s.heap_listp)
    (hm : ∀ d, d ∈ L → GET s'.mem d.addr = GET s.mem d.addr
      ∧ GET s'.mem (d.addr + 4) = GET s.mem (d.addr + 4))
    (h : Seg s a p L t) : Seg s' a p L t :=
  SegF_congr (fun d hd => ⟨GETA_congr hH (hm d hd).1, GETA_congr hH (hm d hd).2⟩) h

theorem Lists.mem_listed {s : State} {Ls : Nat → List Blk} (h : Lists s Ls) {k : Nat} {d : Blk}
    (hd : d ∈ Ls k) : listed Ls d := by
  show d ∈ Ls (bucket d.size)
  rw [h.bkt k d hd]; exact hd

theorem Lists_frame {s s' : State} {Ls : Nat → List Blk} (h : Lists s Ls)
    (hH : s'.heap_listp = s.heap_listp) (hhd : ∀ k, headOf s' k = headOf s k)
    (hm : ∀ d, listed Ls d → GET s'.mem d.addr = GET s.mem d.addr
      ∧ GET s'.mem (d.addr + 4) = GET s.mem (d.addr + 4)) : Lists s' Ls :=
  ⟨fun k => by
      rw [hhd k]
      exact Seg_frame hH (fun d hd => hm d (h.mem_listed hd)) (h.seg k),
    h.bkt, h.nd⟩

theorem Seg_at {s : State} {a : Nat} {L1 L2 : List Blk} {b : Blk}
    (h : Seg s a 0 (L1 ++ b :: L2) 0) :
    GETA s (b.addr + 4) = lastA 0 L1
      ∧ (L1 = [] → a = b.addr)
      ∧ (L1 ≠ [] → GETA s (lastA 0 L1) = b.addr)
      ∧ (L2 = [] → GETA s b.addr = 0)
      ∧ (∀ c L, L2 = c :: L → GETA s b.addr = c.addr ∧ GETA s (c.addr + 4) = b.addr) :=
  SegF_at h

/-- The list structure gives the local free-list invariant. -/
theorem Lists.linv {s : State} {Ls : Nat → List Blk} {hi : Nat} (hl : Lists s Ls)
    (hH : s.heap_listp + 4294967296 ≤ 18446744073709551616)
    (hgeo : Geo (s.heap_listp + 8) hi (listed Ls)) : LInvS s (listed Ls) := by
  rw [LInvS_iff]
  have hlow : ∀ c k, c ∈ Ls k → s.heap_listp + 8 ≤ c.addr := fun c k hc =>
    (hgeo.1 c (hl.mem_listed hc)).1
  have hlast : ∀ (L : List Blk) k, (∀ x, x ∈ L → x ∈ Ls k) → L ≠ [] →
      ∃ y, y ∈ Ls k ∧ y.addr = lastA 0 L := by
    intro L k hsub hne
    obtain ⟨y, hy, hya⟩ := lastA_mem L 0 hne
    exact ⟨y, hsub y hy, hya⟩
  refine ⟨?_, ?_, ?_, ?_⟩
  · intro b hb
    obtain ⟨L1, L2, hsplit⟩ := List.append_of_mem hb
    have hseg := hl.seg (bucket b.size)
    rw [hsplit] at hseg
    obtain ⟨f1, f2, f3, f4, f5⟩ := Seg_at hseg
    cases L2 with
    | nil =>
      left
      have := f4 rfl
      rcases GETA_cases s b.addr hH with ⟨g1, g2⟩ | ⟨g1, g2⟩
      · exact g1
      · omega
    | cons c L =>
      right
      obtain ⟨e1, e2⟩ := f5 c L rfl
      have hcm : c ∈ Ls (bucket b.size) := by rw [hsplit]; simp
      have hc := hlow c _ hcm
      have hbl := hlow b _ hb
      refine ⟨c, hl.mem_listed hcm, ?_, ?_, hl.bkt _ c hcm⟩
      · rcases GETA_cases s b.addr hH with ⟨g1, g2⟩ | ⟨g1, g2⟩ <;> omega
      · rcases GETA_cases s (c.addr + 4) hH with ⟨g1, g2⟩ | ⟨g1, g2⟩ <;> omega
  · intro b hb hp0
    obtain ⟨L1, L2, hsplit⟩ := List.append_of_mem hb
    have hseg := hl.seg (bucket b.size)
    rw [hsplit] at hseg
    obtain ⟨f1, f2, f3, f4, f5⟩ := Seg_at hseg
    have hz : lastA 0 L1 = 0 := by
      rcases GETA_cases s (b.addr + 4) hH with ⟨g1, g2⟩ | ⟨g1, g2⟩ <;> omega
    have hL1 : L1 = [] := by
      by_contra hne
      obtain ⟨y, hy, hya⟩ := hlast L1 (bucket b.size)
        (fun x hx => by rw [hsplit]; exact List.mem_append_left _ hx) hne
      have := hlow y _ hy
      omega
    exact f2 hL1
  · intro b hb hp0
    obtain ⟨L1, L2, hsplit⟩ := List.append_of_mem hb
    have hseg := hl.seg (bucket b.size)
    rw [hsplit] at hseg
    obtain ⟨f1, f2, f3, f4, f5⟩ := Seg_at hseg
    have hbl := hlow b _ hb
    have hL1 : L1 ≠ [] := by
      intro he
      rw [he] at f1
      have : lastA 0 ([] : List Blk) = 0 := rfl
      rcases GETA_cases s (b.addr + 4) hH with ⟨g1, g2⟩ | ⟨g1, g2⟩ <;> omega
    obtain ⟨y, hy, hya⟩ := hlast L1 (bucket b.size)
      (fun x hx => by rw [hsplit]; exact List.mem_append_left _ hx) hL1
    have e := f3 hL1
    rw [← hya] at e f1
    refine ⟨y, hl.mem_listed hy, ?_, ?_, hl.bkt _ y hy⟩
    · rcases GETA_cases s (b.addr + 4) hH with ⟨g1, g2⟩ | ⟨g1, g2⟩ <;> omega
    · rcases GETA_cases s y.addr hH with ⟨g1, g2⟩ | ⟨g1, g2⟩ <;> omega
  · intro k
    have hseg := hl.seg k
    cases hL : Ls k with
    | nil =>
      rw [hL] at hseg
      left; exact hseg
    | cons b L =>
      rw [hL] at hseg
      obtain ⟨h1, h2, _⟩ := hseg
      have hbm : b ∈ Ls k := by rw [hL]; simp
      right
      refine ⟨b, hl.mem_listed hbm, h1, ?_, hl.bkt _ b hbm⟩
      have h2' : GETA s (b.addr + 4) = 0 := h2
      rcases GETA_cases s (b.addr + 4) hH with ⟨g1, g2⟩ | ⟨g1, g2⟩
      · exact g1
      · omega

theorem LL.uniq {s : State} {hi : Nat} {Ls : Nat → List Blk} (h : LL s hi Ls) :
    ∀ k x, x ∈ Ls k → ∀ j y, y ∈ Ls j → x.addr = y.addr → x = y :=
  fun k x hx j y hy he => Geo_uniq h.links.geo x y (h.lists.mem_listed hx) (h.lists.mem_listed hy) he

theorem LL.low {s : State} {hi : Nat} {Ls : Nat → List Blk} (h : LL s hi Ls) :
    ∀ k x, x ∈ Ls k → s.heap_listp + 8 ≤ x.addr :=
  fun k x hx => (h.links.geo.1 x (h.lists.mem_listed hx)).1

theorem erase_mid {L1 L2 : List Blk} {b : Blk} (hnd : (L1 ++ b :: L2).Nodup) :
    (L1 ++ b :: L2).erase b = L1 ++ L2 := by
  have hb : b ∉ L1 := fun hb =>
    (List.nodup_append.mp hnd).2.2 hb (List.mem_cons_self _ _)
  rw [List.erase_append_right _ hb, List.erase_cons_head]

theorem setBlock_stepL {s : State} {hi : Nat} {Ls : Nat → List Blk} (h : LL s hi Ls)
    (bp size al : Nat) (h4 : 4 ≤ bp) (h8 : 8 ≤ size)
    (hs1 : sepL (listed Ls) (bp - 4)) (hs2 : sepL (listed Ls) (bp + size - 8)) :
    LL (setBlock s bp size al) hi Ls := by
  refine ⟨setBlock_step h.links bp size al h4 h8 hs1 hs2, ?_⟩
  refine Lists_frame h.lists rfl (fun _ => rfl) ?_
  intro d hd
  have a1 := sepL_word hs1 d hd
  have a2 := sepL_word hs2 d hd
  constructor
  · exact setBlock_other _ _ _ _ _ h4 h8 (by omega) (by omega)
  · exact setBlock_other _ _ _ _ _ h4 h8 (by omega) (by omega)

/-- The pointers around a listed block: its prev pointer is null or a block of
the same list before it, its next pointer is null or a block after it. -/
theorem LL.around {s : State} {hi : Nat} {Ls : Nat → List Blk} (h : LL s hi Ls) {b : Blk}
    {L1 L2 : List Blk} (hsplit : Ls (bucket b.size) = L1 ++ b :: L2) :
    (GETA s (b.addr + 4) = 0 ∨ ∃ y, y ∈ L1 ∧ y.addr = GETA s (b.addr + 4))
      ∧ (GETA s b.addr = 0 ∨ ∃ c, c ∈ L2 ∧ c.addr = GETA s b.addr) := by
  have hseg := h.lists.seg (bucket b.size)
  rw [hsplit] at hseg
  obtain ⟨f1, f2, f3, f4, f5⟩ := Seg_at hseg
  constructor
  · cases L1 with
    | nil => left; exact f1
    | cons x L =>
      right
      obtain ⟨y, hy, hya⟩ := lastA_mem (x :: L) 0 (by simp)
      exact ⟨y, hy, by rw [hya, f1]⟩
  · cases L2 with
    | nil => left; exact f4 rfl
    | cons c L => right; exact ⟨c, List.mem_cons_self _ _, ((f5 c L rfl).1).symm⟩

theorem remove_stepL {s : State} {hi : Nat} {Ls : Nat → List Blk} (h : LL s hi Ls) {b : Blk}
    (hb : listed Ls b) (sz : Nat) (hsz : bucket sz = bucket b.size) :
    LL (removefromlist s (GETA s b.addr) (GETA s (padd b.addr WSIZE)) sz) hi
        (fun k => (Ls k).erase b)
      ∧ Frame s (removefromlist s (GETA s b.addr) (GETA s (padd b.addr WSIZE)) sz)
          (sepL (listed Ls)) := by
  obtain ⟨L', F⟩ := remove_step h.links hb sz hsz
  obtain ⟨⟨e1, e2, e3⟩, _⟩ := removefromlist_effect s (listed Ls) b hi sz h.links.base_hi
    h.links.top h.links.geo h.links.inv hb hsz
  generalize removefromlist s (GETA s b.addr) (GETA s (padd b.addr WSIZE)) sz = s' at *
  have hH := h.links.base_hi
  have hH' := L'.base_hi
  have hHe := F.heap_listp
  have hiff : ∀ d, listed (fun k => (Ls k).erase b) d ↔ (listed Ls d ∧ d ≠ b) := fun d => by
    show d ∈ (Ls (bucket d.size)).erase b ↔ _
    rw [(h.lists.nd _).mem_erase_iff]; exact and_comm
  refine ⟨⟨L'.congr hiff, ?_⟩, F⟩
  obtain ⟨L1, L2, hsplit⟩ := List.append_of_mem hb
  obtain ⟨hP, hN⟩ := h.around hsplit
  have hnd := h.lists.nd (bucket b.size)
  rw [hsplit] at hnd
  have hbl := h.low _ b hb
  -- the absolute form of the new links
  have A1 : ∀ d, listed Ls d → d ≠ b → GETA s' d.addr
      = if d.addr = GETA s (b.addr + 4) then GETA s b.addr else GETA s d.addr := by
    intro d hd hdb
    clear hP hN
    have hdl := (h.links.geo.1 d hd).1
    have c1 := GETA_cases s' d.addr hH'
    have c2 := GETA_cases s (b.addr + 4) hH
    have c3 := GETA_cases s b.addr hH
    have c4 := GETA_cases s d.addr hH
    have e := e1 d hd hdb
    by_cases hc : GET s.mem (b.addr + 4) ≠ 0 ∧ d.addr = s.heap_listp + GET s.mem (b.addr + 4)
    · rw [if_pos hc] at e; rw [if_pos (by omega)]; omega
    · rw [if_neg hc] at e; rw [if_neg (by omega)]; omega
  have A2 : ∀ d, listed Ls d → d ≠ b → GETA s' (d.addr + 4)
      = if d.addr = GETA s b.addr then GETA s (b.addr + 4) else GETA s (d.addr + 4) := by
    intro d hd hdb
    clear hP hN
    have hdl := (h.links.geo.1 d hd).1
    have c1 := GETA_cases s' (d.addr + 4) hH'
    have c2 := GETA_cases s (b.addr + 4) hH
    have c3 := GETA_cases s b.addr hH
    have c4 := GETA_cases s (d.addr + 4) hH
    have e := e2 d hd hdb
    by_cases hc : GET s.mem b.addr ≠ 0 ∧ d.addr = s.heap_listp + GET s.mem b.addr
    · rw [if_pos hc] at e; rw [if_pos (by omega)]; omega
    · rw [if_neg hc] at e; rw [if_neg (by omega)]; omega
  have A3 : headOf s' (bucket b.size)
      = if GETA s (b.addr + 4) = 0 then GETA s b.addr else headOf s (bucket b.size) := by
    clear hP hN
    have c2 := GETA_cases s (b.addr + 4) hH
    have c3 := GETA_cases s b.addr hH
    rw [e3]
    by_cases hc : GET s.mem (b.addr + 4) = 0
    · have hg : GETA s (b.addr + 4) = 0 := by omega
      rw [if_pos (show GET s.mem (b.addr + 4) = 0 ∧ bucket b.size = bucket b.size
        from ⟨hc, rfl⟩), if_pos hg]
      by_cases hn : GET s.mem b.addr = 0
      · rw [if_pos hn]; omega
      · rw [if_neg hn]; omega
    · have hg : ¬ GETA s (b.addr + 4) = 0 := by omega
      rw [if_neg (show ¬ (GET s.mem (b.addr + 4) = 0 ∧ bucket b.size = bucket b.size)
        from fun hh => hc hh.1), if_neg hg]
  refine ⟨fun k => ?_, fun k d hd => h.lists.bkt k d (List.mem_of_mem_erase hd),
    fun k => (h.lists.nd k).erase b⟩
  by_cases hk : k = bucket b.size
  · subst hk
    have hseg := h.lists.seg (bucket b.size)
    rw [hsplit] at hseg
    show Seg s' (headOf s' (bucket b.size)) 0 ((Ls (bucket b.size)).erase b) 0
    rw [hsplit, erase_mid hnd, A3]
    have hmem : ∀ d, d ∈ L1 ++ L2 → listed Ls d ∧ d ≠ b := by
      intro d hd
      have hd' : d ∈ L1 ++ b :: L2 := by
        rcases List.mem_append.mp hd with h1 | h1
        · exact List.mem_append_left _ h1
        · exact List.mem_append_right _ (List.mem_cons_of_mem _ h1)
      refine ⟨h.lists.mem_listed (k := bucket b.size) (by rw [hsplit]; exact hd'), ?_⟩
      rintro rfl
      have := List.nodup_append.mp hnd
      rcases List.mem_append.mp hd with h1 | h1
      · exact this.2.2 h1 (List.mem_cons_self _ _)
      · exact (List.nodup_cons.mp this.2.1).1 h1
    exact SegF_remove hseg hnd
      (fun x hx y hy => h.uniq (bucket b.size) x (by rw [hsplit]; exact hx) (bucket b.size) y
        (by rw [hsplit]; exact hy))
      (fun x hx => by
        have := h.low (bucket b.size) x (by rw [hsplit]; exact hx)
        omega)
      (fun d hd => A1 d (hmem d hd).1 (hmem d hd).2)
      (fun d hd => A2 d (hmem d hd).1 (hmem d hd).2)
  · have hbk : b ∉ Ls k := fun hbk => hk (h.lists.bkt k b hbk).symm
    show Seg s' (headOf s' k) 0 ((Ls k).erase b) 0
    rw [List.erase_of_not_mem hbk, e3,
      if_neg (show ¬ (GET s.mem (b.addr + 4) = 0 ∧ k = bucket b.size) from fun hh => hk hh.2)]
    refine SegF_congr (fun d hd => ?_) (h.lists.seg k)
    have hdl := h.lists.mem_listed hd
    have hdb : d ≠ b := fun he => hbk (he ▸ hd)
    have hdlow := h.low k d hd
    have hdk := h.lists.bkt k d hd
    have hnotin : ∀ y, y ∈ Ls (bucket b.size) → d.addr ≠ y.addr := by
      intro y hy he
      have : d = y := h.uniq k d hd _ y hy he
      rw [this] at hdk
      exact hk (by rw [← hdk]; exact h.lists.bkt _ y hy)
    constructor
    · show GETA s' d.addr = GETA s d.addr
      rw [A1 d hdl hdb, if_neg]
      rcases hP with h0 | ⟨y, hy, hya⟩
      · omega
      · rw [← hya]
        exact hnotin y (by rw [hsplit]; exact List.mem_append_left _ hy)
    · show GETA s' (d.addr + 4) = GETA s (d.addr + 4)
      rw [A2 d hdl hdb, if_neg]
      rcases hN with h0 | ⟨c, hc, hca⟩
      · omega
      · rw [← hca]
        exact hnotin c (by
          rw [hsplit]; exact List.mem_append_right _ (List.mem_cons_of_mem _ hc))

theorem add_stepL {s : State} {hi : Nat} {Ls : Nat → List Blk} (h : LL s hi Ls) {r : Blk}
    (hr : ¬ listed Ls r) (hlo : s.heap_listp + 8 ≤ r.addr) (h16 : 16 ≤ r.size)
    (hhi : r.addr + r.size ≤ hi)
    (hdis : ∀ c, listed Ls c → c.addr + c.size ≤ r.addr ∨ r.addr + r.size ≤ c.addr)
    (hhdr : GET s.mem (r.addr - 4) = r.size) (h8 : r.size % 8 = 0) :
    LL (addtolist s r.addr) hi (fun k => if k = bucket r.size then r :: Ls k else Ls k)
      ∧ Frame s (addtolist s r.addr) (sepL (fun d => d = r ∨ listed Ls d)) := by
  obtain ⟨L', F⟩ := add_step h.links hr hlo h16 hhi hdis hhdr h8
  have hgeo : Geo (s.heap_listp + 8) hi (fun d => d = r ∨ listed Ls d) := by
    have := L'.geo
    rw [F.heap_listp] at this
    exact this
  obtain ⟨⟨e1, e2, e3, e4, e5⟩, _⟩ := addtolist_effect s (listed Ls) r hi h.links.base_hi
    h.links.top hgeo h.links.inv hr hhdr h8
  generalize addtolist s r.addr = s' at *
  have hH := h.links.base_hi
  have hH' := L'.base_hi
  have hHe := F.heap_listp
  have htop := h.links.top
  have hiff : ∀ d, listed (fun k => if k = bucket r.size then r :: Ls k else Ls k) d
      ↔ (d = r ∨ listed Ls d) := fun d => by
    show d ∈ (if bucket d.size = bucket r.size then r :: Ls (bucket d.size)
      else Ls (bucket d.size)) ↔ _
    by_cases hc : bucket d.size = bucket r.size
    · rw [if_pos hc]; exact List.mem_cons
    · rw [if_neg hc]
      constructor
      · exact fun hd => Or.inr hd
      · rintro (rfl | hd)
        · exact absurd rfl hc
        · exact hd
  refine ⟨⟨L'.congr hiff, ?_⟩, F⟩
  -- the old head of the bucket of `r`
  have hhead : headOf s (bucket r.size) = 0
      ∨ ∃ c, c ∈ Ls (bucket r.size) ∧ c.addr = headOf s (bucket r.size) := by
    have hseg := h.lists.seg (bucket r.size)
    cases hL : Ls (bucket r.size) with
    | nil => rw [hL] at hseg; left; exact hseg
    | cons c L =>
      rw [hL] at hseg
      right; exact ⟨c, List.mem_cons_self _ _, hseg.1⟩
  have hhd : headOf s (bucket r.size) = 0 ∨ (s.heap_listp + 8 ≤ headOf s (bucket r.size)
      ∧ headOf s (bucket r.size) < s.heap_listp + 4294967296) := by
    rcases hhead with h0 | ⟨c, hc, hca⟩
    · exact Or.inl h0
    · have := h.links.geo.1 c (h.lists.mem_listed hc)
      right; omega
  have B1 : GETA s' r.addr = headOf s (bucket r.size) := by
    clear hhead
    have c1 := GETA_cases s' r.addr hH'
    by_cases hc : headOf s (bucket r.size) = 0
    · rw [if_pos hc] at e1; omega
    · rw [if_neg hc] at e1; omega
  have B2 : GETA s' (r.addr + 4) = 0 := by
    clear hhead
    have c1 := GETA_cases s' (r.addr + 4) hH'
    omega
  have B3 : ∀ d, listed Ls d → GETA s' d.addr = GETA s d.addr := fun d hd =>
    GETA_congr hHe (e3 d hd)
  have B4 : ∀ d, listed Ls d → GETA s' (d.addr + 4)
      = if d.addr = headOf s (bucket r.size) then r.addr else GETA s (d.addr + 4) := by
    intro d hd
    clear hhead
    have c1 := GETA_cases s' (d.addr + 4) hH'
    have c4 := GETA_cases s (d.addr + 4) hH
    have e := e4 d hd
    by_cases hc : d.addr = headOf s (bucket r.size)
    · rw [if_pos hc] at e; rw [if_pos hc]; omega
    · rw [if_neg hc] at e; rw [if_neg hc]; omega
  refine ⟨fun k => ?_, fun k d hd => ?_, fun k => ?_⟩
  · by_cases hk : k = bucket r.size
    · subst hk
      show Seg s' (headOf s' (bucket r.size)) 0
        (if bucket r.size = bucket r.size then r :: Ls (bucket r.size)
          else Ls (bucket r.size)) 0
      rw [if_pos rfl, e5, if_pos rfl]
      exact SegF_add (h.lists.seg (bucket r.size)) (h.lists.nd _)
        (fun x hx y hy => h.uniq _ x hx _ y hy) B1 B2
        (fun d hd => B3 d (h.lists.mem_listed hd))
        (fun d hd => B4 d (h.lists.mem_listed hd))
    · show Seg s' (headOf s' k) 0 (if k = bucket r.size then r :: Ls k else Ls k) 0
      rw [if_neg hk, e5, if_neg hk]
      refine SegF_congr (fun d hd => ⟨B3 d (h.lists.mem_listed hd), ?_⟩) (h.lists.seg k)
      show GETA s' (d.addr + 4) = GETA s (d.addr + 4)
      rw [B4 d (h.lists.mem_listed hd), if_neg]
      have hdlow := h.low k d hd
      rcases hhead with h0 | ⟨c, hc, hca⟩
      · omega
      · rw [← hca]
        intro he
        have : d = c := h.uniq k d hd _ c hc he
        rw [this] at hd
        exact hk ((h.lists.bkt k c hd).symm.trans (h.lists.bkt _ c hc))
  · by_cases hk : k = bucket r.size
    · have hd' : d ∈ r :: Ls k := by
        have : d ∈ (if k = bucket r.size then r :: Ls k else Ls k) := hd
        rw [if_pos hk] at this; exact this
      rcases List.mem_cons.mp hd' with rfl | hd''
      · exact hk.symm
      · exact h.lists.bkt k d hd''
    · have hd' : d ∈ Ls k := by
        have : d ∈ (if k = bucket r.size then r :: Ls k else Ls k) := hd
        rw [if_neg hk] at this; exact this
      exact h.lists.bkt k d hd'
  · show (if k = bucket r.size then r :: Ls k else Ls k).Nodup
    by_cases hk : k = bucket r.size
    · rw [if_pos hk]
      subst hk
      exact List.nodup_cons.mpr ⟨hr, h.lists.nd _⟩
    · rw [if_neg hk]; exact h.lists.nd k

theorem HeapL.ll {s : State} {bs : List Blk} {Ls : Nat → List Blk} (h : HeapL s bs Ls) :
    LL s s.brk Ls := ⟨h.heap.links, h.lists⟩

theorem listed_erase {s : State} {Ls : Nat → List Blk} (hl : Lists s Ls) (b c : Blk) :
    listed (fun k => (Ls k).erase b) c ↔ (listed Ls c ∧ c ≠ b) := by
  show c ∈ (Ls (bucket c.size)).erase b ↔ _
  rw [(hl.nd _).mem_erase_iff]; exact and_comm

theorem listed_push (Ls : Nat → List Blk) (r c : Blk) :
    listed (fun k => if k = bucket r.size then r :: Ls k else Ls k) c ↔ (c = r ∨ listed Ls c) := by
  show c ∈ (if bucket c.size = bucket r.size then r :: Ls (bucket c.size)
    else Ls (bucket c.size)) ↔ _
  by_cases hc : bucket c.size = bucket r.size
  · rw [if_pos hc]; exact List.mem_cons
  · rw [if_neg hc]
    constructor
    · exact fun hd => Or.inr hd
    · rintro (rfl | hd)
      · exact absurd rfl hc
      · exact hd

theorem HeapL_rebuild {s s' : State} {l1 l2 : List Blk} (old mid : List Blk)
    {Ls Ls' : Nat → List Blk} {x y : Nat}
    (h : HeapL s (l1 ++ (old ++ l2)) Ls)
    (h1 : Chain (s.heap_listp + 8) l1 x) (hm : Chain x mid y) (h2 : Chain y l2 s.brk)
    (hfr : Frame s s' (fun q => (q + 4 ≤ x - 4 ∨ y - 4 ≤ q) ∧ sepL (listed Ls) q))
    (hmid : ∀ b, b ∈ mid → BlkOK s'.mem b)
    (hS' : ∀ c, listed Ls' c → c ∈ l1 ++ (mid ++ l2) ∧ c.alloc = 0)
    (hL : LL s' s.brk Ls') :
    HeapL s' (l1 ++ (mid ++ l2)) Ls' :=
  ⟨Heap_rebuild old mid h.heap h1 hm h2 hfr hmid hS' hL.links.inv, hL.lists⟩

/-- `place` without a split, on a well-formed heap. -/
theorem place_whole_wf (s : State) (l1 l2 : List Blk) (b : Blk) (Ls : Nat → List Blk)
    (asize : Nat) (h : Wf s (l1 ++ b :: l2) Ls) (hfree : b.alloc = 0)
    (hle : asize ≤ b.size) (hsmall : b.size - asize < 16) :
    Wf (place s b.addr asize) (l1 ++ ⟨b.addr, b.size, 1⟩ :: l2) (fun k => (Ls k).erase b)
      ∧ Frame s (place s b.addr asize)
          (fun q => (q + 4 ≤ b.addr - 4 ∨ b.addr + b.size - 4 ≤ q) ∧ sepL (listed Ls) q) := by
  have hbm : b ∈ l1 ++ b :: l2 := by simp
  have hh := h.1.heap
  obtain ⟨f1, f2, f3, f4, f5, f6, f7, f8⟩ := hh.block_facts hbm
  have hbh : GET s.mem (b.addr - 4) = b.size := by
    have := (hh.blocks b hbm).2.2.2.1; rw [hfree] at this; exact this
  obtain ⟨sp1, sp2⟩ := hh.sep_block hbm
  have hshape := place_whole_shape s b.addr asize b.size (by omega) (by omega) hbh f4 (by omega)
    (by omega) hle hsmall
  have L2 := setBlock_stepL h.1.ll b.addr b.size 1 (by omega) (by omega) sp1 sp2
  obtain ⟨L3, F3⟩ := remove_stepL L2 (h.2 b hbm hfree) b.size rfl
  rw [← hshape] at L3 F3
  have F : Frame s (place s b.addr asize)
      (fun q => (q + 4 ≤ b.addr - 4 ∨ b.addr + b.size - 4 ≤ q) ∧ sepL (listed Ls) q) :=
    (setBlock_frame s b.addr b.size 1 (by omega) (by omega)).trans F3
      (fun q hq => ⟨⟨by omega, by omega⟩, hq.2⟩)
  refine ⟨⟨?_, ?_⟩, F⟩
  · obtain ⟨c1, c2⟩ := chain_mid hh.chain
    refine HeapL_rebuild [b] [⟨b.addr, b.size, 1⟩] h.1 c1 ⟨rfl, rfl⟩ c2 F ?_ ?_ L3
    · intro c hc
      rw [List.mem_singleton] at hc
      subst hc
      refine ⟨f3, f4, by simp, ?_, ?_⟩
      · show GET _ (b.addr - 4) = b.size + 1
        rw [F3.mem _ sp1]
        exact setBlock_hdr _ _ _ _ (by omega) (by omega) (by omega)
      · show GET _ (b.addr + b.size - 8) = b.size + 1
        rw [F3.mem _ sp2]
        exact setBlock_ftr _ _ _ _ (by omega)
    · intro c hc
      obtain ⟨hcl, hcb⟩ := (listed_erase h.1.lists b c).mp hc
      obtain ⟨hcm, hca⟩ := hh.listed c hcl
      exact ⟨(mem_replace [⟨b.addr, b.size, 1⟩] hh.chain (by omega) c).mpr (Or.inr ⟨hcm, hcb⟩),
        hca⟩
  · intro c hc hca
    have hc' : c ∈ l1 ++ ([⟨b.addr, b.size, 1⟩] ++ l2) := hc
    rcases (mem_replace [⟨b.addr, b.size, 1⟩] hh.chain (by omega) c).mp hc' with hm | ⟨hm, hcb⟩
    · rw [List.mem_singleton] at hm
      subst hm
      simp at hca
    · exact (listed_erase h.1.lists b c).mpr ⟨h.2 c hm hca, hcb⟩

/-- `place` with a split, on a well-formed heap. -/
theorem place_split_wf (s : State) (l1 l2 : List Blk) (b : Blk) (Ls : Nat → List Blk)
    (asize : Nat) (h : Wf s (l1 ++ b :: l2) Ls) (hfree : b.alloc = 0)
    (ha16 : 16 ≤ asize) (ha8 : asize % 8 = 0)
    (hle : asize ≤ b.size) (hbig : 16 ≤ b.size - asize) :
    Wf (place s b.addr asize)
        (l1 ++ ⟨b.addr, asize, 1⟩ :: ⟨b.addr + asize, b.size - asize, 0⟩ :: l2)
        (fun k => if k = bucket (b.size - asize)
          then ⟨b.addr + asize, b.size - asize, 0⟩ :: (Ls k).erase b else (Ls k).erase b)
      ∧ Frame s (place s b.addr asize)
          (fun q => (q + 4 ≤ b.addr - 4 ∨ b.addr + b.size - 4 ≤ q) ∧ sepL (listed Ls) q) := by
  have hbm : b ∈ l1 ++ b :: l2 := by simp
  have hh := h.1.heap
  obtain ⟨f1, f2, f3, f4, f5, f6, f7, f8⟩ := hh.block_facts hbm
  have hbh : GET s.mem (b.addr - 4) = b.size := by
    have := (hh.blocks b hbm).2.2.2.1; rw [hfree] at this; exact this
  obtain ⟨sp1, _⟩ := hh.sep_block hbm
  have sp2 := hh.sep_inside hbm (b.addr + asize - 8) (by omega) (by omega) (by omega)
  have sp3 := hh.sep_inside hbm (b.addr + asize - 4) (by omega) (by omega) (by omega)
  have sp4 := hh.sep_inside hbm (b.addr + b.size - 8) (by omega) (by omega) (by omega)
  -- header of the allocated part, then unlink
  have L2 := setBlock_stepL h.1.ll b.addr asize 1 (by omega) (by omega) sp1 sp2
  obtain ⟨L3, F3⟩ := remove_stepL L2 (h.2 b hbm hfree) b.size rfl
  have hs3 : GET (removefromlist (setBlock s b.addr asize 1)
      (GETA (setBlock s b.addr asize 1) b.addr)
      (GETA (setBlock s b.addr asize 1) (padd b.addr WSIZE)) b.size).mem (b.addr - 4)
      = asize + 1 := by
    rw [F3.mem _ sp1]
    exact setBlock_hdr _ _ _ _ (by omega) (by omega) (by omega)
  have hshape := place_split_shape s b.addr asize b.size (by omega) (by omega) hbh f4 (by omega)
    ha8 (by omega) hle hbig hs3
  obtain ⟨s3, e3⟩ : ∃ s3, s3 = removefromlist (setBlock s b.addr asize 1)
      (GETA (setBlock s b.addr asize 1) b.addr)
      (GETA (setBlock s b.addr asize 1) (padd b.addr WSIZE)) b.size := ⟨_, rfl⟩
  rw [← e3] at L3 F3 hs3 hshape
  have hH3 : s3.heap_listp = s.heap_listp := F3.heap_listp
  have hle1 := listed_erase h.1.lists b
  -- header of the remainder, then push it
  have sub : ∀ q, sepL (listed Ls) q → sepL (listed (fun k => (Ls k).erase b)) q :=
    fun q hq c hc => hq c ((hle1 c).mp hc).1
  have L5 := setBlock_stepL L3 (b.addr + asize) (b.size - asize) 0 (by omega) (by omega)
    (sub _ sp3) (by rw [show b.addr + asize + (b.size - asize) - 8 = b.addr + b.size - 8 by omega]
                    exact sub _ sp4)
  have hsepr : ∀ c, c ∈ l1 ++ b :: l2 → c ≠ b →
      c.addr + c.size ≤ b.addr ∨ b.addr + b.size ≤ c.addr := by
    intro c hc hcb
    rcases chain_pairwise hh.chain c hc b hbm with h | h | h
    · exact absurd h hcb
    · exact Or.inl h
    · exact Or.inr h
  obtain ⟨L6, F6⟩ := add_stepL (r := ⟨b.addr + asize, b.size - asize, 0⟩) L5
    (by intro hr
        obtain ⟨hrl, hrb⟩ := (hle1 _).mp hr
        have := hsepr _ (hh.listed _ hrl).1 hrb
        simp only at this; omega)
    (by simp only [setBlock_heap_listp, hH3]; omega) hbig
    (by simp only; omega)
    (by intro c hc
        obtain ⟨hcl, hcb⟩ := (hle1 _).mp hc
        have := hsepr c (hh.listed _ hcl).1 hcb
        simp only; omega)
    (by have := setBlock_hdr s3 (b.addr + asize) (b.size - asize) 0 (by omega) (by omega)
          (by omega)
        simpa using this)
    (by simp only; omega)
  simp only [] at L6 F6
  rw [← hshape] at L6 F6
  have F25 : Frame s (setBlock s3 (b.addr + asize) (b.size - asize) 0)
      (fun q => (q + 4 ≤ b.addr - 4 ∨ b.addr + b.size - 4 ≤ q) ∧ sepL (listed Ls) q) :=
    (show Frame s s3 (fun q => ((q + 4 ≤ b.addr - 4 ∨ b.addr ≤ q)
          ∧ (q + 4 ≤ b.addr + asize - 8 ∨ b.addr + asize - 4 ≤ q))
          ∧ sepL (listed Ls) q) from
      (setBlock_frame s b.addr asize 1 (by omega) (by omega)).trans F3 (fun q hq => hq)).trans
      (setBlock_frame s3 (b.addr + asize) (b.size - asize) 0 (by omega) (by omega))
      (fun q hq => ⟨⟨⟨by omega, by omega⟩, hq.2⟩, ⟨by omega, by omega⟩⟩)
  have F : Frame s (place s b.addr asize)
      (fun q => (q + 4 ≤ b.addr - 4 ∨ b.addr + b.size - 4 ≤ q) ∧ sepL (listed Ls) q) := by
    refine F25.trans F6 (fun q hq => ⟨hq, ?_⟩)
    rintro c (rfl | hc)
    · simp only; omega
    · exact hq.2 c ((hle1 c).mp hc).1
  refine ⟨⟨?_, ?_⟩, F⟩
  · -- the four new words in the final memory
    have rd : ∀ q, sepL (listed Ls) q →
        (q + 4 ≤ b.addr + asize ∨ b.addr + asize + 8 ≤ q) →
        GET (place s b.addr asize).mem q
          = GET (setBlock s3 (b.addr + asize) (b.size - asize) 0).mem q := by
      intro q h1 h2
      apply F6.mem
      rintro c (rfl | hc)
      · exact h2
      · exact h1 c ((hle1 c).mp hc).1
    obtain ⟨c1, c2⟩ := chain_mid hh.chain
    refine HeapL_rebuild [b] [⟨b.addr, asize, 1⟩, ⟨b.addr + asize, b.size - asize, 0⟩] h.1 c1
      ⟨rfl, rfl, by show b.addr + asize + (b.size - asize) = b.addr + b.size; omega⟩ c2 F
      ?_ ?_ L6
    · intro c hc
      simp only [List.mem_cons, List.mem_singleton, List.not_mem_nil, or_false] at hc
      rcases hc with h | h
      · subst h
        refine ⟨ha16, ha8, by simp, ?_, ?_⟩
        · show GET _ (b.addr - 4) = asize + 1
          rw [rd _ sp1 (by omega), setBlock_other _ _ _ _ _ (by omega) (by omega) (by omega)
            (by omega)]
          exact hs3
        · show GET _ (b.addr + asize - 8) = asize + 1
          rw [rd _ sp2 (by omega), setBlock_other _ _ _ _ _ (by omega) (by omega) (by omega)
            (by omega), F3.mem _ sp2]
          exact setBlock_ftr _ _ _ _ (by omega)
      · subst h
        refine ⟨hbig, by simp only; omega, by simp, ?_, ?_⟩
        · show GET _ (b.addr + asize - 4) = b.size - asize + 0
          rw [rd _ sp3 (by omega)]
          exact setBlock_hdr _ _ _ _ (by omega) (by omega) (by omega)
        · show GET _ (b.addr + asize + (b.size - asize) - 8) = b.size - asize + 0
          rw [rd _ (by rw [show b.addr + asize + (b.size - asize) - 8 = b.addr + b.size - 8
                        by omega]
                       exact sp4) (by omega)]
          exact setBlock_ftr _ _ _ _ (by omega)
    · intro c hc
      rcases (listed_push (fun k => (Ls k).erase b) ⟨b.addr + asize, b.size - asize, 0⟩ c).mp hc with rfl | hc'
      · exact ⟨by simp, rfl⟩
      · obtain ⟨hcl, hcb⟩ := (hle1 c).mp hc'
        obtain ⟨hcm, hca⟩ := hh.listed c hcl
        exact ⟨(mem_replace [⟨b.addr, asize, 1⟩, ⟨b.addr + asize, b.size - asize, 0⟩]
          hh.chain (by omega) c).mpr (Or.inr ⟨hcm, hcb⟩), hca⟩
  · intro c hc hca
    have hc' : c ∈ l1 ++ ([⟨b.addr, asize, 1⟩, ⟨b.addr + asize, b.size - asize, 0⟩] ++ l2) := hc
    rcases (mem_replace [⟨b.addr, asize, 1⟩, ⟨b.addr + asize, b.size - asize, 0⟩]
      hh.chain (by omega) c).mp hc' with hm | ⟨hm, hcb⟩
    · simp only [List.mem_cons, List.mem_singleton, List.not_mem_nil, or_false] at hm
      rcases hm with hm | hm
      · subst hm; simp at hca
      · subst hm; exact (listed_push (fun k => (Ls k).erase b) ⟨b.addr + asize, b.size - asize, 0⟩ _).mpr (Or.inl rfl)
    · exact (listed_push (fun k => (Ls k).erase b) ⟨b.addr + asize, b.size - asize, 0⟩ c).mpr
        (Or.inr ((hle1 c).mpr ⟨h.2 c hm hca, hcb⟩))

/-- The last step of every coalescing case: the merged block over the extent
`[x, y)`, whose header and footer are already written, is pushed on its list. -/
theorem merge_addL {s s2 : State} {l1 l2 : List Blk} (old : List Blk)
    {Ls Ls1 : Nat → List Blk} {x y sz : Nat}
    (h : HeapL s (l1 ++ (old ++ l2)) Ls) (hsz : x + sz = y)
    (c1 : Chain (s.heap_listp + 8) l1 x) (c2 : Chain y l2 s.brk)
    (hxy : x + 16 ≤ y) (h8 : sz % 8 = 0)
    (L2 : LL s2 s.brk Ls1)
    (F2 : Frame s s2 (fun q => (q + 4 ≤ x - 4 ∨ y - 4 ≤ q) ∧ sepL (listed Ls) q))
    (hhdr : GET s2.mem (x - 4) = sz) (hftr : GET s2.mem (y - 8) = sz)
    (hS1 : ∀ c, listed Ls1 c ↔ (c ∈ l1 ++ l2 ∧ c.alloc = 0))
    (hsub : ∀ c, listed Ls1 c → listed Ls c) :
    Wf (addtolist s2 x) (l1 ++ (⟨x, sz, 0⟩ :: l2))
        (fun k => if k = bucket sz then ⟨x, sz, 0⟩ :: Ls1 k else Ls1 k)
      ∧ Frame s (addtolist s2 x) (fun q => (q + 4 ≤ x - 4 ∨ y - 4 ≤ q) ∧ sepL (listed Ls) q) := by
  have hx := (chain_bounds c1).1
  have hy := (chain_bounds c2).1
  have hlo := h.heap.base_lo
  have hbrk := h.heap.brk_hi
  have hH2 : s2.heap_listp = s.heap_listp := F2.heap_listp
  have hgeo : ∀ c, listed Ls1 c → 16 ≤ c.size ∧ (c.addr + c.size ≤ x ∨ y ≤ c.addr) := by
    intro c hc
    have hm := ((hS1 c).mp hc).1
    rcases List.mem_append.mp hm with hm | hm
    · have := (chain_bounds c1).2 c hm
      have := (h.heap.blocks c (by simp [hm])).1
      omega
    · have := (chain_bounds c2).2 c hm
      have := (h.heap.blocks c (by simp [hm])).1
      omega
  have sp : ∀ q, x - 4 ≤ q → q + 8 ≤ y → sepL (listed Ls1) q := by
    intro q h1 h2 c hc
    have := hgeo c hc
    omega
  obtain ⟨L3, F3⟩ := add_stepL (r := ⟨x, sz, 0⟩) L2
    (by intro hm
        have := hgeo _ hm
        simp only at this; omega)
    (by simp only [hH2]; omega) (by simp only; omega)
    (by simp only; omega)
    (by intro c hc
        have := hgeo c hc
        simp only; omega)
    hhdr h8
  simp only [] at L3 F3
  have F : Frame s (addtolist s2 x)
      (fun q => (q + 4 ≤ x - 4 ∨ y - 4 ≤ q) ∧ sepL (listed Ls) q) := by
    refine F2.trans F3 (fun q hq => ⟨hq, ?_⟩)
    rintro c (rfl | hc)
    · simp only; omega
    · exact hq.2 c (hsub c hc)
  refine ⟨⟨?_, ?_⟩, F⟩
  · refine HeapL_rebuild old [⟨x, sz, 0⟩] h c1
      ⟨rfl, by show x + sz = y; omega⟩ c2 F ?_ ?_ L3
    · intro c hc
      rw [List.mem_singleton] at hc
      subst hc
      have a1 : sepL (fun d => d = (⟨x, sz, 0⟩ : Blk) ∨ listed Ls1 d) (x - 4) := by
        rintro c (rfl | hc)
        · simp only; omega
        · exact sp _ (by omega) (by omega) c hc
      have a2 : sepL (fun d => d = (⟨x, sz, 0⟩ : Blk) ∨ listed Ls1 d) (y - 8) := by
        rintro c (rfl | hc)
        · simp only; omega
        · exact sp _ (by omega) (by omega) c hc
      refine ⟨by simp only; omega, h8, by simp, ?_, ?_⟩
      · show GET _ (x - 4) = sz + 0
        rw [F3.mem _ a1]
        exact hhdr
      · show GET _ (x + sz - 8) = sz + 0
        have e : x + sz - 8 = y - 8 := by omega
        rw [e, F3.mem _ a2]
        exact hftr
    · intro c hc
      rcases (listed_push Ls1 ⟨x, sz, 0⟩ c).mp hc with rfl | hc'
      · exact ⟨by simp, rfl⟩
      · obtain ⟨hm, hal⟩ := (hS1 c).mp hc'
        refine ⟨?_, hal⟩
        rcases List.mem_append.mp hm with hm | hm
        · exact List.mem_append_left _ hm
        · exact List.mem_append_right _ (List.mem_append_right _ hm)
  · intro c hc hal
    refine (listed_push Ls1 ⟨x, sz, 0⟩ c).mpr ?_
    rcases List.mem_append.mp hc with hm | hm
    · exact Or.inr ((hS1 c).mpr ⟨List.mem_append_left _ hm, hal⟩)
    · rcases List.mem_cons.mp hm with rfl | hm
      · exact Or.inl rfl
      · exact Or.inr ((hS1 c).mpr ⟨List.mem_append_right _ hm, hal⟩)

/-- The final steps of a coalescing case that merges blocks: write the merged
block over the extent `[x, y)` and push it on its list. -/
theorem merge_finishL {s s1 : State} {l1 l2 : List Blk} (old : List Blk)
    {Ls Ls1 : Nat → List Blk} {x y sz : Nat}
    (h : HeapL s (l1 ++ (old ++ l2)) Ls) (hsz : x + sz = y)
    (c1 : Chain (s.heap_listp + 8) l1 x) (c2 : Chain y l2 s.brk)
    (hxy : x + 16 ≤ y) (h8 : sz % 8 = 0)
    (L1 : LL s1 s.brk Ls1) (F1 : Frame s s1 (sepL (listed Ls)))
    (hS1 : ∀ c, listed Ls1 c ↔ (c ∈ l1 ++ l2 ∧ c.alloc = 0))
    (hsub : ∀ c, listed Ls1 c → listed Ls c) :
    Wf (addtolist (setBlock s1 x sz 0) x) (l1 ++ (⟨x, sz, 0⟩ :: l2))
        (fun k => if k = bucket sz then ⟨x, sz, 0⟩ :: Ls1 k else Ls1 k)
      ∧ Frame s (addtolist (setBlock s1 x sz 0) x)
          (fun q => (q + 4 ≤ x - 4 ∨ y - 4 ≤ q) ∧ sepL (listed Ls) q) := by
  have hx := (chain_bounds c1).1
  have hy := (chain_bounds c2).1
  have hlo := h.heap.base_lo
  have hbrk := h.heap.brk_hi
  have hgeo : ∀ c, listed Ls1 c → 16 ≤ c.size ∧ (c.addr + c.size ≤ x ∨ y ≤ c.addr) := by
    intro c hc
    have hm := ((hS1 c).mp hc).1
    rcases List.mem_append.mp hm with hm | hm
    · have := (chain_bounds c1).2 c hm
      have := (h.heap.blocks c (by simp [hm])).1
      omega
    · have := (chain_bounds c2).2 c hm
      have := (h.heap.blocks c (by simp [hm])).1
      omega
  have sp : ∀ q, x - 4 ≤ q → q + 8 ≤ y → sepL (listed Ls1) q := by
    intro q h1 h2 c hc
    have := hgeo c hc
    omega
  have L2 := setBlock_stepL L1 x sz 0 (by omega) (by omega) (sp _ (by omega) (by omega))
    (sp _ (by omega) (by omega))
  have F2 : Frame s (setBlock s1 x sz 0)
      (fun q => (q + 4 ≤ x - 4 ∨ y - 4 ≤ q) ∧ sepL (listed Ls) q) :=
    F1.trans (setBlock_frame s1 x sz 0 (by omega) (by omega))
      (fun q hq => ⟨hq.2, ⟨by omega, by omega⟩⟩)
  have e : x + sz - 8 = y - 8 := by omega
  have hf := setBlock_ftr s1 x sz 0 (by omega)
  rw [e] at hf
  exact merge_addL old h hsz c1 c2 hxy h8 L2 F2
    (setBlock_hdr s1 x sz 0 (by omega) (by omega) (by omega)) hf hS1 hsub

theorem listed_erase_nd {Ls : Nat → List Blk} (hnd : ∀ k, (Ls k).Nodup) (b c : Blk) :
    listed (fun k => (Ls k).erase b) c ↔ (listed Ls c ∧ c ≠ b) := by
  show c ∈ (Ls (bucket c.size)).erase b ↔ _
  rw [(hnd _).mem_erase_iff]; exact and_comm

/-- The blocks listed after the free neighbours `rem` of `b` were unlinked are
the free blocks outside the merged extent. -/
theorem listed_rest {s : State} {l1 l2 : List Blk} (old rem : List Blk)
    {Ls Ls1 : Nat → List Blk} {b : Blk}
    (h : HeapL s (l1 ++ (old ++ l2)) Ls)
    (hall : ∀ c, c ∈ l1 ++ (old ++ l2) → c.alloc = 0 → c ≠ b → listed Ls c)
    (hnb : ¬ listed Ls b)
    (hold : ∀ c, c ∈ old ↔ (c = b ∨ c ∈ rem))
    (hrem : ∀ c, listed Ls1 c ↔ (listed Ls c ∧ c ∉ rem)) :
    ∀ c, listed Ls1 c ↔ (c ∈ l1 ++ l2 ∧ c.alloc = 0) := by
  intro c
  rw [hrem c, mem_drop old h.heap.nodup c, hold c]
  constructor
  · rintro ⟨hl, hr⟩
    obtain ⟨hm, hal⟩ := h.heap.listed c hl
    refine ⟨⟨hm, ?_⟩, hal⟩
    rintro (rfl | hc)
    · exact hnb hl
    · exact hr hc
  · rintro ⟨⟨hm, hno⟩, hal⟩
    exact ⟨hall c hm hal (fun he => hno (Or.inl he)), fun hc => hno (Or.inr hc)⟩

/-- Coalescing between two allocated neighbours. -/
theorem coalesce_case1L (s : State) (l1 l2 : List Blk) (b : Blk) (Ls : Nat → List Blk)
    (h : HeapL s (l1 ++ b :: l2) Ls) (hfree : b.alloc = 0)
    (hall : ∀ c, c ∈ l1 ++ b :: l2 → c.alloc = 0 → c ≠ b → listed Ls c)
    (hnb : ¬ listed Ls b) :
    Wf (addtolist s b.addr) (l1 ++ b :: l2)
        (fun k => if k = bucket b.size then b :: Ls k else Ls k)
      ∧ Frame s (addtolist s b.addr) (fun q => (q + 4 ≤ b.addr - 4 ∨ b.addr + b.size - 4 ≤ q)
          ∧ sepL (listed Ls) q) := by
  have hbm : b ∈ l1 ++ b :: l2 := by simp
  obtain ⟨f1, f2, f3, f4, f5, f6, f7, f8⟩ := h.heap.block_facts hbm
  obtain ⟨_, _, _, g1, g2⟩ := h.heap.blocks b hbm
  rw [hfree] at g1 g2
  obtain ⟨c1, c2⟩ := chain_mid h.heap.chain
  have := merge_addL (x := b.addr) (y := b.addr + b.size) [b] h rfl c1 c2 (by omega) f4 h.ll
    (Frame.refl s _) g1 g2
    (listed_rest [b] [] h hall hnb (fun c => by simp) (fun c => by simp))
    (fun c hc => hc)
  rw [blk_eta b hfree] at this
  exact this

/-- Coalescing with a free next block `n`. -/
theorem coalesce_case2L (s : State) (l1 l2 : List Blk) (b n : Blk) (Ls : Nat → List Blk)
    (h : HeapL s (l1 ++ b :: n :: l2) Ls) (hfree : b.alloc = 0) (hn : n.alloc = 0)
    (hall : ∀ c, c ∈ l1 ++ b :: n :: l2 → c.alloc = 0 → c ≠ b → listed Ls c)
    (hnb : ¬ listed Ls b) :
    Wf (addtolist (setBlock (removefromlist s (GETA s (b.addr + b.size))
        (GETA s (padd (b.addr + b.size) WSIZE)) n.size) b.addr (b.size + n.size) 0) b.addr)
        (l1 ++ ⟨b.addr, b.size + n.size, 0⟩ :: l2)
        (fun k => if k = bucket (b.size + n.size)
          then ⟨b.addr, b.size + n.size, 0⟩ :: (Ls k).erase n else (Ls k).erase n)
      ∧ Frame s (addtolist (setBlock (removefromlist s (GETA s (b.addr + b.size))
        (GETA s (padd (b.addr + b.size) WSIZE)) n.size) b.addr (b.size + n.size) 0) b.addr)
        (fun q => (q + 4 ≤ b.addr - 4 ∨ b.addr + b.size + n.size - 4 ≤ q)
          ∧ sepL (listed Ls) q) := by
  have hbm : b ∈ l1 ++ b :: n :: l2 := by simp
  have hnm : n ∈ l1 ++ b :: n :: l2 := by simp
  obtain ⟨f1, f2, f3, f4, f5, f6, f7, f8⟩ := h.heap.block_facts hbm
  obtain ⟨k1, k2, k3, k4, k5, _, _, _⟩ := h.heap.block_facts hnm
  obtain ⟨c1, hna, c2⟩ := chain_mid h.heap.chain
  have hne : n ≠ b := by rintro rfl; omega
  obtain ⟨L1, F1⟩ := remove_stepL h.ll (hall n hnm hn hne) n.size rfl
  rw [hna] at L1 F1
  have hle := listed_erase_nd h.lists.nd n
  exact merge_finishL (x := b.addr) (y := b.addr + b.size + n.size) [b, n] h (by omega) c1 c2
    (by omega) (by omega) L1 F1
    (listed_rest [b, n] [n] h hall hnb (fun c => by simp)
      (fun c => by rw [hle c]; simp))
    (fun c hc => ((hle c).mp hc).1)

/-- Coalescing with a free previous block `p`. -/
theorem coalesce_case3L (s : State) (l1 l2 : List Blk) (p b : Blk) (Ls : Nat → List Blk)
    (h : HeapL s (l1 ++ p :: b :: l2) Ls) (hfree : b.alloc = 0) (hp : p.alloc = 0)
    (hall : ∀ c, c ∈ l1 ++ p :: b :: l2 → c.alloc = 0 → c ≠ b → listed Ls c)
    (hnb : ¬ listed Ls b) :
    (Wf (addtolist (setBlock (removefromlist s (GETA s p.addr)
        (GETA s (padd p.addr WSIZE)) p.size) p.addr (b.size + p.size) 0) p.addr)
        (l1 ++ ⟨p.addr, b.size + p.size, 0⟩ :: l2)
        (fun k => if k = bucket (b.size + p.size)
          then ⟨p.addr, b.size + p.size, 0⟩ :: (Ls k).erase p else (Ls k).erase p)
      ∧ Frame s (addtolist (setBlock (removefromlist s (GETA s p.addr)
        (GETA s (padd p.addr WSIZE)) p.size) p.addr (b.size + p.size) 0) p.addr)
        (fun q => (q + 4 ≤ p.addr - 4 ∨ p.addr + p.size + b.size - 4 ≤ q)
          ∧ sepL (listed Ls) q))
      ∧ GET (removefromlist s (GETA s p.addr) (GETA s (padd p.addr WSIZE)) p.size).mem
          (p.addr + p.size - 8) = p.size := by
  have hbm : b ∈ l1 ++ p :: b :: l2 := by simp
  have hpm : p ∈ l1 ++ p :: b :: l2 := by simp
  obtain ⟨f1, f2, f3, f4, f5, f6, f7, f8⟩ := h.heap.block_facts hbm
  obtain ⟨k1, k2, k3, k4, k5, _, _, _⟩ := h.heap.block_facts hpm
  obtain ⟨_, _, _, g1, g2⟩ := h.heap.blocks p hpm
  rw [hp] at g1 g2
  obtain ⟨c1, hba, c2⟩ := chain_mid h.heap.chain
  have hpb : p ≠ b := by rintro rfl; omega
  obtain ⟨L1, F1⟩ := remove_stepL h.ll (hall p hpm hp hpb) p.size rfl
  have hle := listed_erase_nd h.lists.nd p
  refine ⟨?_, ?_⟩
  · exact merge_finishL (x := p.addr) (y := p.addr + p.size + b.size) [p, b] h (by omega) c1 c2
      (by omega) (by omega) L1 F1
      (listed_rest [p, b] [p] h hall hnb
        (fun c => by simp only [List.mem_cons, List.mem_singleton, List.not_mem_nil, or_false]
                     exact or_comm)
        (fun c => by rw [hle c]; simp))
      (fun c hc => ((hle c).mp hc).1)
  · rw [F1.mem _ (h.heap.sep_block hpm).2]; exact g2

/-- Coalescing with a free previous block `p` and a free next block `n`. -/
theorem coalesce_case4L (s : State) (l1 l2 : List Blk) (p b n : Blk) (Ls : Nat → List Blk)
    (h : HeapL s (l1 ++ p :: b :: n :: l2) Ls)
    (hfree : b.alloc = 0) (hp : p.alloc = 0) (hn : n.alloc = 0)
    (hall : ∀ c, c ∈ l1 ++ p :: b :: n :: l2 → c.alloc = 0 → c ≠ b → listed Ls c)
    (hnb : ¬ listed Ls b)
    (s1 s2 : State)
    (hs1 : s1 = removefromlist s (GETA s n.addr) (GETA s (padd n.addr WSIZE)) n.size)
    (hs2 : s2 = removefromlist s1 (GETA s1 p.addr) (GETA s1 (padd p.addr WSIZE)) p.size) :
    (Wf (addtolist (setBlock s2 p.addr (b.size + (p.size + n.size)) 0) p.addr)
        (l1 ++ ⟨p.addr, b.size + (p.size + n.size), 0⟩ :: l2)
        (fun k => if k = bucket (b.size + (p.size + n.size))
          then ⟨p.addr, b.size + (p.size + n.size), 0⟩ :: ((Ls k).erase n).erase p
          else ((Ls k).erase n).erase p)
      ∧ Frame s (addtolist (setBlock s2 p.addr (b.size + (p.size + n.size)) 0) p.addr)
        (fun q => (q + 4 ≤ p.addr - 4 ∨ p.addr + p.size + b.size + n.size - 4 ≤ q)
          ∧ sepL (listed Ls) q))
      ∧ GET s1.mem (p.addr + p.size - 8) = p.size ∧ GET s1.mem (p.addr - 4) = p.size
      ∧ GET s2.mem (p.addr + p.size - 8) = p.size := by
  have hbm : b ∈ l1 ++ p :: b :: n :: l2 := by simp
  have hpm : p ∈ l1 ++ p :: b :: n :: l2 := by simp
  have hnm : n ∈ l1 ++ p :: b :: n :: l2 := by simp
  obtain ⟨f1, f2, f3, f4, f5, f6, f7, f8⟩ := h.heap.block_facts hbm
  obtain ⟨k1, k2, k3, k4, k5, _, _, _⟩ := h.heap.block_facts hpm
  obtain ⟨m1, m2, m3, m4, m5, _, _, _⟩ := h.heap.block_facts hnm
  obtain ⟨_, _, _, g1, g2⟩ := h.heap.blocks p hpm
  rw [hp] at g1 g2
  obtain ⟨c1, hba, hna, c2⟩ := chain_mid h.heap.chain
  have hpb : p ≠ b := by rintro rfl; omega
  have hne : n ≠ b := by rintro rfl; omega
  have hpn : p ≠ n := by rintro rfl; omega
  obtain ⟨L1, F1⟩ := remove_stepL h.ll (hall n hnm hn hne) n.size rfl
  rw [← hs1] at L1 F1
  have hle1 := listed_erase_nd h.lists.nd n
  obtain ⟨L2, F2⟩ := remove_stepL L1 ((hle1 p).mpr ⟨hall p hpm hp hpb, hpn⟩) p.size rfl
  rw [← hs2] at L2 F2
  have hle2 := listed_erase_nd L1.lists.nd p
  have F12 : Frame s s2 (sepL (listed Ls)) :=
    F1.trans F2 (fun q hq => ⟨hq, fun c hc => hq c ((hle1 c).mp hc).1⟩)
  obtain ⟨sp1, sp2⟩ := h.heap.sep_block hpm
  refine ⟨?_, ?_, ?_, ?_⟩
  · exact merge_finishL (x := p.addr) (y := p.addr + p.size + b.size + n.size) [p, b, n] h
      (by omega) c1 c2 (by omega) (by omega) L2 F12
      (listed_rest [p, b, n] [n, p] h hall hnb
        (fun c => by
          simp only [List.mem_cons, List.mem_singleton, List.not_mem_nil, or_false]
          constructor
          · rintro (h1 | h1 | h1)
            · exact Or.inr (Or.inr h1)
            · exact Or.inl h1
            · exact Or.inr (Or.inl h1)
          · rintro (h1 | h1 | h1)
            · exact Or.inr (Or.inl h1)
            · exact Or.inr (Or.inr h1)
            · exact Or.inl h1)
        (fun c => by
          rw [hle2 c, hle1 c]
          simp only [List.mem_cons, List.mem_singleton, List.not_mem_nil, or_false, not_or,
            and_assoc]))
      (fun c hc => ((hle1 c).mp ((hle2 c).mp hc).1).1)
  · rw [F1.mem _ sp2]; exact g2
  · rw [F1.mem _ sp1]; exact g1
  · rw [F12.mem _ sp2]; exact g2

theorem Heap.prev_alloc {s : State} {l1 l2 : List Blk} {b : Blk} {S : Blk → Prop}
    (h : Heap s (l1 ++ b :: l2) S) (hprev : ∀ l p, l1 = l ++ [p] → p.alloc ≠ 0) :
    ∃ psz, GET s.mem (b.addr - 8) = psz + 1 ∧ GET s.mem (b.addr - psz - 4) = psz + 1
      ∧ psz % 8 = 0 ∧ psz + 8 ≤ b.addr := by
  obtain ⟨psz, pal, p1, p2, p3, p4, p5, p6⟩ := h.prev_info
  rcases p6 with rfl | ⟨rfl, l, p, hl, _, hp, _⟩
  · exact ⟨psz, p1, p2, p3, p5⟩
  · exact absurd hp (hprev l p hl)

theorem Heap.next_alloc {s : State} {l1 l2 : List Blk} {b : Blk} {S : Blk → Prop}
    (h : Heap s (l1 ++ b :: l2) S) (hnext : ∀ n l, l2 = n :: l → n.alloc ≠ 0) :
    ∃ nsz, GET s.mem (b.addr + b.size - 4) = nsz + 1 ∧ nsz % 8 = 0 := by
  obtain ⟨nsz, nal, n1, n2, n3⟩ := h.next_info
  rcases n3 with rfl | ⟨rfl, n, l, hl, _, hn, _⟩
  · exact ⟨nsz, n1, n2⟩
  · exact absurd hn (hnext n l hl)

/-- `coalesce` when neither neighbour is free. -/
theorem coalesce_A (s : State) (l1 l2 : List Blk) (b : Blk) (Ls : Nat → List Blk)
    (h : HeapL s (l1 ++ b :: l2) Ls) (hfree : b.alloc = 0)
    (hall : ∀ c, c ∈ l1 ++ b :: l2 → c.alloc = 0 → c ≠ b → listed Ls c)
    (hnb : ¬ listed Ls b)
    (hprev : ∀ l p, l1 = l ++ [p] → p.alloc ≠ 0)
    (hnext : ∀ n l, l2 = n :: l → n.alloc ≠ 0) :
    (coalesce s b.addr).1 = b.addr
      ∧ Wf (coalesce s b.addr).2 (l1 ++ b :: l2)
          (fun k => if k = bucket b.size then b :: Ls k else Ls k)
      ∧ Frame s (coalesce s b.addr).2
          (fun q => (q + 4 ≤ b.addr - 4 ∨ b.addr + b.size - 4 ≤ q) ∧ sepL (listed Ls) q) := by
  have hbm : b ∈ l1 ++ b :: l2 := by simp
  obtain ⟨f1, f2, f3, f4, f5, f6, f7, f8⟩ := h.heap.block_facts hbm
  obtain ⟨_, _, _, g1, g2⟩ := h.heap.blocks b hbm
  rw [hfree] at g1 g2
  obtain ⟨psz, p1, p2, p3, p5⟩ := h.heap.prev_alloc hprev
  obtain ⟨nsz, n1, n2⟩ := h.heap.next_alloc hnext
  have sh := coalesce_shape1 s b.addr b.size psz nsz h.heap.forinit p5 (by omega) g1 f4 p1 p3 p2
    n1 n2
  obtain ⟨i1, i2⟩ := coalesce_case1L s l1 l2 b Ls h hfree hall hnb
  rw [sh]
  exact ⟨rfl, i1, i2⟩

/-- `coalesce` when only the next block `n` is free. -/
theorem coalesce_B (s : State) (l1 l2 : List Blk) (b n : Blk) (Ls : Nat → List Blk)
    (h : HeapL s (l1 ++ b :: n :: l2) Ls) (hfree : b.alloc = 0) (hn : n.alloc = 0)
    (hall : ∀ c, c ∈ l1 ++ b :: n :: l2 → c.alloc = 0 → c ≠ b → listed Ls c)
    (hnb : ¬ listed Ls b)
    (hprev : ∀ l p, l1 = l ++ [p] → p.alloc ≠ 0) :
    (coalesce s b.addr).1 = b.addr
      ∧ Wf (coalesce s b.addr).2 (l1 ++ ⟨b.addr, b.size + n.size, 0⟩ :: l2)
          (fun k => if k = bucket (b.size + n.size)
            then ⟨b.addr, b.size + n.size, 0⟩ :: (Ls k).erase n else (Ls k).erase n)
      ∧ Frame s (coalesce s b.addr).2
          (fun q => (q + 4 ≤ b.addr - 4 ∨ b.addr + b.size + n.size - 4 ≤ q)
            ∧ sepL (listed Ls) q) := by
  have hbm : b ∈ l1 ++ b :: n :: l2 := by simp
  have hnm : n ∈ l1 ++ b :: n :: l2 := by simp
  obtain ⟨f1, f2, f3, f4, f5, f6, f7, f8⟩ := h.heap.block_facts hbm
  obtain ⟨k1, k2, k3, k4, k5, _, _, _⟩ := h.heap.block_facts hnm
  obtain ⟨_, _, _, g1, g2⟩ := h.heap.blocks b hbm
  obtain ⟨_, _, _, gn1, _⟩ := h.heap.blocks n hnm
  rw [hfree] at g1 g2
  rw [hn] at gn1
  obtain ⟨_, hna, _⟩ := chain_mid h.heap.chain
  obtain ⟨psz, p1, p2, p3, p5⟩ := h.heap.prev_alloc hprev
  have n1 : GET s.mem (b.addr + b.size - 4) = n.size + 0 := by rw [← hna]; exact gn1
  have sh := coalesce_shape2 s b.addr b.size psz n.size h.heap.forinit p5 (by omega) g1 f4
    (by omega) p1 p3 p2 n1 k4 (by omega)
  obtain ⟨i1, i2⟩ := coalesce_case2L s l1 l2 b n Ls h hfree hn hall hnb
  rw [sh]
  exact ⟨rfl, i1, i2⟩

/-- `coalesce` when only the previous block `p` is free. -/
theorem coalesce_C (s : State) (l1 l2 : List Blk) (p b : Blk) (Ls : Nat → List Blk)
    (h : HeapL s (l1 ++ p :: b :: l2) Ls) (hfree : b.alloc = 0) (hp : p.alloc = 0)
    (hall : ∀ c, c ∈ l1 ++ p :: b :: l2 → c.alloc = 0 → c ≠ b → listed Ls c)
    (hnb : ¬ listed Ls b)
    (hnext : ∀ n l, l2 = n :: l → n.alloc ≠ 0) :
    (coalesce s b.addr).1 = p.addr
      ∧ Wf (coalesce s b.addr).2 (l1 ++ ⟨p.addr, b.size + p.size, 0⟩ :: l2)
          (fun k => if k = bucket (b.size + p.size)
            then ⟨p.addr, b.size + p.size, 0⟩ :: (Ls k).erase p else (Ls k).erase p)
      ∧ Frame s (coalesce s b.addr).2
          (fun q => (q + 4 ≤ p.addr - 4 ∨ p.addr + p.size + b.size - 4 ≤ q)
            ∧ sepL (listed Ls) q) := by
  have hbm : b ∈ l1 ++ p :: b :: l2 := by simp
  have hpm : p ∈ l1 ++ p :: b :: l2 := by simp
  obtain ⟨f1, f2, f3, f4, f5, f6, f7, f8⟩ := h.heap.block_facts hbm
  obtain ⟨k1, k2, k3, k4, k5, _, _, _⟩ := h.heap.block_facts hpm
  obtain ⟨_, _, _, g1, g2⟩ := h.heap.blocks b hbm
  obtain ⟨_, _, _, gp1, gp2⟩ := h.heap.blocks p hpm
  rw [hfree] at g1 g2
  rw [hp] at gp1 gp2
  obtain ⟨_, hba, _⟩ := chain_mid h.heap.chain
  have e : l1 ++ p :: b :: l2 = (l1 ++ [p]) ++ b :: l2 := by simp
  have hh := h.heap
  rw [e] at hh
  obtain ⟨nsz, n1, n2⟩ := hh.next_alloc hnext
  have e2 : b.addr - p.size = p.addr := by omega
  have e3 : b.addr - 8 = p.addr + p.size - 8 := by omega
  have e4 : b.addr - p.size - 4 = p.addr - 4 := by omega
  obtain ⟨⟨i1, i2⟩, i3⟩ := coalesce_case3L s l1 l2 p b Ls h hfree hp hall hnb
  have sh := coalesce_shape3 s b.addr b.size p.size nsz h.heap.forinit (by omega) (by omega) g1 f4
    (by rw [e3]; exact gp2) k4 (by omega) (by rw [e4]; exact gp1) n1 n2 (by omega)
    (by rw [e2, e3]; exact i3)
  rw [e2] at sh
  rw [sh]
  exact ⟨rfl, i1, i2⟩

/-- `coalesce` when both the previous block `p` and the next block `n` are free. -/
theorem coalesce_D (s : State) (l1 l2 : List Blk) (p b n : Blk) (Ls : Nat → List Blk)
    (h : HeapL s (l1 ++ p :: b :: n :: l2) Ls)
    (hfree : b.alloc = 0) (hp : p.alloc = 0) (hn : n.alloc = 0)
    (hall : ∀ c, c ∈ l1 ++ p :: b :: n :: l2 → c.alloc = 0 → c ≠ b → listed Ls c)
    (hnb : ¬ listed Ls b) :
    (coalesce s b.addr).1 = p.addr
      ∧ Wf (coalesce s b.addr).2 (l1 ++ ⟨p.addr, b.size + (p.size + n.size), 0⟩ :: l2)
          (fun k => if k = bucket (b.size + (p.size + n.size))
            then ⟨p.addr, b.size + (p.size + n.size), 0⟩ :: ((Ls k).erase n).erase p
            else ((Ls k).erase n).erase p)
      ∧ Frame s (coalesce s b.addr).2
          (fun q => (q + 4 ≤ p.addr - 4 ∨ p.addr + p.size + b.size + n.size - 4 ≤ q)
            ∧ sepL (listed Ls) q) := by
  have hbm : b ∈ l1 ++ p :: b :: n :: l2 := by simp
  have hpm : p ∈ l1 ++ p :: b :: n :: l2 := by simp
  have hnm : n ∈ l1 ++ p :: b :: n :: l2 := by simp
  obtain ⟨f1, f2, f3, f4, f5, f6, f7, f8⟩ := h.heap.block_facts hbm
  obtain ⟨k1, k2, k3, k4, k5, _, _, _⟩ := h.heap.block_facts hpm
  obtain ⟨m1, m2, m3, m4, m5, _, _, _⟩ := h.heap.block_facts hnm
  obtain ⟨_, _, _, g1, g2⟩ := h.heap.blocks b hbm
  obtain ⟨_, _, _, gp1, gp2⟩ := h.heap.blocks p hpm
  obtain ⟨_, _, _, gn1, _⟩ := h.heap.blocks n hnm
  rw [hfree] at g1 g2
  rw [hp] at gp1 gp2
  rw [hn] at gn1
  obtain ⟨_, hba, hna, _⟩ := chain_mid h.heap.chain
  have e2 : b.addr - p.size = p.addr := by omega
  have e3 : b.addr - 8 = p.addr + p.size - 8 := by omega
  have e4 : b.addr - p.size - 4 = p.addr - 4 := by omega
  have n1 : GET s.mem (b.addr + b.size - 4) = n.size + 0 := by
    have : b.addr + b.size - 4 = n.addr - 4 := by omega
    rw [this]; exact gn1
  obtain ⟨⟨i1, i2⟩, i3, i4, i5⟩ :=
    coalesce_case4L s l1 l2 p b n Ls h hfree hp hn hall hnb _ _ rfl rfl
  have hna' : n.addr = b.addr + b.size := by omega
  rw [hna'] at i1 i2 i3 i4 i5
  have sh := coalesce_shape4 s b.addr b.size p.size n.size h.heap.forinit (by omega) (by omega)
    g1 f4 (by rw [e3]; exact gp2) k4 (by omega) (by rw [e4]; exact gp1) n1 m4 (by omega)
    (by rw [e3]; exact i3) (by rw [e4]; exact i4) (by rw [e2, e3]; exact i5)
  rw [e2] at sh
  rw [sh]
  exact ⟨rfl, i1, i2⟩

set_option maxRecDepth 100000

/-- C1, evaluated at a failing input.  The provider grants the 16 bytes of
`mm_init`, refuses the initial 512-byte extension (so `mm_init` returns -1 with
the first-time flag still set) and grants the next request.  `malloc(1000)`
then returns the block at 4112, and `malloc(100)` returns the same block again
although it was never released: two live pointers with the same payload. -/
theorem C1_same_block_returned_twice :
    ∃ r1 r2, malloc 8 refuseSecond (mm_init refuseSecond fresh).2 1000 = some r1
      ∧ malloc 8 refuseSecond r1.2 100 = some r2
      ∧ (mm_init refuseSecond fresh).1 = -1
      ∧ r1.1 = 4112 ∧ r2.1 = 4112 := by
  refine ⟨_, _, rfl, rfl, ?_, ?_, ?_⟩ <;> decide

/-- C2, evaluated at a failing input.  On a freshly initialised heap the
request `2^64 - 10` is adjusted to `asize = 0` (the sum `size + 15` wraps), and
`malloc` returns the non-null pointer 4112 whose block is still marked free and
has 512 - 8 bytes of payload, far fewer than requested. -/
theorem C2_overflowing_request :
    ∃ r, malloc 8 grantAll (mm_init grantAll fresh).2 (U64 - 10) = some r
      ∧ r.1 = 4112 ∧ GET_ALLOC r.2.mem (HDRP r.1) = 0
      ∧ GET_SIZE r.2.mem (HDRP r.1) = 512 ∧ adjust (U64 - 10) = 0 := by
  refine ⟨_, rfl, ?_, ?_, ?_, ?_⟩ <;> decide

/-- C3, evaluated at a failing input.  After an initialisation whose 512-byte
extension was refused, `a = malloc(1000)`, `b = malloc(2000)`, `free(b)`,
`malloc(100)` leaves the blocks 4112, 4224, 5120 in the heap, and the adjacent
blocks 4224 and 5120 are both free. -/
theorem C3_adjacent_free_blocks :
    ∃ r1 r2 r3, malloc 8 refuseSecond (mm_init refuseSecond fresh).2 1000 = some r1
      ∧ malloc 8 refuseSecond r1.2 2000 = some r2
      ∧ malloc 8 refuseSecond (free refuseSecond r2.2 r2.1) 100 = some r3
      ∧ r1.1 = 4112 ∧ r2.1 = 5120 ∧ r3.1 = 4112
      ∧ walk r3.2.mem 8 (r3.2.heap_listp + 8) = some ([4112, 4224, 5120], r3.2.brk)
      ∧ GET_ALLOC r3.2.mem (HDRP 4224) = 0
      ∧ NEXT_BLKP r3.2.mem 4224 = 5120
      ∧ GET_ALLOC r3.2.mem (HDRP 5120) = 0 := by
  refine ⟨_, _, _, rfl, rfl, rfl, ?_, ?_, ?_, ?_, ?_, ?_, ?_⟩ <;> decide

/-- C4, evaluated at a failing input.  After an initialisation whose 512-byte
extension was refused, `malloc(1000)` returns the block at 4112; that block is
allocated and of size 1008, and it is the head of bucket 5 (sizes up to 520). -/
theorem C4_allocated_block_on_free_list :
    ∃ r, malloc 8 refuseSecond (mm_init refuseSecond fresh).2 1000 = some r
      ∧ r.1 = 4112
      ∧ getlist r.2 520 = (4112, 5)
      ∧ GET_ALLOC r.2.mem (HDRP 4112) = 1
      ∧ GET_SIZE r.2.mem (HDRP 4112) = 1008 := by
  refine ⟨_, rfl, ?_, ?_, ?_, ?_⟩ <;> decide

/-- C5, evaluated at a failing input.  After an initialisation whose 512-byte
extension was refused, three `malloc(1000)` return 4112, 5120 and 6128; after
releasing the first and the third, the head of bucket 5 is the block 4112 and
its prev link is not null (it points to 6128). -/
theorem C5_head_with_prev_link :
    ∃ r1 r2 r3, malloc 8 refuseSecond (mm_init refuseSecond fresh).2 1000 = some r1
      ∧ malloc 8 refuseSecond r1.2 1000 = some r2
      ∧ malloc 8 refuseSecond r2.2 1000 = some r3
      ∧ r1.1 = 4112 ∧ r2.1 = 5120 ∧ r3.1 = 6128
      ∧ (free refuseSecond (free refuseSecond r3.2 r1.1) r3.1).free_listp_520 = 4112
      ∧ GETA (free refuseSecond (free refuseSecond r3.2 r1.1) r3.1) (4112 + WSIZE) = 6128 := by
  refine ⟨_, _, _, rfl, rfl, rfl, ?_, ?_, ?_, ?_, ?_⟩ <;> decide

/-- C6, the claim as stated fails on a freshly initialised heap: the walk from
the first block visits the single block 4112 of size 512 and stops at the end
of the region, while `region_end - base - 16` is 504. -/
theorem C6_fresh_heap_sum :
    (mm_init grantAll fresh).1 = 0
      ∧ walk (mm_init grantAll fresh).2.mem 8 ((mm_init grantAll fresh).2.heap_listp + 8)
          = some ([4112], (mm_init grantAll fresh).2.brk)
      ∧ GET_SIZE (mm_init grantAll fresh).2.mem (HDRP 4112) = 512
      ∧ (mm_init grantAll fresh).2.brk - (mm_init grantAll fresh).2.heap_listp - 16 = 504 := by
  refine ⟨?_, ?_, ?_, ?_⟩ <;> decide

/-- C7, evaluated at a failing input.  `p = malloc(8)` on a fresh heap gives
4112 with 8 payload bytes; the client stores the words 0 and 24 there.
`realloc(p, 2^64 - 10)` returns the non-null pointer 4128, and the byte at
offset 4 of the new block is 8, not the 24 that was at offset 4 of `p`. -/
theorem C7_resize_overflow :
    ∃ r1 r2, malloc 8 grantAll (mm_init grantAll fresh).2 8 = some r1
      ∧ realloc 8 grantAll ((r1.2.put r1.1 0).put (r1.1 + 4) 24) r1.1 (U64 - 10) = some r2
      ∧ r1.1 = 4112 ∧ r2.1 = 4128
      ∧ GET_SIZE r1.2.mem (HDRP r1.1) - 8 = 8
      ∧ ((r1.2.put r1.1 0).put (r1.1 + 4) 24).mem (r1.1 + 4) = 24
      ∧ r2.2.mem (r2.1 + 4) = 8 := by
  refine ⟨_, _, rfl, rfl, ?_, ?_, ?_, ?_, ?_⟩ <;> decide

/-- C9, evaluated at a failing input.  On an initialised heap whose provider
refuses further growth, `calloc(1, 1000)` returns NULL, and the `memset` that
follows the failed `malloc` has written zero bytes at the addresses 0 to 999. -/
theorem C9_memset_on_null :
    ∃ r, calloc 8 grantInitOnly (mm_init grantInitOnly dirty).2 1 1000 = some r
      ∧ r.1 = 0
      ∧ (mm_init grantInitOnly dirty).2.mem 0 = 255
      ∧ r.2.mem 0 = 0 ∧ r.2.mem 999 = 0 := by
  refine ⟨_, rfl, ?_, ?_, ?_, ?_⟩ <;> decide

/-- C10, the claim as stated fails in the uninitialised state: `malloc(0)`
returns NULL but has run `mm_init` first, so the provider was called twice and
the base pointer and bucket 5 are set. -/
theorem C10_allocate_zero_uninitialised :
    ∃ r, malloc 8 grantAll fresh 0 = some r ∧ r.1 = 0
      ∧ fresh.heap_listp = 0 ∧ fresh.calls = 0
      ∧ r.2.calls = 2 ∧ r.2.heap_listp = 4104 ∧ r.2.free_listp_520 = 4112 := by
  refine ⟨_, rfl, ?_, ?_, ?_, ?_, ?_, ?_⟩ <;> decide

/-- C10 as amended: in every state `free(NULL)` and `realloc(NULL, 0)` leave
the state (provider included) unchanged, and `malloc(0)` returns NULL; the
state after `malloc(0)` is the state before it when the base pointer is set,
and the state after `mm_init` when the base pointer is null. -/
theorem C10_spurious_inputs (fuel : Nat) (g : Nat → Bool) (s : State) :
    malloc fuel g s 0 = some (0, if s.heap_listp = 0 then (mm_init g s).2 else s)
      ∧ free g s 0 = s
      ∧ realloc fuel g s 0 0 = some (0, s) := by
  refine ⟨?_, ?_, ?_⟩
  · simp [malloc]
  · simp [free]
  · simp [realloc, free]

theorem inClass_bucket (s : Nat) (h16 : 16 ≤ s) : inClass (bucket s) s := by
  unfold bucket
  by_cases h0 : s = 16
  · simp only [if_pos h0]; exact h0
  simp only [if_neg h0]
  by_cases h1 : s ≤ 32
  · simp only [if_pos h1]; exact ⟨by omega, h1⟩
  simp only [if_neg h1]
  by_cases h2 : s ≤ 40
  · simp only [if_pos h2]; exact ⟨by omega, h2⟩
  simp only [if_neg h2]
  by_cases h3 : s ≤ 72
  · simp only [if_pos h3]; exact ⟨by omega, h3⟩
  simp only [if_neg h3]
  by_cases h4 : s ≤ 132
  · simp only [if_pos h4]; exact ⟨by omega, h4⟩
  simp only [if_neg h4]
  by_cases h5 : s ≤ 520
  · simp only [if_pos h5]; exact ⟨by omega, h5⟩
  simp only [if_neg h5]
  by_cases h6 : s ≤ 1032
  · simp only [if_pos h6]; exact ⟨by omega, h6⟩
  simp only [if_neg h6]
  by_cases h7 : s ≤ 2056
  · simp only [if_pos h7]; exact ⟨by omega, h7⟩
  simp only [if_neg h7]
  by_cases h8 : s ≤ 3080
  · simp only [if_pos h8]; exact ⟨by omega, h8⟩
  simp only [if_neg h8]
  by_cases h9 : s ≤ 5128
  · simp only [if_pos h9]; exact ⟨by omega, h9⟩
  simp only [if_neg h9]
  by_cases h10 : s ≤ 7168
  · simp only [if_pos h10]; exact ⟨by omega, h10⟩
  simp only [if_neg h10]
  show 7168 < s
  omega

theorem inClass_unique (j k s : Nat) (hj : inClass j s) (hk : inClass k s) : j = k := by
  have hj12 : j < 12 := by
    by_contra h
    obtain ⟨m, rfl⟩ : ∃ m, j = m + 12 := ⟨j - 12, by omega⟩
    exact hj
  have hk12 : k < 12 := by
    by_contra h
    obtain ⟨m, rfl⟩ : ∃ m, k = m + 12 := ⟨k - 12, by omega⟩
    exact hk
  interval_cases j <;> interval_cases k <;> simp only [inClass] at hj hk <;> omega

theorem nextlist_eq (s : State) (i : Nat) (hi : i ≤ 10) : nextlist s i = headOf s (i + 1) := by
  interval_cases i <;> rfl

theorem nextlist_default (s : State) (i : Nat) (hi : 11 ≤ i) : nextlist s i = headOf s 11 := by
  obtain ⟨m, rfl⟩ : ∃ m, i = m + 11 := ⟨i - 11, by omega⟩
  rfl

/-- C20: the three dispatch tables agree with the size-class table.  For every
block size `s` that is a multiple of 8 and at least 16, `getlist` yields the
head of bucket `k` and the index `k`, where `k` is the unique index in 0..11
whose range contains `s`; for every size and pointer, `update` sets exactly the
head of the bucket whose index `getlist` reports, leaving the other heads and
all other state unchanged; and for every index `k` in 0..10, `nextlist(k)` is
the head of bucket `k + 1`, which is the head that `getlist` yields for every
size in the range of bucket `k + 1` (for an index above 10 it is the head of
bucket 11, the `default` branch). -/
theorem C20_dispatch_tables (st : State) :
    (∀ s, s % 8 = 0 → 16 ≤ s →
      ∃ k, k < 12 ∧ getlist st s = (headOf st k, k) ∧ inClass k s
        ∧ (k = 0 ↔ s = 16) ∧ ∀ j, inClass j s → j = k)
    ∧ (∀ s p j, headOf (update st s p) j = if j = (getlist st s).2 then p else headOf st j)
    ∧ (∀ s p, (update st s p).mem = st.mem ∧ (update st s p).heap_listp = st.heap_listp
        ∧ (update st s p).brk = st.brk ∧ (update st s p).forinit = st.forinit)
    ∧ (∀ k, k ≤ 10 → nextlist st k = headOf st (k + 1))
    ∧ (∀ k s, k ≤ 10 → inClass (k + 1) s →
        getlist st s = (nextlist st k, k + 1))
    ∧ (∀ k, 11 ≤ k → nextlist st k = headOf st 11) := by
  refine ⟨?_, ?_, ?_, fun k hk => nextlist_eq st k hk, ?_, fun k hk => nextlist_default st k hk⟩
  · intro s h8 h16
    have hc := inClass_bucket s h16
    refine ⟨bucket s, bucket_lt s, getlist_eq st s, hc, ?_, fun j hj => inClass_unique _ _ _ hj hc⟩
    constructor
    · intro h0; rw [h0] at hc; exact hc
    · intro h0; subst h0; rfl
  · intro s p j
    rw [getlist_eq]
    exact headOf_update st s p j
  · intro s p
    exact ⟨update_mem _ _ _, update_heap_listp _ _ _, update_brk _ _ _, update_forinit _ _ _⟩
  · intro k s hk hc
    have h16 : 16 ≤ s := by
      interval_cases k <;> simp only [inClass] at hc <;> omega
    have hb : bucket s = k + 1 := inClass_unique _ _ _ (inClass_bucket s h16) hc
    rw [getlist_eq, hb, nextlist_eq st k hk]

/-- C20 at concrete inputs: on the empty state, size 520 is in bucket 5; on the
freshly initialised heap, whose only free block 4112 is on the list of bucket
5, `getlist(520)` yields 4112 with index 5, `nextlist(4)` yields the same head,
`nextlist(5)` yields the null head of bucket 6, and `update(520, 7)` changes
the head that `getlist(520)` reads and no other. -/
theorem C20_witness :
    (∃ k, k < 12 ∧ getlist fresh 520 = (headOf fresh k, k) ∧ inClass k 520
        ∧ (k = 0 ↔ 520 = 16) ∧ ∀ j, inClass j 520 → j = k)
    ∧ getlist (mm_init grantAll fresh).2 520 = (nextlist (mm_init grantAll fresh).2 4, 5)
    ∧ nextlist (mm_init grantAll fresh).2 4 = 4112
    ∧ nextlist (mm_init grantAll fresh).2 5 = 0
    ∧ (getlist (update (mm_init grantAll fresh).2 520 7) 520).1 = 7
    ∧ headOf (update (mm_init grantAll fresh).2 520 7) 6
        = if 6 = (getlist (mm_init grantAll fresh).2 520).2 then 7
          else headOf (mm_init grantAll fresh).2 6 :=
  ⟨(C20_dispatch_tables fresh).1 520 (by decide) (by decide),
    (C20_dispatch_tables (mm_init grantAll fresh).2).2.2.2.2.1 4 520 (by decide)
      ⟨by decide, by decide⟩,
    by decide, by decide, by decide,
    (C20_dispatch_tables (mm_init grantAll fresh).2).2.1 520 7 6⟩

/-- C15: the offset codec round-trips.  With the base at most `2^64 - 2^32`:
an offset `o < 2^32` stored at `p` decodes to null when `o = 0` and to
`base + o` otherwise, and encoding the decoded pointer gives `o` back; a
pointer `b` that is null or lies above the base and within `2^32` bytes of it
encodes to `0` resp. `b - base`, and storing it with `PUTAFREE` and reading it
with `GETA` gives `b` back. -/
theorem C15_offset_round_trip (s : State)
    (hb : s.heap_listp + 4294967296 ≤ 18446744073709551616) :
    (∀ o p, o < 4294967296 →
      CONVERTFROMOFFSET (s.put p o) p = (if o = 0 then 0 else s.heap_listp + o)
        ∧ CONVERTTOOFFSET (s.put p o) (CONVERTFROMOFFSET (s.put p o) p) = o)
    ∧ (∀ b fl, (b = 0 ∨ (s.heap_listp < b ∧ b < s.heap_listp + 4294967296)) →
      CONVERTTOOFFSET s b = (if b = 0 then 0 else b - s.heap_listp)
        ∧ GETA (PUTAFREE s fl b) fl = b) := by
  refine ⟨?_, ?_⟩
  · intro o p ho
    have hg : GET (s.put p o).mem p = o := by
      show GET (PUT s.mem p o) p = o
      rw [GET_PUT_same]; exact Nat.mod_eq_of_lt ho
    have e1 : CONVERTFROMOFFSET (s.put p o) p = if o = 0 then 0 else s.heap_listp + o := by
      have := GETA_eq (s.put p o) p hb
      rw [hg] at this
      exact this
    refine ⟨e1, ?_⟩
    rw [e1]
    have hH : (s.put p o).heap_listp = s.heap_listp := rfl
    by_cases h0 : o = 0
    · rw [if_pos h0, CTO_eq _ _ (fun h => absurd rfl h) (by rw [hH]; omega) (by omega)
        (by rw [hH]; omega), if_pos rfl, h0]
    · rw [if_neg h0, CTO_eq _ _ (fun _ => by rw [hH]; omega) (by rw [hH]; omega) (by omega)
        (by rw [hH]; omega), if_neg (by omega), hH]
      omega
  · intro b fl hbr
    have e1 : CONVERTTOOFFSET s b = if b = 0 then 0 else b - s.heap_listp :=
      CTO_eq s b (fun h => by omega) (by omega) (by omega) (by omega)
    refine ⟨e1, ?_⟩
    have hH : (PUTAFREE s fl b).heap_listp = s.heap_listp := rfl
    have hg : GET (PUTAFREE s fl b).mem fl = if b = 0 then 0 else b - s.heap_listp := by
      show GET (PUT s.mem fl (CONVERTTOOFFSET s b)) fl = _
      rw [GET_PUT_same, e1]
      apply Nat.mod_eq_of_lt
      split_ifs <;> omega
    rw [GETA_eq _ _ (by rw [hH]; exact hb), hg, hH]
    by_cases h0 : b = 0
    · simp [h0]
    · rw [if_neg h0, if_neg (by omega)]; omega

theorem C15_witness :
    (∀ o p, o < 4294967296 →
      CONVERTFROMOFFSET ((mm_init grantAll fresh).2.put p o) p
          = (if o = 0 then 0 else (mm_init grantAll fresh).2.heap_listp + o)
        ∧ CONVERTTOOFFSET ((mm_init grantAll fresh).2.put p o)
            (CONVERTFROMOFFSET ((mm_init grantAll fresh).2.put p o) p) = o)
    ∧ (∀ b fl, (b = 0 ∨ ((mm_init grantAll fresh).2.heap_listp < b
          ∧ b < (mm_init grantAll fresh).2.heap_listp + 4294967296)) →
      CONVERTTOOFFSET (mm_init grantAll fresh).2 b
          = (if b = 0 then 0 else b - (mm_init grantAll fresh).2.heap_listp)
        ∧ GETA (PUTAFREE (mm_init grantAll fresh).2 fl b) fl = b) :=
  C15_offset_round_trip (mm_init grantAll fresh).2 (by decide)

theorem GET_SIZE_PUT (m : Mem) (p v : Nat) (hv : v < 4294967296) (h8 : v % 8 = 0) :
    GET_SIZE (PUT m p v) p = v := by
  rw [GET_SIZE_eq, GET_PUT_same, Nat.mod_eq_of_lt hv]; omega

theorem coalesce_forinit (s : State) (bp : Nat) (hf : s.forinit ≠ 0) :
    coalesce s bp = (bp, PUTAFREE (PUTAFREE { s with forinit := 0, free_listp_520 := bp } bp 0)
      (padd bp WSIZE) 0) := by
  simp only [coalesce]
  rw [if_pos hf]
  rfl

theorem extend_heap_init (g : Nat → Bool) (t : State) (hf : t.forinit ≠ 0)
    (hg : g t.calls = true) (h4 : 4 ≤ t.brk) (hB : t.brk + 512 < 18446744073709551616) :
    extend_heap g t 128 = (t.brk, { t with
      mem := PUT (PUT (PUT (PUT (PUT t.mem (t.brk - 4) 512) (t.brk + 504) 512) (t.brk + 508) 1)
        t.brk 0) (t.brk + 4) 0,
      brk := t.brk + 512, calls := t.calls + 1, forinit := 0, free_listp_520 := t.brk }) := by
  have q4 : psub t.brk 4 = t.brk - 4 := psub_eq _ 4 h4 (by omega)
  have hne : t.brk ≠ 18446744073709551616 - 1 := by omega
  have c0 : ∀ st : State, CONVERTTOOFFSET st 0 = 0 := by
    intro st; simp [CONVERTTOOFFSET]
  have k2 : PACK 0 1 = 1 := by decide
  have k3 : PACK 512 0 = 512 := by decide
  have g1 : GET_SIZE (PUT t.mem (t.brk - 4) 512) (t.brk - 4) = 512 :=
    GET_SIZE_PUT _ _ _ (by omega) (by omega)
  have g2 : GET_SIZE (PUT (PUT t.mem (t.brk - 4) 512) (t.brk + 504) 512) (t.brk - 4) = 512 := by
    rw [GET_SIZE_eq, GET_PUT_other _ _ _ _ (by omega), ← GET_SIZE_eq]; exact g1
  have p1 : padd t.brk 512 = t.brk + 512 := padd_eq _ _ (by omega)
  have p2 : psub (t.brk + 512) 8 = t.brk + 504 := by
    rw [psub_eq _ 8 (by omega) (by omega)]; omega
  have p3 : psub (t.brk + 512) 4 = t.brk + 508 := by
    rw [psub_eq _ 4 (by omega) (by omega)]; omega
  have p4 : padd t.brk 4 = t.brk + 4 := padd_eq _ _ (by omega)
  have e1 : extend_heap g t 128 = coalesce
      { t with mem := PUT (PUT (PUT t.mem (t.brk - 4) 512) (t.brk + 504) 512) (t.brk + 508) 1,
               brk := t.brk + 512, calls := t.calls + 1 } t.brk := by
    simp only [extend_heap, mem_sbrk, hg, if_true, WSIZE, DSIZE, State.put, HDRP, FTRP,
      NEXT_BLKP, Nat.reduceMul, Nat.reduceMod, U64, hne, if_false, k2, k3, q4, g1, g2, p1, p2,
      p3, ne_eq, OfNat.ofNat_ne_zero, OfNat.zero_ne_ofNat, not_true_eq_false]
  rw [e1]
  refine (coalesce_forinit _ _ ?_).trans ?_
  · exact hf
  · simp only [PUTAFREE, c0, WSIZE, p4]

theorem mm_init_granted (g : Nat → Bool) (s : State) (h1 : g s.calls = true)
    (h2 : g (s.calls + 1) = true) (hB : s.brk + 528 < 18446744073709551616) :
    mm_init g s = (0, {
      mem := PUT (PUT (PUT (PUT (PUT (PUT (PUT (PUT (PUT s.mem s.brk 0) (s.brk + 4) 9)
        (s.brk + 8) 9) (s.brk + 12) 1) (s.brk + 12) 512) (s.brk + 520) 512) (s.brk + 524) 1)
        (s.brk + 16) 0) (s.brk + 20) 0,
      brk := s.brk + 528, calls := s.calls + 2, heap_listp := s.brk + 8,
      free_listp_16 := 0, free_listp_32 := 0, free_listp_40 := 0, free_listp_72 := 0,
      free_listp_132 := 0, free_listp_520 := s.brk + 16, free_listp_1032 := 0,
      free_listp_2056 := 0, free_listp_3080 := 0, free_listp_5128 := 0,
      free_listp_7168 := 0, free_listp_max := 0, forinit := 0 }) := by
  have p4 : padd s.brk 4 = s.brk + 4 := padd_eq _ _ (by omega)
  have p8 : padd s.brk 8 = s.brk + 8 := padd_eq _ _ (by omega)
  have p12 : padd s.brk 12 = s.brk + 12 := padd_eq _ _ (by omega)
  have p16 : padd (s.brk + 8) 8 = s.brk + 16 := padd_eq _ _ (by omega)
  have hne : s.brk ≠ 18446744073709551616 - 1 := by omega
  have k1 : PACK 8 1 = 9 := by decide
  have k2 : PACK 0 1 = 1 := by decide
  have e := extend_heap_init g
    { mem := PUT (PUT (PUT (PUT s.mem s.brk 0) (s.brk + 4) 9) (s.brk + 8) 9) (s.brk + 12) 1,
      brk := s.brk + 16, calls := s.calls + 1, heap_listp := s.brk + 8, free_listp_16 := 0,
      free_listp_32 := 0, free_listp_40 := 0, free_listp_72 := 0, free_listp_132 := 0,
      free_listp_520 := 0, free_listp_1032 := 0, free_listp_2056 := 0, free_listp_3080 := 0,
      free_listp_5128 := 0, free_listp_7168 := 0, free_listp_max := 0, forinit := 1 }
    (by simp) h2 (by show 4 ≤ s.brk + 16; omega) (by show s.brk + 16 + 512 < _; omega)
  simp only [mm_init, mem_sbrk, h1, if_true, WSIZE, DSIZE, CHUNKSIZE, State.put, Nat.mul_one,
    Nat.reduceMul, Nat.reduceDiv, p4, p8, p12, U64, hne, if_false, k1, k2]
  rw [e]
  have a1 : s.brk + 16 - 4 = s.brk + 12 := by omega
  have a2 : s.brk + 16 + 504 = s.brk + 520 := by omega
  have a3 : s.brk + 16 + 508 = s.brk + 524 := by omega
  have a4 : s.brk + 16 + 4 = s.brk + 20 := by omega
  have a5 : s.brk + 16 + 512 = s.brk + 528 := by omega
  have a6 : s.brk + 16 ≠ 0 := by omega
  simp only [a1, a2, a3, a4, a5, a6, if_false, p16]

theorem mm_init_refused (g : Nat → Bool) (s : State)
    (h : g s.calls = false ∨ g (s.calls + 1) = false)
    (hB : s.brk + 528 < 18446744073709551616) : (mm_init g s).1 = -1 := by
  have p4 : padd s.brk 4 = s.brk + 4 := padd_eq _ _ (by omega)
  have p8 : padd s.brk 8 = s.brk + 8 := padd_eq _ _ (by omega)
  have p12 : padd s.brk 12 = s.brk + 12 := padd_eq _ _ (by omega)
  have hne : s.brk ≠ 18446744073709551616 - 1 := by omega
  by_cases h1 : g s.calls = true
  · have h2 : g (s.calls + 1) = false := by
      rcases h with h | h
      · rw [h] at h1; exact absurd h1 (by decide)
      · exact h
    simp only [mm_init, mem_sbrk, h1, if_true, WSIZE, DSIZE, CHUNKSIZE, State.put, Nat.mul_one,
      Nat.reduceMul, Nat.reduceDiv, p4, p8, p12, U64, hne, if_false, extend_heap, h2,
      Bool.false_eq_true, Nat.reduceMod, Nat.reduceSub]
  · have h1' : g s.calls = false := by simpa using h1
    simp only [mm_init, mem_sbrk, h1', Bool.false_eq_true, if_false, U64, Nat.reduceSub, if_true]

theorem walk_one (m : Mem) (bp : Nat) (h1 : GET_SIZE m (HDRP bp) ≠ 0)
    (h2 : GET_SIZE m (HDRP (NEXT_BLKP m bp)) = 0) :
    walk m 2 bp = some ([bp], NEXT_BLKP m bp) := by
  simp [walk, h1, h2]

/-- The words of the memory that `mm_init` leaves, `B` being the old region end. -/
theorem init_reads (m : Mem) (B : Nat) :
    GET (PUT (PUT (PUT (PUT (PUT (PUT (PUT (PUT (PUT m B 0) (B + 4) 9)
        (B + 8) 9) (B + 12) 1) (B + 12) 512) (B + 520) 512) (B + 524) 1)
        (B + 16) 0) (B + 20) 0) B = 0
      ∧ GET (PUT (PUT (PUT (PUT (PUT (PUT (PUT (PUT (PUT m B 0) (B + 4) 9)
        (B + 8) 9) (B + 12) 1) (B + 12) 512) (B + 520) 512) (B + 524) 1)
        (B + 16) 0) (B + 20) 0) (B + 4) = 9
      ∧ GET (PUT (PUT (PUT (PUT (PUT (PUT (PUT (PUT (PUT m B 0) (B + 4) 9)
        (B + 8) 9) (B + 12) 1) (B + 12) 512) (B + 520) 512) (B + 524) 1)
        (B + 16) 0) (B + 20) 0) (B + 8) = 9
      ∧ GET (PUT (PUT (PUT (PUT (PUT (PUT (PUT (PUT (PUT m B 0) (B + 4) 9)
        (B + 8) 9) (B + 12) 1) (B + 12) 512) (B + 520) 512) (B + 524) 1)
        (B + 16) 0) (B + 20) 0) (B + 12) = 512
      ∧ GET (PUT (PUT (PUT (PUT (PUT (PUT (PUT (PUT (PUT m B 0) (B + 4) 9)
        (B + 8) 9) (B + 12) 1) (B + 12) 512) (B + 520) 512) (B + 524) 1)
        (B + 16) 0) (B + 20) 0) (B + 520) = 512
      ∧ GET (PUT (PUT (PUT (PUT (PUT (PUT (PUT (PUT (PUT m B 0) (B + 4) 9)
        (B + 8) 9) (B + 12) 1) (B + 12) 512) (B + 520) 512) (B + 524) 1)
        (B + 16) 0) (B + 20) 0) (B + 524) = 1
      ∧ GET (PUT (PUT (PUT (PUT (PUT (PUT (PUT (PUT (PUT m B 0) (B + 4) 9)
        (B + 8) 9) (B + 12) 1) (B + 12) 512) (B + 520) 512) (B + 524) 1)
        (B + 16) 0) (B + 20) 0) (B + 16) = 0
      ∧ GET (PUT (PUT (PUT (PUT (PUT (PUT (PUT (PUT (PUT m B 0) (B + 4) 9)
        (B + 8) 9) (B + 12) 1) (B + 12) 512) (B + 520) 512) (B + 524) 1)
        (B + 16) 0) (B + 20) 0) (B + 20) = 0 := by
  refine ⟨?_, ?_, ?_, ?_, ?_, ?_, ?_, ?_⟩
  · rw [GET_PUT_other, GET_PUT_other, GET_PUT_other, GET_PUT_other, GET_PUT_other, GET_PUT_other,
      GET_PUT_other, GET_PUT_other, GET_PUT_same] <;> omega
  · rw [GET_PUT_other, GET_PUT_other, GET_PUT_other, GET_PUT_other, GET_PUT_other, GET_PUT_other,
      GET_PUT_other, GET_PUT_same] <;> omega
  · rw [GET_PUT_other, GET_PUT_other, GET_PUT_other, GET_PUT_other, GET_PUT_other, GET_PUT_other,
      GET_PUT_same] <;> omega
  · rw [GET_PUT_other, GET_PUT_other, GET_PUT_other, GET_PUT_other, GET_PUT_same] <;> omega
  · rw [GET_PUT_other, GET_PUT_other, GET_PUT_other, GET_PUT_same] <;> omega
  · rw [GET_PUT_other, GET_PUT_other, GET_PUT_same] <;> omega
  · rw [GET_PUT_other, GET_PUT_same]; omega
  · rw [GET_PUT_same]

/-- C13: `mm_init` on a region whose end `brk` is at least 528 bytes below
`2^64`.  When the provider grants both requests, the status is 0 and the state
has: the pad word 0 at the old region end, prologue header and footer
`PACK(8, 1)`, the base pointer at the prologue payload, the region grown by
528 bytes, one block between prologue and epilogue, free, of size 512, at
`base + 8`, with header equal to footer and both links null, the epilogue
header `PACK(0, 1)` in the last four bytes of the region, the head of bucket 5
pointing at the block and all other heads null.  The size and allocated fields
read back from these words are (8, allocated) for the prologue header and
footer, (512, free) for the block's header and footer, and (0, allocated) for
the epilogue header.  When the provider refuses
either request, the status is -1. -/
theorem C13_init (g : Nat → Bool) (s : State) (hB : s.brk + 528 < 18446744073709551616) :
    ((g s.calls = true ∧ g (s.calls + 1) = true) →
      ∃ t, mm_init g s = (0, t)
        ∧ t.heap_listp = s.brk + 8 ∧ t.brk = s.brk + 528
        ∧ GET t.mem s.brk = 0
        ∧ GET t.mem (s.brk + 4) = PACK 8 1 ∧ GET t.mem (s.brk + 8) = PACK 8 1
        ∧ HDRP t.heap_listp = s.brk + 4
        ∧ GET t.mem (HDRP (t.heap_listp + 8)) = PACK 512 0
        ∧ GET t.mem (FTRP t.mem (t.heap_listp + 8)) = PACK 512 0
        ∧ GETA t (t.heap_listp + 8) = 0 ∧ GETA t (padd (t.heap_listp + 8) WSIZE) = 0
        ∧ GET t.mem (t.brk - 4) = PACK 0 1
        ∧ GET_SIZE t.mem (s.brk + 4) = 8 ∧ GET_ALLOC t.mem (s.brk + 4) = 1
        ∧ GET_SIZE t.mem (s.brk + 8) = 8 ∧ GET_ALLOC t.mem (s.brk + 8) = 1
        ∧ GET_SIZE t.mem (HDRP (t.heap_listp + 8)) = 512
        ∧ GET_ALLOC t.mem (HDRP (t.heap_listp + 8)) = 0
        ∧ GET_SIZE t.mem (FTRP t.mem (t.heap_listp + 8)) = 512
        ∧ GET_ALLOC t.mem (FTRP t.mem (t.heap_listp + 8)) = 0
        ∧ GET_SIZE t.mem (t.brk - 4) = 0 ∧ GET_ALLOC t.mem (t.brk - 4) = 1
        ∧ walk t.mem 2 (t.heap_listp + 8) = some ([t.heap_listp + 8], t.brk)
        ∧ headOf t 5 = t.heap_listp + 8 ∧ ∀ k, k ≠ 5 → headOf t k = 0)
    ∧ ((g s.calls = false ∨ g (s.calls + 1) = false) → (mm_init g s).1 = -1) := by
  refine ⟨?_, fun h => mm_init_refused g s h hB⟩
  rintro ⟨h1, h2⟩
  refine ⟨_, mm_init_granted g s h1 h2 hB, rfl, rfl, ?_⟩
  have k1 : PACK 8 1 = 9 := by decide
  have k2 : PACK 0 1 = 1 := by decide
  have k3 : PACK 512 0 = 512 := by decide
  have a1 : HDRP (s.brk + 8 + 8) = s.brk + 12 := by
    rw [HDRP_eq _ (by omega) (by omega)]; omega
  have a0 : HDRP (s.brk + 8) = s.brk + 4 := by
    rw [HDRP_eq _ (by omega) (by omega)]; omega
  have a2 : padd (s.brk + 8 + 8) WSIZE = s.brk + 20 := by
    rw [padd_eq _ 4 (by omega)]
  have a3 : s.brk + 528 - 4 = s.brk + 524 := by omega
  simp only [k1, k2, k3, a1, a2, a3]
  obtain ⟨r0, r4, r8, r12, r520, r524, r16', r20⟩ := init_reads s.mem s.brk
  have r16 : GET (PUT (PUT (PUT (PUT (PUT (PUT (PUT (PUT (PUT s.mem s.brk 0) (s.brk + 4) 9)
        (s.brk + 8) 9) (s.brk + 12) 1) (s.brk + 12) 512) (s.brk + 520) 512) (s.brk + 524) 1)
        (s.brk + 16) 0) (s.brk + 20) 0) (s.brk + 8 + 8) = 0 := by
    have e : s.brk + 8 + 8 = s.brk + 16 := by omega
    rw [e]; exact r16'
  have gs : GET_SIZE (PUT (PUT (PUT (PUT (PUT (PUT (PUT (PUT (PUT s.mem s.brk 0) (s.brk + 4) 9)
        (s.brk + 8) 9) (s.brk + 12) 1) (s.brk + 12) 512) (s.brk + 520) 512) (s.brk + 524) 1)
        (s.brk + 16) 0) (s.brk + 20) 0) (s.brk + 12) = 512 := by
    rw [GET_SIZE_eq, r12]
  have ge : GET_SIZE (PUT (PUT (PUT (PUT (PUT (PUT (PUT (PUT (PUT s.mem s.brk 0) (s.brk + 4) 9)
        (s.brk + 8) 9) (s.brk + 12) 1) (s.brk + 12) 512) (s.brk + 520) 512) (s.brk + 524) 1)
        (s.brk + 16) 0) (s.brk + 20) 0) (s.brk + 524) = 0 := by
    rw [GET_SIZE_eq, r524]
  have f1 : padd (s.brk + 8 + 8) 512 = s.brk + 528 := by rw [padd_eq _ 512 (by omega)]
  have f2 : psub (s.brk + 528) 8 = s.brk + 520 := by
    rw [psub_eq _ 8 (by omega) (by omega)]; omega
  have f3 : psub (s.brk + 8 + 8) 4 = s.brk + 12 := by
    rw [psub_eq _ 4 (by omega) (by omega)]; omega
  have f4 : HDRP (s.brk + 528) = s.brk + 524 := by
    rw [HDRP_eq _ (by omega) (by omega)]; omega
  refine ⟨r0, r4, r8, a0, r12, ?_, ?_, ?_, r524, by rw [GET_SIZE_eq, r4],
    by rw [GET_ALLOC_eq, r4], by rw [GET_SIZE_eq, r8], by rw [GET_ALLOC_eq, r8], gs,
    by rw [GET_ALLOC_eq, r12], ?_, ?_, ge, by rw [GET_ALLOC_eq, r524], ?_, rfl, ?_⟩
  · simp only [FTRP, a1, gs, f1, f2, DSIZE]
    exact r520
  · simp only [GETA, CONVERTFROMOFFSET, r16]
    rfl
  · simp only [GETA, CONVERTFROMOFFSET, r20]
    rfl
  · simp only [FTRP, a1, gs, f1, f2, DSIZE]
    rw [GET_SIZE_eq, r520]
  · simp only [FTRP, a1, gs, f1, f2, DSIZE]
    rw [GET_ALLOC_eq, r520]
  · have hn : NEXT_BLKP (PUT (PUT (PUT (PUT (PUT (PUT (PUT (PUT (PUT s.mem s.brk 0) (s.brk + 4) 9)
        (s.brk + 8) 9) (s.brk + 12) 1) (s.brk + 12) 512) (s.brk + 520) 512) (s.brk + 524) 1)
        (s.brk + 16) 0) (s.brk + 20) 0) (s.brk + 8 + 8) = s.brk + 528 := by
      simp only [NEXT_BLKP, WSIZE, f3, gs, f1]
    have := walk_one _ (s.brk + 8 + 8) (by rw [a1, gs]; decide) (by rw [hn, f4, ge])
    rw [hn] at this
    exact this
  · intro k hk
    unfold headOf
    split <;> first | rfl | exact absurd rfl hk

/-- C13 at a concrete input: the region that starts at 4096 with the provider
granting both requests, and the same region with the second request refused. -/
theorem C13_witness :
    (∃ t, mm_init grantAll fresh = (0, t)
        ∧ t.heap_listp = 4104 ∧ t.brk = 4624
        ∧ GET t.mem 4096 = 0
        ∧ GET t.mem 4100 = PACK 8 1 ∧ GET t.mem 4104 = PACK 8 1
        ∧ HDRP t.heap_listp = 4100
        ∧ GET t.mem (HDRP (t.heap_listp + 8)) = PACK 512 0
        ∧ GET t.mem (FTRP t.mem (t.heap_listp + 8)) = PACK 512 0
        ∧ GETA t (t.heap_listp + 8) = 0 ∧ GETA t (padd (t.heap_listp + 8) WSIZE) = 0
        ∧ GET t.mem (t.brk - 4) = PACK 0 1
        ∧ GET_SIZE t.mem 4100 = 8 ∧ GET_ALLOC t.mem 4100 = 1
        ∧ GET_SIZE t.mem 4104 = 8 ∧ GET_ALLOC t.mem 4104 = 1
        ∧ GET_SIZE t.mem (HDRP (t.heap_listp + 8)) = 512
        ∧ GET_ALLOC t.mem (HDRP (t.heap_listp + 8)) = 0
        ∧ GET_SIZE t.mem (FTRP t.mem (t.heap_listp + 8)) = 512
        ∧ GET_ALLOC t.mem (FTRP t.mem (t.heap_listp + 8)) = 0
        ∧ GET_SIZE t.mem (t.brk - 4) = 0 ∧ GET_ALLOC t.mem (t.brk - 4) = 1
        ∧ walk t.mem 2 (t.heap_listp + 8) = some ([t.heap_listp + 8], t.brk)
        ∧ headOf t 5 = t.heap_listp + 8 ∧ ∀ k, k ≠ 5 → headOf t k = 0)
    ∧ (mm_init refuseSecond fresh).1 = -1 :=
  ⟨(C13_init grantAll fresh (by decide)).1 ⟨rfl, rfl⟩,
   (C13_init refuseSecond fresh (by decide)).2 (Or.inr rfl)⟩

theorem nthNode_succ (s : State) (bp n : Nat) :
    nthNode s bp (n + 1) = nthNode s (GETA s bp) n := by
  induction n with
  | zero => rfl
  | succ n ih => show GETA s (nthNode s bp (n + 1)) = GETA s (nthNode s (GETA s bp) n); rw [ih]

theorem check_list_sound (s : State) (fuel : Nat) :
    ∀ bp, check_list s fuel bp = some true →
      ∀ n, (∀ m, m ≤ n → nthNode s bp m ≠ 0) → checkblock s (nthNode s bp n) = true := by
  induction fuel with
  | zero => intro bp h; simp [check_list] at h
  | succ fuel ih =>
    intro bp h n hn
    have hbp : bp ≠ 0 := hn 0 (Nat.zero_le _)
    simp only [check_list, if_neg hbp] at h
    by_cases hc : checkblock s bp = true
    · rw [if_pos hc] at h
      cases n with
      | zero => exact hc
      | succ n =>
        rw [nthNode_succ]
        refine ih _ h n (fun m hm => ?_)
        rw [← nthNode_succ]
        exact hn (m + 1) (by omega)
    · rw [if_neg hc] at h
      simp at h

theorem checkheap_loop_sound (fuel : Nat) (s : State) (n : Nat) :
    ∀ fl i, mm_checkheap_loop fuel s n false fl i = some true → i ≤ 10 → 11 ≤ i + n →
      ∀ k, i < k → k ≤ 11 → check_list s fuel (headOf s k) = some true := by
  induction n with
  | zero => intro fl i h; simp [mm_checkheap_loop] at h
  | succ n ih =>
    intro fl i h hi hn k hk hk11
    simp only [mm_checkheap_loop, Bool.false_eq_true, if_false] at h
    rw [nextlist_eq s i hi] at h
    cases hcl : check_list s fuel (headOf s (i + 1)) with
    | none => rw [hcl] at h; simp at h
    | some b =>
      rw [hcl] at h
      cases b with
      | false => simp at h
      | true =>
        simp only at h
        by_cases hki : k = i + 1
        · rw [hki]; exact hcl
        · by_cases h10 : i + 1 ≤ 10
          · rw [if_pos h10] at h
            exact ih _ _ h h10 (by omega) k (by omega) hk11
          · omega

theorem checkheap_sound (fuel : Nat) (s : State) (h : mm_checkheap fuel s = some true) :
    ∀ k, k ≤ 11 → check_list s fuel (headOf s k) = some true := by
  intro k hk
  by_cases hH : s.heap_listp = 0
  · simp only [mm_checkheap, if_pos hH, Option.some.injEq] at h
    exact absurd h (by decide)
  simp only [mm_checkheap, if_neg hH, mm_checkheap_loop, if_true] at h
  cases hcl : check_list s fuel s.free_listp_16 with
  | none => rw [hcl] at h; simp at h
  | some b =>
    rw [hcl] at h
    cases b with
    | false => simp at h
    | true =>
      simp only [Nat.zero_le, if_true] at h
      by_cases hk0 : k = 0
      · subst hk0; exact hcl
      · exact checkheap_loop_sound fuel s 11 _ 0 h (by omega) (by omega) k (by omega) hk

theorem checkblock_true (s : State) (bp : Nat) (h : checkblock s bp = true) :
    GET s.mem (HDRP bp) = GET s.mem (FTRP s.mem bp)
      ∧ (GETA s bp ≠ 0 → GETA s (padd (GETA s bp) WSIZE) = bp)
      ∧ (GETA s (padd bp WSIZE) ≠ 0 → GETA s (GETA s (padd bp WSIZE)) = bp) := by
  unfold checkblock at h
  by_cases h1 : GET s.mem (HDRP bp) ≠ GET s.mem (FTRP s.mem bp)
  · rw [if_pos h1] at h; exact absurd h (by decide)
  rw [if_neg h1] at h
  by_cases h2 : GETA s bp ≠ 0 ∧ GETA s (padd (GETA s bp) WSIZE) ≠ bp
  · rw [if_pos h2] at h; exact absurd h (by decide)
  rw [if_neg h2] at h
  by_cases h3 : GETA s (padd bp WSIZE) ≠ 0 ∧ GETA s (GETA s (padd bp WSIZE)) ≠ bp
  · rw [if_pos h3] at h; exact absurd h (by decide)
  refine ⟨not_not.mp h1, fun hn => ?_, fun hp => ?_⟩
  · by_contra hc; exact h2 ⟨hn, hc⟩
  · by_contra hc; exact h3 ⟨hp, hc⟩

/-- C14, the claim as stated fails, on two initialised heaps.  First state:
the heap reached by `mm_init` with the 512-byte extension refused, three
`malloc(1000)` and the release of the first and the third block;
`mm_checkheap` completes, and the head of bucket 5 (block 4112) has the prev
link 6128.  Second state: the freshly initialised heap with the head of bucket
0 set to 4201, an address inside the zeroed payload of the free block;
`mm_checkheap` completes, and 4201 is not a multiple of 8. -/
theorem C14_checker_misses :
    (∃ r1 r2 r3, malloc 8 refuseSecond (mm_init refuseSecond fresh).2 1000 = some r1
      ∧ malloc 8 refuseSecond r1.2 1000 = some r2
      ∧ malloc 8 refuseSecond r2.2 1000 = some r3
      ∧ mm_checkheap 8 (free refuseSecond (free refuseSecond r3.2 r1.1) r3.1) = some true
      ∧ (free refuseSecond (free refuseSecond r3.2 r1.1) r3.1).heap_listp = 4104
      ∧ headOf (free refuseSecond (free refuseSecond r3.2 r1.1) r3.1) 5 = 4112
      ∧ GETA (free refuseSecond (free refuseSecond r3.2 r1.1) r3.1) (padd 4112 WSIZE) = 6128)
    ∧ mm_checkheap 8 { (mm_init grantAll fresh).2 with free_listp_16 := 4201 } = some true
    ∧ ({ (mm_init grantAll fresh).2 with free_listp_16 := 4201 } : State).heap_listp = 4104
    ∧ bad_prologue { (mm_init grantAll fresh).2 with free_listp_16 := 4201 } = false
    ∧ headOf { (mm_init grantAll fresh).2 with free_listp_16 := 4201 } 0 = 4201
    ∧ 4201 % 8 = 1 := by
  refine ⟨⟨_, _, _, rfl, rfl, rfl, ?_, ?_, ?_, ?_⟩, ?_, ?_, ?_, ?_, ?_⟩ <;> decide

/-- C14, amended: when `mm_checkheap` completes without exiting, every block on
every bucket list has its header word equal to its footer word, and is
consistent with its list neighbours where they exist: if its next link is not
null, the prev link of the next block points back to it, and if its prev link
is not null, the next link of the previous block points to it. -/
theorem C14_checker_sound (fuel : Nat) (s : State) (h : mm_checkheap fuel s = some true)
    (k bp : Nat) (hk : k < 12) (hbp : onList s k bp) :
    GET s.mem (HDRP bp) = GET s.mem (FTRP s.mem bp)
      ∧ (GETA s bp ≠ 0 → GETA s (padd (GETA s bp) WSIZE) = bp)
      ∧ (GETA s (padd bp WSIZE) ≠ 0 → GETA s (GETA s (padd bp WSIZE)) = bp) := by
  obtain ⟨n, hn, hnz⟩ := hbp
  have h1 := checkheap_sound fuel s h k (by omega)
  have h2 := check_list_sound s fuel _ h1 n hnz
  rw [hn] at h2
  exact checkblock_true s bp h2

/-- C14 (amended) at a concrete input: six blocks of 32 bytes are allocated on
the freshly initialised heap and the first, third and fifth are released, so
the list of bucket 1 is 4240, 4176, 4112.  The check completes, and for the
middle node 4176 both its next link (4112) and its prev link (4240) are not
null and point at blocks that link back to it. -/
theorem C14_witness :
    ∃ t, mallocs 8 grantAll (mm_init grantAll fresh).2 [24, 24, 24, 24, 24, 24]
          = some ([4112, 4144, 4176, 4208, 4240, 4272], t)
      ∧ mm_checkheap 8 (frees grantAll t [4112, 4176, 4240]) = some true
      ∧ headOf (frees grantAll t [4112, 4176, 4240]) 1 = 4240
      ∧ GETA (frees grantAll t [4112, 4176, 4240]) 4240 = 4176
      ∧ GETA (frees grantAll t [4112, 4176, 4240]) 4176 = 4112
      ∧ GETA (frees grantAll t [4112, 4176, 4240]) (padd 4176 WSIZE) = 4240
      ∧ (GET (frees grantAll t [4112, 4176, 4240]).mem (HDRP 4176)
          = GET (frees grantAll t [4112, 4176, 4240]).mem
              (FTRP (frees grantAll t [4112, 4176, 4240]).mem 4176)
        ∧ (GETA (frees grantAll t [4112, 4176, 4240]) 4176 ≠ 0 →
            GETA (frees grantAll t [4112, 4176, 4240])
              (padd (GETA (frees grantAll t [4112, 4176, 4240]) 4176) WSIZE) = 4176)
        ∧ (GETA (frees grantAll t [4112, 4176, 4240]) (padd 4176 WSIZE) ≠ 0 →
            GETA (frees grantAll t [4112, 4176, 4240])
              (GETA (frees grantAll t [4112, 4176, 4240]) (padd 4176 WSIZE)) = 4176)) := by
  refine ⟨_, rfl, by decide, by decide, by decide, by decide, by decide, ?_⟩
  exact C14_checker_sound 8 _ (by decide) 1 4176 (by decide)
    ⟨1, by decide, fun m hm => by
      have : m = 0 ∨ m = 1 := by omega
      rcases this with rfl | rfl <;> decide⟩

/-- C19, evaluated at a failing input.  On a fresh heap `p = malloc(8)` is 4112,
a block of size 16 with 8 payload bytes, footer at 4120 and the next header at
4124.  `realloc(p, 100)` returns 4128; the words at offsets 8 and 12 of the new
block, zero before the call, hold 17 and 113 afterwards: the footer of `p` and
the header that follows it were read and copied, 16 bytes in all instead of 8. -/
theorem C19_resize_copies_footer :
    ∃ r q, malloc 8 grantAll (mm_init grantAll fresh).2 8 = some r
      ∧ realloc 8 grantAll r.2 r.1 100 = some q
      ∧ r.1 = 4112 ∧ GET_SIZE r.2.mem (HDRP 4112) = 16 ∧ q.1 = 4128
      ∧ GET r.2.mem (4128 + 8) = 0 ∧ GET r.2.mem (4128 + 12) = 0
      ∧ GET q.2.mem (4128 + 8) = 17 ∧ GET q.2.mem (4128 + 12) = 113 := by
  refine ⟨_, _, rfl, rfl, ?_, ?_, ?_, ?_, ?_, ?_, ?_⟩ <;> decide

/-- The heap that a granted `mm_init` leaves is well formed: one free block of
512 bytes, alone on the list of bucket 5. -/
theorem init_wf (g : Nat → Bool) (s : State) (h1 : g s.calls = true)
    (h2 : g (s.calls + 1) = true) (hal : s.brk % 8 = 0)
    (hB : s.brk + 8 + 4294967296 ≤ 18446744073709551616) :
    (mm_init g s).1 = 0
      ∧ Wf (mm_init g s).2 [⟨s.brk + 16, 512, 0⟩]
          (fun k => if k = 5 then [⟨s.brk + 16, 512, 0⟩] else [])
      ∧ (mm_init g s).2.brk = s.brk + 528 ∧ (mm_init g s).2.heap_listp = s.brk + 8
      ∧ (mm_init g s).2.calls = s.calls + 2 := by
  rw [mm_init_granted g s h1 h2 (by omega)]
  obtain ⟨r0, r4, r8, r12, r520, r524, r16, r20⟩ := init_reads s.mem s.brk
  refine ⟨rfl, ?_, rfl, rfl, rfl⟩
  have hgeo : Geo (s.brk + 8 + 8) (s.brk + 528)
      (listed (fun k => if k = 5 then [(⟨s.brk + 16, 512, 0⟩ : Blk)] else [])) := by
    have hl : ∀ c, listed (fun k => if k = 5 then [(⟨s.brk + 16, 512, 0⟩ : Blk)] else []) c →
        c = ⟨s.brk + 16, 512, 0⟩ := by
      intro c hc
      have hc' : c ∈ (if bucket c.size = 5 then [(⟨s.brk + 16, 512, 0⟩ : Blk)] else []) := hc
      by_cases hk : bucket c.size = 5
      · rw [if_pos hk] at hc'; exact List.mem_singleton.mp hc'
      · rw [if_neg hk] at hc'; simp at hc'
    constructor
    · intro c hc
      rw [hl c hc]
      simp only; omega
    · intro c d hc hd
      left; rw [hl c hc, hl d hd]
  have hlists : Lists
      { mem := PUT (PUT (PUT (PUT (PUT (PUT (PUT (PUT (PUT s.mem s.brk 0) (s.brk + 4) 9)
          (s.brk + 8) 9) (s.brk + 12) 1) (s.brk + 12) 512) (s.brk + 520) 512) (s.brk + 524) 1)
          (s.brk + 16) 0) (s.brk + 20) 0,
        brk := s.brk + 528, calls := s.calls + 2, heap_listp := s.brk + 8,
        free_listp_16 := 0, free_listp_32 := 0, free_listp_40 := 0, free_listp_72 := 0,
        free_listp_132 := 0, free_listp_520 := s.brk + 16, free_listp_1032 := 0,
        free_listp_2056 := 0, free_listp_3080 := 0, free_listp_5128 := 0,
        free_listp_7168 := 0, free_listp_max := 0, forinit := 0 }
      (fun k => if k = 5 then [(⟨s.brk + 16, 512, 0⟩ : Blk)] else []) := by
    refine ⟨fun k => ?_, fun k b hb => ?_, fun k => ?_⟩
    · by_cases hk : k = 5
      · subst hk
        refine ⟨rfl, ?_, ?_⟩
        · show GETA _ (s.brk + 16 + 4) = 0
          simp only [GETA, CONVERTFROMOFFSET, show s.brk + 16 + 4 = s.brk + 20 by omega, r20]
          rfl
        · show GETA _ (s.brk + 16) = 0
          simp only [GETA, CONVERTFROMOFFSET, r16]
          rfl
      · show SegF _ _ (headOf _ k) 0 (if k = 5 then _ else []) 0
        rw [if_neg hk]
        show headOf _ k = 0
        unfold headOf
        split <;> first | rfl | exact absurd rfl hk
    · have hb' : b ∈ (if k = 5 then [(⟨s.brk + 16, 512, 0⟩ : Blk)] else []) := hb
      by_cases hk : k = 5
      · rw [if_pos hk] at hb'
        rw [List.mem_singleton.mp hb', hk]; rfl
      · rw [if_neg hk] at hb'; simp at hb'
    · show (if k = 5 then [(⟨s.brk + 16, 512, 0⟩ : Blk)] else []).Nodup
      by_cases hk : k = 5
      · rw [if_pos hk]; exact List.nodup_singleton _
      · rw [if_neg hk]; exact List.nodup_nil
  refine ⟨⟨⟨rfl, ?_, ?_, ?_, ?_, ?_, ?_, ?_, ?_, ?_, ?_, ?_⟩, hlists⟩, ?_⟩
  · show 8 ≤ s.brk + 8; omega
  · show (s.brk + 8) % 8 = 0; omega
  · show s.brk + 8 + 4294967296 ≤ 18446744073709551616; exact hB
  · show s.brk + 528 < s.brk + 8 + 4294967296; omega
  · show GET _ (s.brk + 8 - 4) = 9
    rw [show s.brk + 8 - 4 = s.brk + 4 by omega]; exact r4
  · show GET _ (s.brk + 8) = 9; exact r8
  · show GET _ (s.brk + 528 - 4) = 1
    rw [show s.brk + 528 - 4 = s.brk + 524 by omega]; exact r524
  · show Chain (s.brk + 8 + 8) [⟨s.brk + 16, 512, 0⟩] (s.brk + 528)
    exact ⟨by show s.brk + 16 = s.brk + 8 + 8; omega, by show s.brk + 8 + 8 + 512 = s.brk + 528; omega⟩
  · intro b hb
    rw [List.mem_singleton.mp hb]
    refine ⟨by show 16 ≤ 512; omega, by show 512 % 8 = 0; omega, by show 0 ≤ 1; omega, ?_, ?_⟩
    · show GET _ (s.brk + 16 - 4) = 512 + 0
      rw [show s.brk + 16 - 4 = s.brk + 12 by omega]; exact r12
    · show GET _ (s.brk + 16 + 512 - 8) = 512 + 0
      rw [show s.brk + 16 + 512 - 8 = s.brk + 520 by omega]; exact r520
  · intro b hb
    have hb' : b ∈ (if bucket b.size = 5 then [(⟨s.brk + 16, 512, 0⟩ : Blk)] else []) := hb
    by_cases hk : bucket b.size = 5
    · rw [if_pos hk] at hb'
      rw [List.mem_singleton.mp hb']
      exact ⟨List.mem_singleton.mpr rfl, rfl⟩
    · rw [if_neg hk] at hb'; simp at hb'
  · exact hlists.linv hB hgeo
  · intro b hb hal
    rw [List.mem_singleton.mp hb]
    show (⟨s.brk + 16, 512, 0⟩ : Blk) ∈ (if bucket 512 = 5 then _ else [])
    rw [if_pos (by decide)]
    exact List.mem_singleton.mpr rfl

theorem firstFit_nil (asize : Nat) : firstFit asize [] = 0 := rfl

theorem firstFit_cons (asize : Nat) (b : Blk) (L : List Blk) :
    firstFit asize (b :: L) = if asize ≤ b.size then b.addr else firstFit asize L := by
  unfold firstFit
  by_cases h : asize ≤ b.size
  · rw [if_pos h, List.find?_cons_of_pos _ (by simpa using h)]; rfl
  · rw [if_neg h, List.find?_cons_of_neg _ (by simpa using h)]

theorem firstFit_zero (asize : Nat) (L : List Blk) (h0 : ∀ b, b ∈ L → b.addr ≠ 0) :
    firstFit asize L = 0 ↔ ∀ b, b ∈ L → b.size < asize := by
  induction L with
  | nil => simp [firstFit_nil]
  | cons b L ih =>
    rw [firstFit_cons]
    have hb := h0 b (List.mem_cons_self _ _)
    have ih' := ih (fun c hc => h0 c (List.mem_cons_of_mem _ hc))
    by_cases h : asize ≤ b.size
    · rw [if_pos h]
      constructor
      · intro he; exact absurd he hb
      · intro hall
        have := hall b (List.mem_cons_self _ _)
        omega
    · rw [if_neg h, ih']
      constructor
      · intro hall c hc
        rcases List.mem_cons.mp hc with rfl | hc
        · omega
        · exact hall c hc
      · intro hall c hc
        exact hall c (List.mem_cons_of_mem _ hc)

theorem firstFit_append (asize : Nat) (L1 L2 : List Blk) (h0 : ∀ b, b ∈ L1 → b.addr ≠ 0) :
    firstFit asize (L1 ++ L2)
      = if firstFit asize L1 ≠ 0 then firstFit asize L1 else firstFit asize L2 := by
  induction L1 with
  | nil => simp [firstFit_nil]
  | cons b L ih =>
    have hb := h0 b (List.mem_cons_self _ _)
    have ih' := ih (fun c hc => h0 c (List.mem_cons_of_mem _ hc))
    rw [List.cons_append, firstFit_cons asize b (L ++ L2), firstFit_cons asize b L]
    by_cases h : asize ≤ b.size
    · simp only [if_pos h]; rw [if_pos hb]
    · simp only [if_neg h]; exact ih'

/-- The fitting block found is a block of the list. -/
theorem firstFit_mem (asize : Nat) (L : List Blk) (h : firstFit asize L ≠ 0) :
    ∃ b, b ∈ L ∧ b.addr = firstFit asize L ∧ asize ≤ b.size := by
  induction L with
  | nil => exact absurd (firstFit_nil asize) h
  | cons b L ih =>
    rw [firstFit_cons] at h ⊢
    by_cases hb : asize ≤ b.size
    · rw [if_pos hb]; exact ⟨b, List.mem_cons_self _ _, rfl, hb⟩
    · rw [if_neg hb] at h ⊢
      obtain ⟨c, hc, hca, hcs⟩ := ih h
      exact ⟨c, List.mem_cons_of_mem _ hc, hca, hcs⟩

/-- The list walk of `find_fit` over a well-linked list. -/
theorem find_in_list_spec (s : State) (asize : Nat) :
    ∀ (L : List Blk) (a p fuel : Nat), Seg s a p L 0 →
      (∀ b, b ∈ L → GET_SIZE s.mem (HDRP b.addr) = b.size ∧ b.addr ≠ 0) →
      L.length < fuel →
      find_in_list s asize fuel a = some (firstFit asize L)
  | [], a, p, fuel, hseg, _, hf => by
    obtain ⟨f, rfl⟩ : ∃ f, fuel = f + 1 := ⟨fuel - 1, by simp at hf; omega⟩
    have ha : a = 0 := hseg
    simp [find_in_list, ha, firstFit_nil]
  | b :: L, a, p, fuel, hseg, hb, hf => by
    obtain ⟨f, rfl⟩ : ∃ f, fuel = f + 1 := ⟨fuel - 1, by simp at hf; omega⟩
    obtain ⟨h1, h2, h3⟩ := hseg
    obtain ⟨hs, h0⟩ := hb b (List.mem_cons_self _ _)
    have ha : a ≠ 0 := by rw [← h1]; exact h0
    rw [firstFit_cons]
    simp only [find_in_list, if_neg ha]
    rw [← h1, hs]
    by_cases hfit : asize ≤ b.size
    · rw [if_pos hfit, if_pos hfit]
    · rw [if_neg hfit, if_neg hfit]
      exact find_in_list_spec s asize L _ _ f h3
        (fun c hc => hb c (List.mem_cons_of_mem _ hc))
        (by simp at hf; omega)

theorem fromBuckets_succ (Ls : Nat → List Blk) (k n : Nat) :
    fromBuckets Ls k (n + 1) = Ls k ++ fromBuckets Ls (k + 1) n := rfl

/-- The bucket loop of `find_fit`, after the first bucket. -/
theorem find_fit_loop_spec (s : State) (Ls : Nat → List Blk) (asize fuel : Nat)
    (hseg : ∀ k, Seg s (headOf s k) 0 (Ls k) 0)
    (hb : ∀ k b, b ∈ Ls k → GET_SIZE s.mem (HDRP b.addr) = b.size ∧ b.addr ≠ 0)
    (hf : ∀ k, (Ls k).length < fuel) :
    ∀ (n i fl : Nat), i ≤ 10 → 11 ≤ i + n →
      find_fit_loop fuel s asize n false fl i
        = some (firstFit asize (fromBuckets Ls (i + 1) (11 - i))) := by
  intro n
  induction n with
  | zero => intro i fl hi hn; omega
  | succ n ih =>
    intro i fl hi hn
    obtain ⟨m, hm⟩ : ∃ m, 11 - i = m + 1 := ⟨10 - i, by omega⟩
    rw [hm, fromBuckets_succ, firstFit_append _ _ _ (fun b hb' => (hb _ b hb').2)]
    simp only [find_fit_loop, Bool.false_eq_true, if_false]
    rw [nextlist_eq s i hi, find_in_list_spec s asize (Ls (i + 1)) _ 0 fuel (hseg _)
      (hb _) (hf _)]
    simp only
    by_cases hr : firstFit asize (Ls (i + 1)) ≠ 0
    · rw [if_pos hr, if_pos hr]
    · rw [if_neg hr, if_neg hr]
      by_cases h10 : i + 1 ≤ 10
      · rw [if_pos h10, ih (i + 1) _ h10 (by omega)]
        have : 11 - (i + 1) = m := by omega
        rw [this]
      · rw [if_neg h10]
        have : m = 0 := by omega
        subst this
        rfl

theorem find_fit_loop_first (fuel : Nat) (s : State) (asize n fl i r : Nat)
    (hr : find_in_list s asize fuel fl = some r) :
    find_fit_loop fuel s asize (n + 1) true fl i
      = if r ≠ 0 then some r
        else if i ≤ 10 then find_fit_loop fuel s asize n false fl i
        else some 0 := by
  simp only [find_fit_loop, if_true, hr]

/-- `find_fit` on well-linked lists: first fit over the buckets from the
bucket of `asize` upwards. -/
theorem find_fit_spec (s : State) (Ls : Nat → List Blk) (asize fuel : Nat)
    (hseg : ∀ k, Seg s (headOf s k) 0 (Ls k) 0)
    (hb : ∀ k b, b ∈ Ls k → GET_SIZE s.mem (HDRP b.addr) = b.size ∧ b.addr ≠ 0)
    (hf : ∀ k, (Ls k).length < fuel) :
    find_fit fuel s asize
      = some (firstFit asize (fromBuckets Ls (bucket asize) (12 - bucket asize))) := by
  have hk := bucket_lt asize
  obtain ⟨m, hm⟩ : ∃ m, 12 - bucket asize = m + 1 := ⟨11 - bucket asize, by omega⟩
  rw [hm, fromBuckets_succ, firstFit_append _ _ _ (fun b hb' => (hb _ b hb').2)]
  simp only [find_fit, getlist_eq]
  rw [find_fit_loop_first fuel s asize 11 _ _ _
    (find_in_list_spec s asize (Ls (bucket asize)) _ 0 fuel (hseg _) (hb _) (hf _))]
  by_cases hr : firstFit asize (Ls (bucket asize)) ≠ 0
  · rw [if_pos hr, if_pos hr]
  · rw [if_neg hr, if_neg hr]
    by_cases h10 : bucket asize ≤ 10
    · rw [if_pos h10, find_fit_loop_spec s Ls asize fuel hseg hb hf 11 _ _ h10 (by omega)]
      have : 11 - bucket asize = m := by omega
      rw [this]
    · rw [if_neg h10]
      have : m = 0 := by omega
      subst this
      rfl

theorem Wf.sizes {s : State} {bs : List Blk} {Ls : Nat → List Blk} (h : Wf s bs Ls) :
    ∀ k b, b ∈ Ls k → GET_SIZE s.mem (HDRP b.addr) = b.size ∧ b.addr ≠ 0 := by
  intro k b hb
  have hl := h.1.lists.mem_listed hb
  obtain ⟨hm, hal⟩ := h.1.heap.listed b hl
  obtain ⟨f1, f2, f3, f4, f5, f6, f7, f8⟩ := h.1.heap.block_facts hm
  obtain ⟨_, _, _, g1, _⟩ := h.1.heap.blocks b hm
  rw [hal] at g1
  rw [HDRP_eq _ (by omega) (by omega)]
  exact ⟨(GET_SIZE_of _ _ _ 0 g1 f4 (by omega)).1, by omega⟩

theorem Wf.lengths {s : State} {bs : List Blk} {Ls : Nat → List Blk} (h : Wf s bs Ls) :
    ∀ k, (Ls k).length ≤ bs.length := by
  intro k
  refine (List.subperm_of_subset (h.1.lists.nd k) ?_).length_le
  intro b hb
  exact (h.1.heap.listed b (h.1.lists.mem_listed hb)).1

theorem fromBuckets_mem (Ls : Nat → List Blk) (b : Blk) :
    ∀ (n k : Nat), b ∈ fromBuckets Ls k n ↔ ∃ j, k ≤ j ∧ j < k + n ∧ b ∈ Ls j
  | 0, k => by
    constructor
    · intro h; exact absurd h (List.not_mem_nil _)
    · rintro ⟨j, h1, h2, _⟩; omega
  | n + 1, k => by
    rw [fromBuckets_succ, List.mem_append, fromBuckets_mem Ls b n (k + 1)]
    constructor
    · rintro (h | ⟨j, h1, h2, h3⟩)
      · exact ⟨k, le_refl _, by omega, h⟩
      · exact ⟨j, by omega, by omega, h3⟩
    · rintro ⟨j, h1, h2, h3⟩
      by_cases hj : j = k
      · subst hj; exact Or.inl h3
      · exact Or.inr ⟨j, by omega, by omega, h3⟩

theorem Wf.block_words {s : State} {bs : List Blk} {Ls : Nat → List Blk} (h : Wf s bs Ls)
    {b : Blk} (hb : b ∈ bs) :
    HDRP b.addr = b.addr - 4 ∧ GET_SIZE s.mem (HDRP b.addr) = b.size
      ∧ GET_ALLOC s.mem (HDRP b.addr) = b.alloc := by
  obtain ⟨f1, f2, f3, f4, f5, f6, f7, f8⟩ := h.1.heap.block_facts hb
  obtain ⟨_, _, _, g1, _⟩ := h.1.heap.blocks b hb
  have e := HDRP_eq b.addr (by omega) (by omega)
  rw [e]
  exact ⟨rfl, GET_SIZE_of _ _ _ _ g1 f4 f5⟩

/-- What `free` does to an allocated block: its header and footer are marked
free, then `coalesce` runs. -/
theorem free_shape (g : Nat → Bool) (s : State) (bs : List Blk) (Ls : Nat → List Blk)
    (h : Wf s bs Ls) {b : Blk} (hb : b ∈ bs) :
    free g s b.addr = (coalesce (setBlock s b.addr b.size 0) b.addr).2 := by
  obtain ⟨f1, f2, f3, f4, f5, f6, f7, f8⟩ := h.1.heap.block_facts hb
  obtain ⟨e1, e2, _⟩ := h.block_words hb
  have hH : s.heap_listp ≠ 0 := by omega
  have hb0 : b.addr ≠ 0 := by omega
  have e3 := put_hdr_ftr s b.addr b.size 0 (by omega) f4 (by omega) (by omega) (by omega)
    (by omega)
  simp only [free, if_neg hb0, if_neg hH, e2]
  rw [e3]

/-- The heap in the middle of `free`, after the block was marked free and
before `coalesce`. -/
theorem free_mark (s : State) (l1 l2 : List Blk) (b : Blk) (Ls : Nat → List Blk)
    (h : Wf s (l1 ++ b :: l2) Ls) (hal : b.alloc = 1) :
    HeapL (setBlock s b.addr b.size 0) (l1 ++ ⟨b.addr, b.size, 0⟩ :: l2) Ls
      ∧ (∀ c, c ∈ l1 ++ ⟨b.addr, b.size, 0⟩ :: l2 → c.alloc = 0 →
          c ≠ ⟨b.addr, b.size, 0⟩ → listed Ls c)
      ∧ ¬ listed Ls ⟨b.addr, b.size, 0⟩
      ∧ Frame s (setBlock s b.addr b.size 0)
          (fun q => (q + 4 ≤ b.addr - 4 ∨ b.addr ≤ q)
            ∧ (q + 4 ≤ b.addr + b.size - 8 ∨ b.addr + b.size - 4 ≤ q)) := by
  have hbm : b ∈ l1 ++ b :: l2 := by simp
  have hh := h.1.heap
  obtain ⟨f1, f2, f3, f4, f5, f6, f7, f8⟩ := hh.block_facts hbm
  obtain ⟨sp1, sp2⟩ := hh.sep_block hbm
  have L2 := setBlock_stepL h.1.ll b.addr b.size 0 (by omega) (by omega) sp1 sp2
  have F := setBlock_frame s b.addr b.size 0 (by omega) (by omega)
  obtain ⟨c1, c2⟩ := chain_mid hh.chain
  have hne : ∀ c, listed Ls c → c ≠ b := by
    rintro c hc rfl
    have := (hh.listed c hc).2
    omega
  refine ⟨?_, ?_, ?_, F⟩
  · refine HeapL_rebuild (x := b.addr) (y := b.addr + b.size) [b] [⟨b.addr, b.size, 0⟩] h.1 c1
      ⟨rfl, rfl⟩ c2 (F.weaken (fun q hq => ⟨by omega, by omega⟩)) ?_ ?_ L2
    · intro c hc
      rw [List.mem_singleton] at hc
      subst hc
      refine ⟨f3, f4, by simp, ?_, ?_⟩
      · exact setBlock_hdr _ _ _ _ (by omega) (by omega) (by omega)
      · exact setBlock_ftr _ _ _ _ (by omega)
    · intro c hc
      obtain ⟨hcm, hca⟩ := hh.listed c hc
      exact ⟨(mem_replace [⟨b.addr, b.size, 0⟩] hh.chain (by omega) c).mpr
        (Or.inr ⟨hcm, hne c hc⟩), hca⟩
  · intro c hc hca hcb
    have hc' : c ∈ l1 ++ ([⟨b.addr, b.size, 0⟩] ++ l2) := hc
    rcases (mem_replace [⟨b.addr, b.size, 0⟩] hh.chain (by omega) c).mp hc' with hm | ⟨hm, _⟩
    · exact absurd (List.mem_singleton.mp hm) hcb
    · exact h.2 c hm hca
  · intro hl
    obtain ⟨hm, _⟩ := hh.listed _ hl
    rcases chain_pairwise hh.chain _ hm b hbm with he | he | he
    · rw [← he] at hal; simp at hal
    · simp only at he; omega
    · simp only at he; omega

/-- The shape of `extend_heap` when the provider grants the request. -/
theorem extend_shape (g : Nat → Bool) (s : State) (words size : Nat) (hg : g s.calls = true)
    (hw : (if words % 2 ≠ 0 then ((words + 1) * WSIZE) % U64 else (words * WSIZE) % U64) = size)
    (h4 : 8 ≤ s.brk) (h8 : size % 8 = 0) (h16 : 16 ≤ size)
    (hhi : s.brk + size < 18446744073709551616) (h32 : size < 4294967296) :
    extend_heap g s words
      = coalesce ((setBlock { s with brk := s.brk + size, calls := s.calls + 1 }
          s.brk size 0).put (s.brk + size - 4) 1) s.brk := by
  have hne : s.brk ≠ 18446744073709551616 - 1 := by omega
  have e3 := put_hdr_ftr { s with brk := s.brk + size, calls := s.calls + 1 } s.brk size 0
    (by omega) h8 (by omega) (by omega) (by omega) (by omega)
  have k2 : PACK 0 1 = 1 := by decide
  have e5 : HDRP (NEXT_BLKP (setBlock { s with brk := s.brk + size, calls := s.calls + 1 }
      s.brk size 0).mem s.brk) = s.brk + size - 4 := by
    have hg1 := setBlock_hdr { s with brk := s.brk + size, calls := s.calls + 1 } s.brk size 0
      (by omega) (by omega) (by omega)
    simp only [NEXT_BLKP, WSIZE]
    rw [psub_eq _ 4 (by omega) (by omega), (GET_SIZE_of _ _ _ 0 hg1 h8 (by omega)).1,
      padd_eq _ _ (by omega), HDRP_eq _ (by omega) (by omega)]
  simp only [extend_heap, hw, mem_sbrk, hg, if_true, U64, hne, if_false]
  rw [e3, e5, k2]

/-- The heap in the middle of `extend_heap`, after the new block and the new
epilogue were written and before `coalesce`. -/
theorem extend_mark (s : State) (bs : List Blk) (Ls : Nat → List Blk) (size : Nat)
    (h : Wf s bs Ls) (h8 : size % 8 = 0) (h16 : 16 ≤ size)
    (hhi : s.brk + size < s.heap_listp + 4294967296) :
    HeapL ((setBlock { s with brk := s.brk + size, calls := s.calls + 1 }
          s.brk size 0).put (s.brk + size - 4) 1) (bs ++ [⟨s.brk, size, 0⟩]) Ls
      ∧ (∀ c, c ∈ bs ++ [⟨s.brk, size, 0⟩] → c.alloc = 0 → c ≠ ⟨s.brk, size, 0⟩ → listed Ls c)
      ∧ ¬ listed Ls ⟨s.brk, size, 0⟩ := by
  have hh := h.1.heap
  have hlo := hh.base_lo
  have hbhi := hh.base_hi
  have hbrk := (chain_bounds hh.chain).1
  have hblk : ∀ c, c ∈ bs → s.heap_listp + 8 ≤ c.addr ∧ c.addr + c.size ≤ s.brk
      ∧ 16 ≤ c.size := fun c hc => by
    obtain ⟨f1, f2, f3, _⟩ := hh.block_facts hc
    exact ⟨f1, f2, f3⟩
  -- reading the new memory
  have rd : ∀ q, q + 4 ≤ s.brk - 4 →
      GET ((setBlock { s with brk := s.brk + size, calls := s.calls + 1 }
          s.brk size 0).put (s.brk + size - 4) 1).mem q = GET s.mem q := by
    intro q hq
    show GET (PUT _ (s.brk + size - 4) 1) q = _
    rw [GET_PUT_other _ _ _ _ (by omega),
      setBlock_other _ _ _ _ _ (by omega) (by omega) (by omega) (by omega)]
  have rh : GET ((setBlock { s with brk := s.brk + size, calls := s.calls + 1 }
          s.brk size 0).put (s.brk + size - 4) 1).mem (s.brk - 4) = size := by
    show GET (PUT _ (s.brk + size - 4) 1) (s.brk - 4) = _
    rw [GET_PUT_other _ _ _ _ (by omega)]
    exact setBlock_hdr _ _ _ _ (by omega) (by omega) (by omega)
  have rf : GET ((setBlock { s with brk := s.brk + size, calls := s.calls + 1 }
          s.brk size 0).put (s.brk + size - 4) 1).mem (s.brk + size - 8) = size := by
    show GET (PUT _ (s.brk + size - 4) 1) (s.brk + size - 8) = _
    rw [GET_PUT_other _ _ _ _ (by omega)]
    exact setBlock_ftr _ _ _ _ (by omega)
  have re : GET ((setBlock { s with brk := s.brk + size, calls := s.calls + 1 }
          s.brk size 0).put (s.brk + size - 4) 1).mem (s.brk + size - 4) = 1 := by
    show GET (PUT _ (s.brk + size - 4) 1) (s.brk + size - 4) = _
    rw [GET_PUT_same]
  have hnl : ¬ listed Ls ⟨s.brk, size, 0⟩ := by
    intro hl
    have := hblk _ (hh.listed _ hl).1
    simp only at this; omega
  have hlists : Lists ((setBlock { s with brk := s.brk + size, calls := s.calls + 1 }
          s.brk size 0).put (s.brk + size - 4) 1) Ls := by
    refine Lists_frame h.1.lists rfl (fun _ => rfl) ?_
    intro d hd
    have := hblk d (hh.listed d hd).1
    exact ⟨rd _ (by omega), rd _ (by omega)⟩
  have hgeo : Geo (s.heap_listp + 8) (s.brk + size) (listed Ls) :=
    ⟨fun c hc => by
        have := hh.links.geo.1 c hc
        omega,
      hh.links.geo.2⟩
  refine ⟨⟨⟨hh.forinit, hh.base_lo, hh.base_al, hh.base_hi, hhi, ?_, ?_, ?_, ?_, ?_, ?_, ?_⟩,
    hlists⟩, ?_, hnl⟩
  · show GET _ (s.heap_listp - 4) = 9
    rw [rd _ (by omega)]; exact hh.pro_hdr
  · show GET _ s.heap_listp = 9
    rw [rd _ (by omega)]; exact hh.pro_ftr
  · exact re
  · exact chain_join hh.chain ⟨rfl, rfl⟩
  · intro c hc
    rcases List.mem_append.mp hc with hc | hc
    · have := hblk c hc
      exact BlkOK_frame (hh.blocks c hc) (rd _ (by omega)) (rd _ (by omega))
    · rw [List.mem_singleton.mp hc]
      exact ⟨h16, h8, by simp, rh, rf⟩
  · intro c hc
    obtain ⟨hm, hal⟩ := hh.listed c hc
    exact ⟨List.mem_append_left _ hm, hal⟩
  · exact hlists.linv hh.base_hi hgeo
  · intro c hc hal hne
    rcases List.mem_append.mp hc with hc | hc
    · exact h.2 c hc hal
    · exact absurd (List.mem_singleton.mp hc) hne

/-- Header and footer words of a block of a well-formed heap. -/
theorem Wf.hdr_ftr {s : State} {bs : List Blk} {Ls : Nat → List Blk} (h : Wf s bs Ls)
    {m : Blk} (hm : m ∈ bs) :
    GET s.mem (HDRP m.addr) = PACK m.size m.alloc
      ∧ GET s.mem (FTRP s.mem m.addr) = PACK m.size m.alloc := by
  obtain ⟨f1, f2, f3, f4, f5, f6, f7, f8⟩ := h.1.heap.block_facts hm
  obtain ⟨_, _, _, g1, g2⟩ := h.1.heap.blocks m hm
  obtain ⟨e1, e2, _⟩ := h.block_words hm
  have hp : PACK m.size m.alloc = m.size + m.alloc := by
    rcases Nat.le_one_iff_eq_zero_or_eq_one.mp f5 with h0 | h1
    · rw [h0, PACK_zero]; rfl
    · rw [h1, PACK_one _ (by omega)]
  have ef : FTRP s.mem m.addr = m.addr + m.size - 8 := by
    unfold FTRP
    rw [e2, padd_eq _ _ (by omega)]
    exact psub_eq _ 8 (by omega) (by omega)
  rw [ef, e1, hp]
  exact ⟨g1, g2⟩

/-- The head of a non-empty list of a well-formed heap is its first node. -/
theorem Wf.head {s : State} {bs : List Blk} {Ls : Nat → List Blk} (h : Wf s bs Ls)
    {m : Blk} {L : List Blk} (hL : Ls (bucket m.size) = m :: L) :
    (getlist s m.size).1 = m.addr := by
  have hs := h.1.lists.seg (bucket m.size)
  rw [hL] at hs
  rw [getlist_eq]
  exact hs.1.symm

/-- Header, footer and bucket head of a block that was just put at the head of
the list of its bucket. -/
theorem pushed_post {s : State} {bs : List Blk} {Lr : Nat → List Blk} {m : Blk}
    (h : Wf s bs (fun k => if k = bucket m.size then m :: Lr k else Lr k))
    (hm : m ∈ bs) (hma : m.alloc = 0) :
    GET s.mem (HDRP m.addr) = PACK m.size 0
      ∧ GET s.mem (FTRP s.mem m.addr) = PACK m.size 0
      ∧ (getlist s m.size).1 = m.addr := by
  obtain ⟨h1, h2⟩ := h.hdr_ftr hm
  rw [hma] at h1 h2
  exact ⟨h1, h2, h.head (L := Lr (bucket m.size)) (if_pos rfl)⟩

/-- An allocated block of a well-formed heap is on no list. -/
theorem Wf.alloc_unlisted {s : State} {bs : List Blk} {Ls : Nat → List Blk} (h : Wf s bs Ls)
    {m : Blk} (hm : m ∈ bs) (hma : m.alloc = 1) :
    ∀ k c, c ∈ Ls k → c.addr ≠ m.addr := by
  intro k c hc he
  obtain ⟨hcm, hca⟩ := h.1.heap.listed c (h.1.lists.mem_listed hc)
  obtain ⟨_, _, f3, _⟩ := h.1.heap.block_facts hm
  obtain ⟨_, _, g3, _⟩ := h.1.heap.block_facts hcm
  rcases chain_pairwise h.1.heap.chain c hcm m hm with e | e | e
  · rw [e] at hca; omega
  · omega
  · omega

theorem not_mem_push_erase {L : List Blk} (hnd : L.Nodup) {n m : Blk} (hne : n ≠ m)
    (c : Prop) [Decidable c] : n ∉ (if c then m :: L.erase n else L.erase n) := by
  have h1 : n ∉ L.erase n := fun hh => (hnd.mem_erase_iff.mp hh).1 rfl
  split
  · intro hh
    rcases List.mem_cons.mp hh with e | e
    · exact hne e
    · exact h1 e
  · exact h1

theorem not_mem_push_erase2 {L : List Blk} (hnd : L.Nodup) {n p m : Blk} (hn : n ≠ m)
    (hp : p ≠ m) (c : Prop) [Decidable c] :
    n ∉ (if c then m :: (L.erase n).erase p else (L.erase n).erase p)
      ∧ p ∉ (if c then m :: (L.erase n).erase p else (L.erase n).erase p) := by
  have h1 : n ∉ (L.erase n).erase p :=
    fun hh => (hnd.mem_erase_iff.mp (List.mem_of_mem_erase hh)).1 rfl
  have h2 : p ∉ (L.erase n).erase p :=
    fun hh => (((hnd.erase n).mem_erase_iff).mp hh).1 rfl
  split
  · constructor
    · intro hh
      rcases List.mem_cons.mp hh with e | e
      · exact hn e
      · exact h1 e
    · intro hh
      rcases List.mem_cons.mp hh with e | e
      · exact hp e
      · exact h2 e
  · exact ⟨h1, h2⟩

theorem prev_of_getLast {l1 : List Blk} (h : ∀ p, l1.getLast? = some p → p.alloc ≠ 0) :
    ∀ l p, l1 = l ++ [p] → p.alloc ≠ 0 := by
  intro l p e
  exact h p (by rw [e, List.getLast?_append]; rfl)

theorem next_of_head {l2 : List Blk} (h : ∀ n, l2.head? = some n → n.alloc ≠ 0) :
    ∀ n l, l2 = n :: l → n.alloc ≠ 0 := by
  intro n l e
  exact h n (by rw [e]; rfl)

/-- The first fit of a list splits it into the blocks that are too small and
the block that fits. -/
theorem firstFit_split (asize : Nat) :
    ∀ (L : List Blk), firstFit asize L ≠ 0 →
      ∃ L1 b L2, L = L1 ++ b :: L2 ∧ b.addr = firstFit asize L ∧ asize ≤ b.size
        ∧ ∀ c, c ∈ L1 → c.size < asize
  | [], h => absurd (firstFit_nil asize) h
  | b :: L, h => by
    rw [firstFit_cons] at h ⊢
    by_cases hb : asize ≤ b.size
    · rw [if_pos hb]
      exact ⟨[], b, L, rfl, rfl, hb, fun c hc => absurd hc (List.not_mem_nil _)⟩
    · rw [if_neg hb] at h ⊢
      obtain ⟨L1, c, L2, e1, e2, e3, e4⟩ := firstFit_split asize L h
      refine ⟨b :: L1, c, L2, by rw [e1]; rfl, e2, e3, ?_⟩
      intro d hd
      rcases List.mem_cons.mp hd with e | e
      · rw [e]; omega
      · exact e4 d e

/-- The first fit over consecutive buckets is the first fit of the first bucket
that has a fit. -/
theorem firstFit_buckets (asize : Nat) (Ls : Nat → List Blk)
    (h0 : ∀ k b, b ∈ Ls k → b.addr ≠ 0) :
    ∀ (n k : Nat), firstFit asize (fromBuckets Ls k n) ≠ 0 →
      ∃ j, k ≤ j ∧ j < k + n ∧ firstFit asize (Ls j) = firstFit asize (fromBuckets Ls k n)
        ∧ ∀ i c, k ≤ i → i < j → c ∈ Ls i → c.size < asize
  | 0, k, h => absurd (firstFit_nil asize) h
  | n + 1, k, h => by
    rw [fromBuckets_succ, firstFit_append _ _ _ (h0 k)] at h ⊢
    by_cases hk : firstFit asize (Ls k) ≠ 0
    · rw [if_pos hk]
      exact ⟨k, le_refl _, by omega, rfl, fun i c h1 h2 => by omega⟩
    · rw [if_neg hk] at h ⊢
      obtain ⟨j, j1, j2, j3, j4⟩ := firstFit_buckets asize Ls h0 n (k + 1) h
      refine ⟨j, by omega, by omega, j3, ?_⟩
      intro i c h1 h2 hc
      by_cases hi : i = k
      · subst hi
        exact (firstFit_zero asize (Ls i) (h0 i)).mp (not_not.mp hk) c hc
      · exact j4 i c (by omega) h2 hc

/-- C16: on a well-formed heap with block list `bs` and bucket lists `Ls`, and
with more fuel than there are blocks, `find_fit` returns. With `k0` the bucket
index that `getlist` selects for `asize`, the result is null exactly when no
block on the lists of buckets `k0..11` has at least `asize` bytes; otherwise the
result is a block of the lowest such bucket that has one, namely the first
block in list order in that bucket with at least `asize` bytes. `find_fit` only
reads the state. -/
theorem C16_find_fit (s : State) (bs : List Blk) (Ls : Nat → List Blk) (asize fuel : Nat)
    (h : Wf s bs Ls) (hf : bs.length < fuel) :
    ∃ r, find_fit fuel s asize = some r
      ∧ (r = 0 ↔ ∀ k b, (getlist s asize).2 ≤ k → k < 12 → b ∈ Ls k → b.size < asize)
      ∧ (r ≠ 0 → ∃ k L1 b L2, (getlist s asize).2 ≤ k ∧ k < 12 ∧ Ls k = L1 ++ b :: L2
          ∧ b.addr = r ∧ asize ≤ b.size ∧ (∀ c, c ∈ L1 → c.size < asize)
          ∧ ∀ j c, (getlist s asize).2 ≤ j → j < k → c ∈ Ls j → c.size < asize) := by
  have h0 : ∀ k b, b ∈ Ls k → b.addr ≠ 0 := fun k b hb => (h.sizes k b hb).2
  have hk := bucket_lt asize
  have hg : (getlist s asize).2 = bucket asize := by rw [getlist_eq]
  rw [hg]
  refine ⟨_, find_fit_spec s Ls asize fuel h.1.lists.seg h.sizes
    (fun k => Nat.lt_of_le_of_lt (h.lengths k) hf), ?_, ?_⟩
  · rw [firstFit_zero asize _ (fun b hb => by
      obtain ⟨j, _, _, hj⟩ := (fromBuckets_mem Ls b _ _).mp hb
      exact h0 j b hj)]
    constructor
    · intro hh k b h1 h2 hb
      exact hh b ((fromBuckets_mem Ls b _ _).mpr ⟨k, h1, by omega, hb⟩)
    · intro hh b hb
      obtain ⟨j, j1, j2, hj⟩ := (fromBuckets_mem Ls b _ _).mp hb
      exact hh j b j1 (by omega) hj
  · intro hr
    obtain ⟨j, j1, j2, j3, j4⟩ := firstFit_buckets asize Ls h0 _ _ hr
    obtain ⟨L1, b, L2, e1, e2, e3, e4⟩ := firstFit_split asize (Ls j) (by rw [j3]; exact hr)
    exact ⟨j, L1, b, L2, j1, by omega, e1, by rw [e2, j3], e3, e4, j4⟩

/-- C16 at a concrete input: the freshly initialised heap (one free block of
512 bytes at 4112 on the list of bucket 5) with `asize = 48`; and the sequence
`a = malloc(40); b = malloc(40); free(a); x = malloc(8)` gives `x = a`. -/
theorem C16_witness :
    (∃ r, find_fit 2 (mm_init grantAll fresh).2 48 = some r
      ∧ (r = 0 ↔ ∀ k b, (getlist (mm_init grantAll fresh).2 48).2 ≤ k → k < 12 →
          b ∈ (fun k => if k = 5 then [(⟨4112, 512, 0⟩ : Blk)] else []) k → b.size < 48)
      ∧ (r ≠ 0 → ∃ k L1 b L2, (getlist (mm_init grantAll fresh).2 48).2 ≤ k ∧ k < 12
          ∧ (fun k => if k = 5 then [(⟨4112, 512, 0⟩ : Blk)] else []) k = L1 ++ b :: L2
          ∧ b.addr = r ∧ 48 ≤ b.size ∧ (∀ c, c ∈ L1 → c.size < 48)
          ∧ ∀ j c, (getlist (mm_init grantAll fresh).2 48).2 ≤ j → j < k →
              c ∈ (fun k => if k = 5 then [(⟨4112, 512, 0⟩ : Blk)] else []) j → c.size < 48))
    ∧ (∃ a t1 b t2 x t3, malloc 8 grantAll fresh 40 = some (a, t1)
        ∧ malloc 8 grantAll t1 40 = some (b, t2)
        ∧ malloc 8 grantAll (free grantAll t2 a) 8 = some (x, t3) ∧ x = a ∧ a ≠ 0) :=
  ⟨C16_find_fit (mm_init grantAll fresh).2 [⟨4112, 512, 0⟩]
      (fun k => if k = 5 then [⟨4112, 512, 0⟩] else []) 48 2
      (init_wf grantAll fresh rfl rfl (by decide) (by decide)).2.1 (by decide),
    by refine ⟨_, _, _, _, _, _, rfl, rfl, rfl, ?_, ?_⟩ <;> decide⟩

/-- C18: on a well-formed heap whose block list is `l1 ++ b :: l2`, with `b` a
free block (hence on the list of the bucket of its size) and `asize` a multiple
of 8 with `16 ≤ asize ≤ b.size`. If `b.size - asize ≥ 16`, `place` leaves `b`
allocated with size `asize`, followed by a free block of size `b.size - asize`
at `b + asize` that is the head of the list of its bucket. If
`b.size - asize < 16`, `b` is allocated with its whole size and the block list
is otherwise unchanged. In both cases the heap is well formed again, headers
equal footers, no list holds a node at `b`, and each list keeps its other
nodes in order (`erase b` removes `b` only). -/
theorem C18_place (s : State) (l1 l2 : List Blk) (b : Blk) (Ls : Nat → List Blk)
    (asize : Nat) (h : Wf s (l1 ++ b :: l2) Ls) (hfree : b.alloc = 0)
    (ha16 : 16 ≤ asize) (ha8 : asize % 8 = 0) (hle : asize ≤ b.size) :
    (16 ≤ b.size - asize →
      Wf (place s b.addr asize)
          (l1 ++ ⟨b.addr, asize, 1⟩ :: ⟨b.addr + asize, b.size - asize, 0⟩ :: l2)
          (fun k => if k = bucket (b.size - asize)
            then ⟨b.addr + asize, b.size - asize, 0⟩ :: (Ls k).erase b else (Ls k).erase b)
        ∧ GET (place s b.addr asize).mem (HDRP b.addr) = PACK asize 1
        ∧ GET (place s b.addr asize).mem (FTRP (place s b.addr asize).mem b.addr)
            = PACK asize 1
        ∧ GET (place s b.addr asize).mem (HDRP (b.addr + asize)) = PACK (b.size - asize) 0
        ∧ GET (place s b.addr asize).mem
              (FTRP (place s b.addr asize).mem (b.addr + asize)) = PACK (b.size - asize) 0
        ∧ (getlist (place s b.addr asize) (b.size - asize)).1 = b.addr + asize
        ∧ ∀ k c, c ∈ (if k = bucket (b.size - asize)
            then ⟨b.addr + asize, b.size - asize, 0⟩ :: (Ls k).erase b else (Ls k).erase b) →
            c.addr ≠ b.addr)
    ∧ (b.size - asize < 16 →
      Wf (place s b.addr asize) (l1 ++ ⟨b.addr, b.size, 1⟩ :: l2) (fun k => (Ls k).erase b)
        ∧ GET (place s b.addr asize).mem (HDRP b.addr) = PACK b.size 1
        ∧ GET (place s b.addr asize).mem (FTRP (place s b.addr asize).mem b.addr)
            = PACK b.size 1
        ∧ ∀ k c, c ∈ (Ls k).erase b → c.addr ≠ b.addr) := by
  constructor
  · intro hbig
    have hW := (place_split_wf s l1 l2 b Ls asize h hfree ha16 ha8 hle hbig).1
    have hm1 : (⟨b.addr, asize, 1⟩ : Blk)
        ∈ l1 ++ ⟨b.addr, asize, 1⟩ :: ⟨b.addr + asize, b.size - asize, 0⟩ :: l2 := by simp
    have hm2 : (⟨b.addr + asize, b.size - asize, 0⟩ : Blk)
        ∈ l1 ++ ⟨b.addr, asize, 1⟩ :: ⟨b.addr + asize, b.size - asize, 0⟩ :: l2 := by simp
    obtain ⟨a1, a2⟩ := hW.hdr_ftr hm1
    obtain ⟨r1, r2, r3⟩ := pushed_post
      (m := (⟨b.addr + asize, b.size - asize, 0⟩ : Blk)) hW hm2 rfl
    exact ⟨hW, a1, a2, r1, r2, r3,
      hW.alloc_unlisted (m := (⟨b.addr, asize, 1⟩ : Blk)) hm1 rfl⟩
  · intro hsmall
    have hW := (place_whole_wf s l1 l2 b Ls asize h hfree hle hsmall).1
    have hm1 : (⟨b.addr, b.size, 1⟩ : Blk) ∈ l1 ++ ⟨b.addr, b.size, 1⟩ :: l2 := by simp
    obtain ⟨a1, a2⟩ := hW.hdr_ftr hm1
    exact ⟨hW, a1, a2, hW.alloc_unlisted (m := (⟨b.addr, b.size, 1⟩ : Blk)) hm1 rfl⟩

/-- C18 at a concrete input: the freshly initialised heap, its free block of 512
bytes at 4112, and `asize = 24`, which splits. -/
theorem C18_witness :
    Wf (place (mm_init grantAll fresh).2 4112 24) [⟨4112, 24, 1⟩, ⟨4136, 488, 0⟩]
        (fun k => if k = bucket 488
          then ⟨4136, 488, 0⟩ :: ((fun k => if k = 5 then [(⟨4112, 512, 0⟩ : Blk)] else []) k).erase
            ⟨4112, 512, 0⟩
          else ((fun k => if k = 5 then [(⟨4112, 512, 0⟩ : Blk)] else []) k).erase ⟨4112, 512, 0⟩)
      ∧ GET (place (mm_init grantAll fresh).2 4112 24).mem (HDRP 4112) = PACK 24 1
      ∧ (getlist (place (mm_init grantAll fresh).2 4112 24) 488).1 = 4136 :=
  have hc := (C18_place (mm_init grantAll fresh).2 [] [] ⟨4112, 512, 0⟩
    (fun k => if k = 5 then [⟨4112, 512, 0⟩] else []) 24
    (init_wf grantAll fresh rfl rfl (by decide) (by decide)).2.1 rfl (by decide) (by decide)
    (by decide)).1 (by decide)
  ⟨hc.1, hc.2.1, hc.2.2.2.2.2.1⟩

/-- C17: on a heap that is well formed with the first-time flag cleared, with
`b` a block of the block list `bs` that is marked free and on no list, and
every other free block on the list of its bucket. `coalesce` returns the
previous block if it is free and `b` otherwise. The returned block is free,
its header and footer hold the sum of the sizes of `b` and of those immediate
neighbours that were free, and it is the head of the list of the bucket of that
size. The merged neighbours are on no list, the other nodes of every list stay
in their order (`erase` removes one node only), and the heap is well formed. -/
theorem C17_coalesce (s : State) (bs : List Blk) (Ls : Nat → List Blk) (b : Blk)
    (h : HeapL s bs Ls) (hfree : b.alloc = 0)
    (hall : ∀ c, c ∈ bs → c.alloc = 0 → c ≠ b → listed Ls c) (hnb : ¬ listed Ls b) :
    (∀ l1 l2, bs = l1 ++ b :: l2 →
      (∀ p, l1.getLast? = some p → p.alloc ≠ 0) → (∀ n, l2.head? = some n → n.alloc ≠ 0) →
      (coalesce s b.addr).1 = b.addr
        ∧ Wf (coalesce s b.addr).2 bs (fun k => if k = bucket b.size then b :: Ls k else Ls k)
        ∧ GET (coalesce s b.addr).2.mem (HDRP b.addr) = PACK b.size 0
        ∧ GET (coalesce s b.addr).2.mem (FTRP (coalesce s b.addr).2.mem b.addr)
            = PACK b.size 0
        ∧ (getlist (coalesce s b.addr).2 b.size).1 = b.addr)
    ∧ (∀ l1 n l2, bs = l1 ++ b :: n :: l2 →
      (∀ p, l1.getLast? = some p → p.alloc ≠ 0) → n.alloc = 0 →
      (coalesce s b.addr).1 = b.addr
        ∧ Wf (coalesce s b.addr).2 (l1 ++ ⟨b.addr, b.size + n.size, 0⟩ :: l2)
            (fun k => if k = bucket (b.size + n.size)
              then ⟨b.addr, b.size + n.size, 0⟩ :: (Ls k).erase n else (Ls k).erase n)
        ∧ GET (coalesce s b.addr).2.mem (HDRP b.addr) = PACK (b.size + n.size) 0
        ∧ GET (coalesce s b.addr).2.mem (FTRP (coalesce s b.addr).2.mem b.addr)
            = PACK (b.size + n.size) 0
        ∧ (getlist (coalesce s b.addr).2 (b.size + n.size)).1 = b.addr
        ∧ ∀ k, n ∉ (if k = bucket (b.size + n.size)
              then ⟨b.addr, b.size + n.size, 0⟩ :: (Ls k).erase n else (Ls k).erase n))
    ∧ (∀ l1 p l2, bs = l1 ++ p :: b :: l2 →
      p.alloc = 0 → (∀ n, l2.head? = some n → n.alloc ≠ 0) →
      (coalesce s b.addr).1 = p.addr
        ∧ Wf (coalesce s b.addr).2 (l1 ++ ⟨p.addr, b.size + p.size, 0⟩ :: l2)
            (fun k => if k = bucket (b.size + p.size)
              then ⟨p.addr, b.size + p.size, 0⟩ :: (Ls k).erase p else (Ls k).erase p)
        ∧ GET (coalesce s b.addr).2.mem (HDRP p.addr) = PACK (b.size + p.size) 0
        ∧ GET (coalesce s b.addr).2.mem (FTRP (coalesce s b.addr).2.mem p.addr)
            = PACK (b.size + p.size) 0
        ∧ (getlist (coalesce s b.addr).2 (b.size + p.size)).1 = p.addr
        ∧ ∀ k, p ∉ (if k = bucket (b.size + p.size)
              then ⟨p.addr, b.size + p.size, 0⟩ :: (Ls k).erase p else (Ls k).erase p))
    ∧ (∀ l1 p n l2, bs = l1 ++ p :: b :: n :: l2 → p.alloc = 0 → n.alloc = 0 →
      (coalesce s b.addr).1 = p.addr
        ∧ Wf (coalesce s b.addr).2 (l1 ++ ⟨p.addr, b.size + (p.size + n.size), 0⟩ :: l2)
            (fun k => if k = bucket (b.size + (p.size + n.size))
              then ⟨p.addr, b.size + (p.size + n.size), 0⟩ :: ((Ls k).erase n).erase p
              else ((Ls k).erase n).erase p)
        ∧ GET (coalesce s b.addr).2.mem (HDRP p.addr) = PACK (b.size + (p.size + n.size)) 0
        ∧ GET (coalesce s b.addr).2.mem (FTRP (coalesce s b.addr).2.mem p.addr)
            = PACK (b.size + (p.size + n.size)) 0
        ∧ (getlist (coalesce s b.addr).2 (b.size + (p.size + n.size))).1 = p.addr
        ∧ ∀ k, n ∉ (if k = bucket (b.size + (p.size + n.size))
              then ⟨p.addr, b.size + (p.size + n.size), 0⟩ :: ((Ls k).erase n).erase p
              else ((Ls k).erase n).erase p)
            ∧ p ∉ (if k = bucket (b.size + (p.size + n.size))
              then ⟨p.addr, b.size + (p.size + n.size), 0⟩ :: ((Ls k).erase n).erase p
              else ((Ls k).erase n).erase p)) := by
  refine ⟨?_, ?_, ?_, ?_⟩
  · intro l1 l2 e hp hn
    subst e
    obtain ⟨r, hW, _⟩ := coalesce_A s l1 l2 b Ls h hfree hall hnb (prev_of_getLast hp)
      (next_of_head hn)
    obtain ⟨q1, q2, q3⟩ := pushed_post (m := b) hW (by simp) hfree
    exact ⟨r, hW, q1, q2, q3⟩
  · intro l1 n l2 e hp hn
    subst e
    obtain ⟨r, hW, _⟩ := coalesce_B s l1 l2 b n Ls h hfree hn hall hnb (prev_of_getLast hp)
    obtain ⟨q1, q2, q3⟩ := pushed_post (m := (⟨b.addr, b.size + n.size, 0⟩ : Blk)) hW
      (by simp) rfl
    have h16 := (h.heap.block_facts (b := b) (by simp)).2.2.1
    refine ⟨r, hW, q1, q2, q3, fun k => not_mem_push_erase (h.lists.nd k) ?_ _⟩
    intro e
    have := congrArg Blk.size e
    simp only at this
    omega
  · intro l1 p l2 e hp hn
    subst e
    obtain ⟨r, hW, _⟩ := coalesce_C s l1 l2 p b Ls h hfree hp hall hnb (next_of_head hn)
    obtain ⟨q1, q2, q3⟩ := pushed_post (m := (⟨p.addr, b.size + p.size, 0⟩ : Blk)) hW
      (by simp) rfl
    have h16 := (h.heap.block_facts (b := b) (by simp)).2.2.1
    refine ⟨r, hW, q1, q2, q3, fun k => not_mem_push_erase (h.lists.nd k) ?_ _⟩
    intro e
    have := congrArg Blk.size e
    simp only at this
    omega
  · intro l1 p n l2 e hp hn
    subst e
    obtain ⟨r, hW, _⟩ := coalesce_D s l1 l2 p b n Ls h hfree hp hn hall hnb
    obtain ⟨q1, q2, q3⟩ := pushed_post
      (m := (⟨p.addr, b.size + (p.size + n.size), 0⟩ : Blk)) hW (by simp) rfl
    have h16 := (h.heap.block_facts (b := b) (by simp)).2.2.1
    refine ⟨r, hW, q1, q2, q3, fun k => not_mem_push_erase2 (h.lists.nd k) ?_ ?_ _⟩
    · intro e
      have := congrArg Blk.size e
      simp only at this
      omega
    · intro e
      have := congrArg Blk.size e
      simp only at this
      omega

/-- C17 at a concrete input: the freshly initialised heap after `place` cut a
block of 24 bytes at 4112 off its free block and that block was marked free
again; its next neighbour (488 bytes at 4136) is free and on the list of bucket
5, and `coalesce` merges the two into the block of 512 bytes at 4112. -/
theorem C17_witness :
    (coalesce (setBlock (place (mm_init grantAll fresh).2 4112 24) 4112 24 0) 4112).1 = 4112
      ∧ GET (coalesce (setBlock (place (mm_init grantAll fresh).2 4112 24) 4112 24 0) 4112).2.mem
          (HDRP 4112) = PACK 512 0
      ∧ (getlist (coalesce (setBlock (place (mm_init grantAll fresh).2 4112 24) 4112 24 0)
          4112).2 512).1 = 4112 :=
  have hp := (place_split_wf (mm_init grantAll fresh).2 [] [] ⟨4112, 512, 0⟩
    (fun k => if k = 5 then [⟨4112, 512, 0⟩] else []) 24
    (init_wf grantAll fresh rfl rfl (by decide) (by decide)).2.1 rfl (by decide) (by decide)
    (by decide) (by decide)).1
  have hm := free_mark (place (mm_init grantAll fresh).2 4112 24) [] [⟨4136, 488, 0⟩]
    ⟨4112, 24, 1⟩ _ hp rfl
  have hc := (C17_coalesce _ [⟨4112, 24, 0⟩, ⟨4136, 488, 0⟩] _ ⟨4112, 24, 0⟩
    hm.1 rfl hm.2.1 hm.2.2.1).2.1 [] ⟨4136, 488, 0⟩ [] rfl
    (fun p hp => by cases hp) rfl
  ⟨hc.1, hc.2.2.1, hc.2.2.2.2.1⟩

theorem adjust_facts (n : Nat) (h1 : 1 ≤ n) (h15 : n + 15 < 18446744073709551616) :
    16 ≤ adjust n ∧ adjust n % 8 = 0 ∧ n + 8 ≤ adjust n ∧ adjust n ≤ n + 15 := by
  unfold adjust
  simp only [DSIZE, BSIZE, U64]
  split
  · omega
  · have e1 : (n + 8 + (8 - 1)) % 18446744073709551616 = n + 15 := by omega
    rw [e1]
    have e2 : 8 * ((n + 15) / 8) % 18446744073709551616 = 8 * ((n + 15) / 8) := by omega
    rw [e2]
    omega

theorem malloc_fit_eq (fuel : Nat) (g : Nat → Bool) (s : State) (n r : Nat)
    (hH : s.heap_listp ≠ 0) (hn : n ≠ 0) (hfit : find_fit fuel s (adjust n) = some r)
    (hr : r ≠ 0) : malloc fuel g s n = some (r, place s r (adjust n)) := by
  simp only [malloc, if_neg hH, if_neg hn, hfit, hr, ne_eq, not_false_eq_true, if_true]

theorem malloc_ext_eq (fuel : Nat) (g : Nat → Bool) (s : State) (n : Nat)
    (hH : s.heap_listp ≠ 0) (hn : n ≠ 0) (hfit : find_fit fuel s (adjust n) = some 0) :
    malloc fuel g s n
      = if (extend_heap g s (MAX (adjust n) CHUNKSIZE / WSIZE)).1 = 0
        then some (0, (extend_heap g s (MAX (adjust n) CHUNKSIZE / WSIZE)).2)
        else some ((extend_heap g s (MAX (adjust n) CHUNKSIZE / WSIZE)).1,
          place (extend_heap g s (MAX (adjust n) CHUNKSIZE / WSIZE)).2
            (extend_heap g s (MAX (adjust n) CHUNKSIZE / WSIZE)).1 (adjust n)) := by
  simp only [malloc, if_neg hH, if_neg hn, hfit, ne_eq, not_true_eq_false, if_false]

theorem live_nil : live [] = [] := rfl

theorem live_append (l1 l2 : List Blk) : live (l1 ++ l2) = live l1 ++ live l2 := by
  simp [live]

theorem live_cons_free (b : Blk) (l : List Blk) (h : b.alloc = 0) : live (b :: l) = live l := by
  simp [live, h]

theorem live_cons_alloc (b : Blk) (l : List Blk) (h : b.alloc ≠ 0) :
    live (b :: l) = b.addr :: live l := by
  simp [live, h]

theorem mem_live {bs : List Blk} {p : Nat} :
    p ∈ live bs ↔ ∃ b, b ∈ bs ∧ b.alloc ≠ 0 ∧ b.addr = p := by
  simp [live, and_assoc]

theorem NoAdj_nil : NoAdj [] := List.chain'_nil

theorem NoAdj_cons (x : Blk) (l : List Blk) :
    NoAdj (x :: l) ↔ (∀ n, l.head? = some n → ¬ (x.alloc = 0 ∧ n.alloc = 0)) ∧ NoAdj l := by
  unfold NoAdj
  rw [List.chain'_cons']
  simp only [Option.mem_def]

theorem NoAdj_mid (l1 l2 : List Blk) (x : Blk) :
    NoAdj (l1 ++ x :: l2) ↔ NoAdj l1 ∧ NoAdj l2
      ∧ (∀ p, l1.getLast? = some p → ¬ (p.alloc = 0 ∧ x.alloc = 0))
      ∧ (∀ n, l2.head? = some n → ¬ (x.alloc = 0 ∧ n.alloc = 0)) := by
  have hc := NoAdj_cons x l2
  unfold NoAdj at hc ⊢
  rw [List.chain'_append, hc]
  simp only [Option.mem_def, List.head?_cons, Option.some.injEq]
  constructor
  · rintro ⟨a1, ⟨a2, a3⟩, a4⟩
    exact ⟨a1, a3, fun p hp => a4 p hp x rfl, a2⟩
  · rintro ⟨a1, a3, a4, a2⟩
    exact ⟨a1, ⟨a2, a3⟩, fun p hp y hy => hy ▸ a4 p hp⟩

theorem getLast_concat (l : List Blk) (p : Blk) : (l ++ [p]).getLast? = some p := by
  rw [List.getLast?_append]; rfl

/-- The neighbours of a block of a list: the previous one is absent or
allocated, or it is free; likewise the next one. -/
theorem prev_cases (l1 : List Blk) :
    (∀ p, l1.getLast? = some p → p.alloc ≠ 0) ∨ ∃ l p, l1 = l ++ [p] ∧ p.alloc = 0 := by
  rcases List.eq_nil_or_concat l1 with rfl | ⟨l, p, h⟩
  · exact Or.inl (fun p hp => by cases hp)
  · rw [List.concat_eq_append] at h
    subst h
    by_cases hp : p.alloc = 0
    · exact Or.inr ⟨l, p, rfl, hp⟩
    · refine Or.inl (fun q hq => ?_)
      rw [getLast_concat] at hq
      cases hq
      exact hp

theorem next_cases (l2 : List Blk) :
    (∀ n, l2.head? = some n → n.alloc ≠ 0) ∨ ∃ n l, l2 = n :: l ∧ n.alloc = 0 := by
  cases l2 with
  | nil => exact Or.inl (fun n hn => by cases hn)
  | cons n l =>
    by_cases hn : n.alloc = 0
    · exact Or.inr ⟨n, l, rfl, hn⟩
    · refine Or.inl (fun q hq => ?_)
      cases hq
      exact hn

/-- `free` of an allocated block of a well-formed heap without adjacent free
blocks: the heap stays well formed and without adjacent free blocks, and the
block is no longer allocated. -/
theorem free_wf (g : Nat → Bool) (s : State) (l1 l2 : List Blk) (b : Blk)
    (Ls : Nat → List Blk) (hW : Wf s (l1 ++ b :: l2) Ls) (hN : NoAdj (l1 ++ b :: l2))
    (hal : b.alloc = 1) :
    ∃ bs' Ls', Wf (free g s b.addr) bs' Ls' ∧ NoAdj bs' ∧ live bs' = live l1 ++ live l2
      ∧ (free g s b.addr).heap_listp = s.heap_listp ∧ (free g s b.addr).brk = s.brk
      ∧ bs'.length ≤ (l1 ++ b :: l2).length := by
  rw [free_shape g s _ Ls hW (b := b) (by simp)]
  obtain ⟨hH, hall, hnb, hF⟩ := free_mark s l1 l2 b Ls hW hal
  obtain ⟨a1, a2, a3, a4⟩ := (NoAdj_mid l1 l2 b).mp hN
  have eH := setBlock_heap_listp s b.addr b.size 0
  have eB := setBlock_brk s b.addr b.size 0
  rcases prev_cases l1 with hp | ⟨l, p, rfl, hp⟩ <;>
    rcases next_cases l2 with hn | ⟨n, l', rfl, hn⟩
  · obtain ⟨r, hW', hF'⟩ := coalesce_A _ l1 l2 ⟨b.addr, b.size, 0⟩ Ls hH rfl hall hnb
      (prev_of_getLast hp) (next_of_head hn)
    refine ⟨_, _, hW', ?_, ?_, hF'.heap_listp.trans eH, hF'.brk.trans eB, ?_⟩
    · exact (NoAdj_mid l1 l2 _).mpr ⟨a1, a2, fun q h hh => hp q h hh.1,
        fun q h hh => hn q h hh.2⟩
    · rw [live_append, live_cons_free _ _ rfl]
    · simp
  · obtain ⟨r, hW', hF'⟩ := coalesce_B _ l1 l' ⟨b.addr, b.size, 0⟩ n Ls hH rfl hn hall hnb
      (prev_of_getLast hp)
    obtain ⟨c1, c2⟩ := (NoAdj_cons n l').mp a2
    refine ⟨_, _, hW', ?_, ?_, hF'.heap_listp.trans eH, hF'.brk.trans eB, ?_⟩
    · exact (NoAdj_mid l1 l' _).mpr ⟨a1, c2, fun q h hh => hp q h hh.1,
        fun q h hh => c1 q h ⟨hn, hh.2⟩⟩
    · rw [live_append, live_cons_free _ _ rfl, live_cons_free _ _ hn]
    · simp
  · have e : (l ++ [p]) ++ (⟨b.addr, b.size, 0⟩ : Blk) :: l2
        = l ++ p :: ⟨b.addr, b.size, 0⟩ :: l2 := by simp
    rw [e] at hH hall
    obtain ⟨r, hW', hF'⟩ := coalesce_C _ l l2 p ⟨b.addr, b.size, 0⟩ Ls hH rfl hp hall hnb
      (next_of_head hn)
    obtain ⟨d1, _, d3, _⟩ := (NoAdj_mid l [] p).mp a1
    refine ⟨_, _, hW', ?_, ?_, hF'.heap_listp.trans eH, hF'.brk.trans eB, ?_⟩
    · exact (NoAdj_mid l l2 _).mpr ⟨d1, a2, fun q h hh => d3 q h ⟨hh.1, hp⟩,
        fun q h hh => hn q h hh.2⟩
    · rw [live_append, live_cons_free _ _ rfl, live_append, live_cons_free _ _ hp, live_nil,
        List.append_nil]
    · simp
  · have e : (l ++ [p]) ++ (⟨b.addr, b.size, 0⟩ : Blk) :: n :: l'
        = l ++ p :: ⟨b.addr, b.size, 0⟩ :: n :: l' := by simp
    rw [e] at hH hall
    obtain ⟨r, hW', hF'⟩ := coalesce_D _ l l' p ⟨b.addr, b.size, 0⟩ n Ls hH rfl hp hn hall hnb
    obtain ⟨d1, _, d3, _⟩ := (NoAdj_mid l [] p).mp a1
    obtain ⟨c1, c2⟩ := (NoAdj_cons n l').mp a2
    refine ⟨_, _, hW', ?_, ?_, hF'.heap_listp.trans eH, hF'.brk.trans eB, ?_⟩
    · exact (NoAdj_mid l l' _).mpr ⟨d1, c2, fun q h hh => d3 q h ⟨hh.1, hp⟩,
        fun q h hh => c1 q h ⟨hn, hh.2⟩⟩
    · rw [live_append, live_cons_free _ _ rfl, live_append, live_cons_free _ _ hp, live_nil,
        List.append_nil, live_cons_free _ _ hn]
    · simp

/-- The provider's call counter is not part of well-formedness. -/
theorem Wf_calls {s : State} {bs : List Blk} {Ls : Nat → List Blk} (h : Wf s bs Ls) (c : Nat) :
    Wf { s with calls := c } bs Ls := by
  have hl : Lists { s with calls := c } Ls :=
    Lists_frame h.1.lists rfl (fun k => rfl)
      (fun d hd => ⟨rfl, rfl⟩)
  have hh := h.1.heap
  exact ⟨⟨⟨hh.forinit, hh.base_lo, hh.base_al, hh.base_hi, hh.brk_hi, hh.pro_hdr, hh.pro_ftr,
    hh.epi, hh.chain, hh.blocks, hh.listed, hl.linv hh.base_hi hh.links.geo⟩, hl⟩, h.2⟩

/-- `place` on a free block of a well-formed heap without adjacent free
blocks. -/
theorem place_wf (s : State) (l1 l2 : List Blk) (b : Blk) (Ls : Nat → List Blk)
    (asize : Nat) (hW : Wf s (l1 ++ b :: l2) Ls) (hN : NoAdj (l1 ++ b :: l2))
    (hfree : b.alloc = 0) (ha16 : 16 ≤ asize) (ha8 : asize % 8 = 0) (hle : asize ≤ b.size) :
    ∃ bs' Ls', Wf (place s b.addr asize) bs' Ls' ∧ NoAdj bs'
      ∧ live bs' = live l1 ++ b.addr :: live l2
      ∧ (place s b.addr asize).heap_listp = s.heap_listp
      ∧ (place s b.addr asize).brk = s.brk
      ∧ bs'.length ≤ (l1 ++ b :: l2).length + 1
      ∧ ∃ sz, asize ≤ sz ∧ (⟨b.addr, sz, 1⟩ : Blk) ∈ bs' := by
  obtain ⟨a1, a2, a3, a4⟩ := (NoAdj_mid l1 l2 b).mp hN
  by_cases hbig : 16 ≤ b.size - asize
  · obtain ⟨hW', hF⟩ := place_split_wf s l1 l2 b Ls asize hW hfree ha16 ha8 hle hbig
    refine ⟨_, _, hW', ?_, ?_, hF.heap_listp, hF.brk, ?_, ?_⟩
    · refine (NoAdj_mid l1 _ _).mpr ⟨a1, ?_, fun q h hh => ?_, fun q h hh => ?_⟩
      · exact (NoAdj_cons _ l2).mpr ⟨fun q h hh => a4 q h ⟨hfree, hh.2⟩, a2⟩
      · exact absurd hh.2 (by simp)
      · exact absurd hh.1 (by simp)
    · rw [live_append, live_cons_alloc _ _ (by simp), live_cons_free _ _ rfl]
    · simp only [List.length_append, List.length_cons]; omega
    · exact ⟨asize, le_refl _, by simp⟩
  · obtain ⟨hW', hF⟩ := place_whole_wf s l1 l2 b Ls asize hW hfree hle (by omega)
    refine ⟨_, _, hW', ?_, ?_, hF.heap_listp, hF.brk, ?_, ?_⟩
    · refine (NoAdj_mid l1 _ _).mpr ⟨a1, a2, fun q h hh => ?_, fun q h hh => ?_⟩
      · exact absurd hh.2 (by simp)
      · exact absurd hh.1 (by simp)
    · rw [live_append, live_cons_alloc _ _ (by simp)]
    · simp
    · exact ⟨b.size, hle, by simp⟩

/-- A granted `extend_heap` on a well-formed heap without adjacent free
blocks: the heap ends with one free block `m` of at least `size` bytes, which
is returned; `m` is the new block, or the new block merged with the free block
that was last. -/
theorem extend_wf (g : Nat → Bool) (s : State) (bs : List Blk) (Ls : Nat → List Blk)
    (words size : Nat) (hW : Wf s bs Ls) (hN : NoAdj bs) (hg : g s.calls = true)
    (hw : (if words % 2 ≠ 0 then ((words + 1) * WSIZE) % U64 else (words * WSIZE) % U64) = size)
    (h8 : size % 8 = 0) (h16 : 16 ≤ size)
    (hhi : s.brk + size < s.heap_listp + 4294967296) :
    ∃ l m Ls', (extend_heap g s words).1 = m.addr
      ∧ Wf (extend_heap g s words).2 (l ++ [m]) Ls' ∧ NoAdj (l ++ [m])
      ∧ m.alloc = 0 ∧ size ≤ m.size ∧ live (l ++ [m]) = live bs
      ∧ (extend_heap g s words).2.heap_listp = s.heap_listp
      ∧ (extend_heap g s words).2.brk = s.brk + size
      ∧ (l ++ [m]).length ≤ bs.length + 1
      ∧ ((m.addr = s.brk ∧ ∀ c, bs.getLast? = some c → c.alloc ≠ 0)
          ∨ ∃ c, c ∈ bs ∧ c.alloc = 0 ∧ c.addr = m.addr) := by
  have hh := hW.1.heap
  have hlo := hh.base_lo
  have hbhi := hh.base_hi
  have hbrk := (chain_bounds hh.chain).1
  rw [extend_shape g s words size hg hw (by omega) h8 h16 (by omega) (by omega)]
  obtain ⟨hH, hall, hnb⟩ := extend_mark s bs Ls size hW h8 h16 hhi
  rcases prev_cases bs with hp | ⟨l, p, rfl, hp⟩
  · obtain ⟨r, hW', hF'⟩ := coalesce_A _ bs [] ⟨s.brk, size, 0⟩ Ls hH rfl hall hnb
      (prev_of_getLast hp) (fun n l h => by cases h)
    refine ⟨bs, ⟨s.brk, size, 0⟩, _, r, hW', ?_, rfl, le_refl _, ?_, hF'.heap_listp,
      hF'.brk, by simp, Or.inl ⟨rfl, hp⟩⟩
    · exact (NoAdj_mid bs [] _).mpr ⟨hN, NoAdj_nil, fun q h hh => hp q h hh.1,
        fun q h => by cases h⟩
    · rw [live_append, live_cons_free _ _ rfl, live_nil, List.append_nil]
  · have e : (l ++ [p]) ++ [(⟨s.brk, size, 0⟩ : Blk)] = l ++ p :: ⟨s.brk, size, 0⟩ :: [] := by
      simp
    rw [e] at hH hall
    obtain ⟨r, hW', hF'⟩ := coalesce_C _ l [] p ⟨s.brk, size, 0⟩ Ls hH rfl hp hall hnb
      (fun n l h => by cases h)
    obtain ⟨d1, _, d3, _⟩ := (NoAdj_mid l [] p).mp hN
    refine ⟨l, ⟨p.addr, size + p.size, 0⟩, _, r, hW', ?_, rfl, Nat.le_add_right _ _, ?_,
      hF'.heap_listp, hF'.brk, by simp, Or.inr ⟨p, by simp, hp, rfl⟩⟩
    · exact (NoAdj_mid l [] _).mpr ⟨d1, NoAdj_nil, fun q h hh => d3 q h ⟨hh.1, hp⟩,
        fun q h => by cases h⟩
    · rw [live_append, live_cons_free _ _ rfl, live_append, live_cons_free _ _ hp]

theorem extend_refused (g : Nat → Bool) (s : State) (words : Nat) (hg : g s.calls = false) :
    extend_heap g s words = (0, { s with calls := s.calls + 1 }) := by
  simp [extend_heap, mem_sbrk, hg]

theorem inClass_mono (a b : Nat) (hab : a ≤ b) :
    ∀ ka kb, ka < 12 → kb < 12 → inClass ka a → inClass kb b → ka ≤ kb := by
  intro ka kb h1 h2 ha hb
  interval_cases ka <;> interval_cases kb <;> simp only [inClass] at ha hb <;> omega

theorem bucket_mono (a b : Nat) (ha : 16 ≤ a) (hab : a ≤ b) : bucket a ≤ bucket b :=
  inClass_mono a b hab _ _ (bucket_lt a) (bucket_lt b) (inClass_bucket a ha)
    (inClass_bucket b (by omega))

theorem MAX_facts (a : Nat) (h8 : a % 8 = 0) :
    a ≤ MAX a CHUNKSIZE ∧ 512 ≤ MAX a CHUNKSIZE ∧ MAX a CHUNKSIZE % 8 = 0
      ∧ (MAX a CHUNKSIZE = a ∨ MAX a CHUNKSIZE = 512) := by
  unfold MAX
  simp only [CHUNKSIZE]
  split <;> omega

/-- `malloc` on a well-formed heap without adjacent free blocks, for a request
that does not overflow and keeps the region shorter than `2^32` bytes. -/
theorem malloc_wf (fuel : Nat) (g : Nat → Bool) (s : State) (bs : List Blk)
    (Ls : Nat → List Blk) (n : Nat) (hW : Wf s bs Ls) (hN : NoAdj bs) (h1 : 1 ≤ n)
    (h15 : n + 15 < 18446744073709551616) (hf : bs.length < fuel)
    (hhi : (∀ c, c ∈ bs → c.alloc = 0 → c.size < adjust n) → g s.calls = true →
      s.brk + MAX (adjust n) CHUNKSIZE < s.heap_listp + 4294967296) :
    ∃ p t bs' Ls', malloc fuel g s n = some (p, t) ∧ Wf t bs' Ls' ∧ NoAdj bs'
      ∧ t.heap_listp = s.heap_listp ∧ s.brk ≤ t.brk
      ∧ t.brk ≤ s.brk + MAX (adjust n) CHUNKSIZE
      ∧ bs'.length ≤ bs.length + 2
      ∧ (p = 0 → live bs' = live bs)
      ∧ (p ≠ 0 → (live bs').Perm (p :: live bs))
      ∧ (p ≠ 0 → (∃ c, c ∈ bs ∧ c.alloc = 0 ∧ c.addr = p)
          ∨ (p = s.brk ∧ ∀ c, bs.getLast? = some c → c.alloc ≠ 0))
      ∧ (g s.calls = true → p ≠ 0)
      ∧ (p ≠ 0 → ∃ sz, adjust n ≤ sz ∧ (⟨p, sz, 1⟩ : Blk) ∈ bs') := by
  obtain ⟨ha16, ha8, _, _⟩ := adjust_facts n h1 h15
  obtain ⟨m1, m2, m3, m4⟩ := MAX_facts (adjust n) ha8
  have hh := hW.1.heap
  have hlo := hh.base_lo
  have hH0 : s.heap_listp ≠ 0 := by omega
  have hn0 : n ≠ 0 := by omega
  have h0 : ∀ k b, b ∈ Ls k → b.addr ≠ 0 := fun k b hb => (hW.sizes k b hb).2
  have hfit := find_fit_spec s Ls (adjust n) fuel hW.1.lists.seg hW.sizes
    (fun k => Nat.lt_of_le_of_lt (hW.lengths k) hf)
  by_cases hr : firstFit (adjust n) (fromBuckets Ls (bucket (adjust n)) (12 - bucket (adjust n)))
      = 0
  · have hsmall : ∀ c, c ∈ bs → c.alloc = 0 → c.size < adjust n := by
      intro c hc hcf
      by_contra hge
      have hl := hW.2 c hc hcf
      have hbk := bucket_mono (adjust n) c.size ha16 (by omega)
      have hlt := bucket_lt c.size
      exact hge ((firstFit_zero (adjust n) _ (fun b hb => by
          obtain ⟨j, _, _, hj⟩ := (fromBuckets_mem Ls b _ _).mp hb
          exact h0 j b hj)).mp hr c
        ((fromBuckets_mem Ls c _ _).mpr ⟨bucket c.size, hbk, by omega, hl⟩))
    rw [hr] at hfit
    rw [malloc_ext_eq fuel g s n hH0 hn0 hfit]
    by_cases hg : g s.calls = true
    · have hhi := hhi hsmall hg
      have hw : (if MAX (adjust n) CHUNKSIZE / WSIZE % 2 ≠ 0
          then ((MAX (adjust n) CHUNKSIZE / WSIZE + 1) * WSIZE) % U64
          else (MAX (adjust n) CHUNKSIZE / WSIZE * WSIZE) % U64) = MAX (adjust n) CHUNKSIZE := by
        simp only [WSIZE, U64]
        have e1 : ¬ (MAX (adjust n) CHUNKSIZE / 4 % 2 ≠ 0) := by omega
        rw [if_neg e1]
        omega
      obtain ⟨l, m, Ls1, e1, hW1, hN1, mf, ms, hl1, eH1, eB1, len1, loc⟩ :=
        extend_wf g s bs Ls _ _ hW hN hg hw m3 (by omega) hhi
      have hm0 : m.addr ≠ 0 := by
        have := (hW1.1.heap.block_facts (b := m) (by simp)).1
        omega
      rw [e1, if_neg hm0]
      obtain ⟨bs2, Ls2, hW2, hN2, hl2, eH2, eB2, len2, hsz⟩ :=
        place_wf _ l [] m Ls1 (adjust n) hW1 hN1 mf ha16 ha8 (by omega)
      refine ⟨_, _, bs2, Ls2, rfl, hW2, hN2, eH2.trans eH1, ?_, ?_, by omega,
        
        fun h => absurd h hm0, fun _ => ?_, fun _ => ?_, fun _ => hm0, fun _ => hsz⟩
      · rw [eB2, eB1]; omega
      · rw [eB2, eB1]
      · rw [hl2, ← hl1, live_append, live_cons_free _ _ mf, live_nil, List.append_nil]
        exact List.perm_append_comm
      · rcases loc with ⟨q1, q2⟩ | q
        · exact Or.inr ⟨q1, q2⟩
        · exact Or.inl q
    · have hg' : g s.calls = false := by simpa using hg
      rw [extend_refused g s _ hg']
      simp only [if_true]
      refine ⟨_, _, bs, Ls, rfl, Wf_calls hW _, hN, rfl, le_refl _, Nat.le_add_right _ _,
        by omega, fun _ => rfl, fun h => absurd rfl h, fun h => absurd rfl h,
        fun h => absurd h hg, fun h => absurd rfl h⟩
  · obtain ⟨b, hb, hba, hbs⟩ := firstFit_mem _ _ hr
    obtain ⟨j, _, _, hj⟩ := (fromBuckets_mem Ls b _ _).mp hb
    obtain ⟨hbm, hbf⟩ := hh.listed b (hW.1.lists.mem_listed hj)
    obtain ⟨l1, l2, rfl⟩ := List.append_of_mem hbm
    rw [← hba] at hfit hr
    rw [malloc_fit_eq fuel g s n _ hH0 hn0 hfit hr]
    obtain ⟨bs2, Ls2, hW2, hN2, hl2, eH2, eB2, len2, hsz⟩ :=
      place_wf s l1 l2 b Ls (adjust n) hW hN hbf ha16 ha8 hbs
    refine ⟨_, _, bs2, Ls2, rfl, hW2, hN2, eH2, by omega, by omega, by omega,
      fun h => absurd h hr, fun _ => ?_, fun _ => Or.inl ⟨b, hbm, hbf, rfl⟩, fun _ => hr,
      fun _ => hsz⟩
    rw [hl2, live_append, live_cons_free _ _ hbf]
    exact List.perm_middle

theorem mallocs_cons (fuel : Nat) (g : Nat → Bool) (s t u : State) (n p : Nat)
    (ns ps : List Nat) (h1 : malloc fuel g s n = some (p, t))
    (h2 : mallocs fuel g t ns = some (ps, u)) :
    mallocs fuel g s (n :: ns) = some (p :: ps, u) := by
  simp only [mallocs, h1, h2]

theorem frees_cons (g : Nat → Bool) (s : State) (p : Nat) (ps : List Nat) :
    frees g s (p :: ps) = frees g (free g s p) ps := rfl

/-- Releasing every allocated block of a well-formed heap without adjacent
free blocks, in any order, leaves no allocated block. -/
theorem frees_wf (g : Nat → Bool) :
    ∀ (order : List Nat) (s : State) (bs : List Blk) (Ls : Nat → List Blk),
      Wf s bs Ls → NoAdj bs → order.Perm (live bs) →
      ∃ bs' Ls', Wf (frees g s order) bs' Ls' ∧ NoAdj bs' ∧ live bs' = []
        ∧ (frees g s order).heap_listp = s.heap_listp ∧ (frees g s order).brk = s.brk
  | [], s, bs, Ls, hW, hN, hp => ⟨bs, Ls, hW, hN, (List.nil_perm.mp hp), rfl, rfl⟩
  | p :: rest, s, bs, Ls, hW, hN, hp => by
    have hpl : p ∈ live bs := hp.subset (List.mem_cons_self _ _)
    obtain ⟨b, hb, hba, rfl⟩ := mem_live.mp hpl
    have hal : b.alloc = 1 := by
      have := (hW.1.heap.block_facts hb).2.2.2.2.1
      omega
    obtain ⟨l1, l2, rfl⟩ := List.append_of_mem hb
    obtain ⟨bs1, Ls1, hW1, hN1, hl1, eH1, eB1, _⟩ := free_wf g s l1 l2 b Ls hW hN hal
    rw [live_append, live_cons_alloc _ _ hba] at hp
    have hp' : rest.Perm (live bs1) := by
      rw [hl1]
      exact (hp.trans List.perm_middle).cons_inv
    obtain ⟨bs2, Ls2, hW2, hN2, hl2, eH2, eB2⟩ := frees_wf g rest _ bs1 Ls1 hW1 hN1 hp'
    rw [frees_cons]
    exact ⟨bs2, Ls2, hW2, hN2, hl2, eH2.trans eH1, eB2.trans eB1⟩

/-- A well-formed heap without adjacent free blocks and without allocated
blocks is one free block, which is alone on the list of its bucket. -/
theorem single_of_empty {s : State} {bs : List Blk} {Ls : Nat → List Blk} (hW : Wf s bs Ls)
    (hN : NoAdj bs) (hl : live bs = []) (hne : s.heap_listp + 8 < s.brk) :
    bs = [⟨s.heap_listp + 8, s.brk - s.heap_listp - 8, 0⟩]
      ∧ Ls = fun k => if k = bucket (s.brk - s.heap_listp - 8)
          then [⟨s.heap_listp + 8, s.brk - s.heap_listp - 8, 0⟩] else [] := by
  have hfree : ∀ b, b ∈ bs → b.alloc = 0 := by
    intro b hb
    by_contra hne
    have : b.addr ∈ live bs := mem_live.mpr ⟨b, hb, hne, rfl⟩
    rw [hl] at this
    exact absurd this (List.not_mem_nil _)
  have hch := hW.1.heap.chain
  have hbs : bs = [⟨s.heap_listp + 8, s.brk - s.heap_listp - 8, 0⟩] := by
    cases bs with
    | nil =>
      have : s.heap_listp + 8 = s.brk := hch
      omega
    | cons x l =>
      cases l with
      | nil =>
        obtain ⟨c1, c2⟩ := hch
        have c3 : s.heap_listp + 8 + x.size = s.brk := c2
        have hx := hfree x (List.mem_cons_self _ _)
        rw [← blk_eta x hx]
        congr 2
        · omega
      | cons y l' =>
        have := ((NoAdj_cons x (y :: l')).mp hN).1 y rfl
        exact absurd ⟨hfree x (by simp), hfree y (by simp)⟩ this
  refine ⟨hbs, ?_⟩
  subst hbs
  have hx : listed Ls ⟨s.heap_listp + 8, s.brk - s.heap_listp - 8, 0⟩ :=
    hW.2 _ (List.mem_singleton_self _) rfl
  have hsub : ∀ k c, c ∈ Ls k → c = ⟨s.heap_listp + 8, s.brk - s.heap_listp - 8, 0⟩ :=
    fun k c hc => List.mem_singleton.mp
      (hW.1.heap.listed c (hW.1.lists.mem_listed hc)).1
  funext k
  by_cases hk : k = bucket (s.brk - s.heap_listp - 8)
  · rw [if_pos hk]
    subst hk
    have hnd := hW.1.lists.nd (bucket (s.brk - s.heap_listp - 8))
    have hs := hsub (bucket (s.brk - s.heap_listp - 8))
    have hx' : (⟨s.heap_listp + 8, s.brk - s.heap_listp - 8, 0⟩ : Blk)
        ∈ Ls (bucket (s.brk - s.heap_listp - 8)) := hx
    revert hnd hs hx'
    generalize Ls (bucket (s.brk - s.heap_listp - 8)) = L
    intro hnd hs hx'
    cases L with
    | nil => exact absurd hx' (List.not_mem_nil _)
    | cons c L' =>
      have hc := hs c (List.mem_cons_self _ _)
      subst hc
      cases L' with
      | nil => rfl
      | cons d L'' =>
        have hd := hs d (by simp)
        subst hd
        simp at hnd
  · rw [if_neg hk]
    cases hL : Ls k with
    | nil => rfl
    | cons c L' =>
      have hc : c ∈ Ls k := by rw [hL]; exact List.mem_cons_self _ _
      have e := hsub k c hc
      have hbk := hW.1.lists.bkt k c hc
      rw [e] at hbk
      exact absurd hbk.symm hk

/-- The observable facts of a heap that is one free block `x`: the heap walk
visits `x` only and ends at the region end, header and footer of `x` agree, `x`
is the head of the list of its bucket with both links null, and every other
list is empty. -/
theorem single_facts {s : State} {x : Blk}
    (hW : Wf s [x] (fun k => if k = bucket x.size then [x] else [])) (hx : x.alloc = 0) :
    walk s.mem 2 x.addr = some ([x.addr], s.brk)
      ∧ GET s.mem (HDRP x.addr) = PACK x.size 0
      ∧ GET s.mem (FTRP s.mem x.addr) = PACK x.size 0
      ∧ GET_ALLOC s.mem (HDRP x.addr) = 0
      ∧ headOf s (bucket x.size) = x.addr
      ∧ (∀ k, k ≠ bucket x.size → headOf s k = 0)
      ∧ GETA s x.addr = 0 ∧ GETA s (padd x.addr WSIZE) = 0 := by
  have hm : x ∈ [x] := List.mem_singleton_self _
  have hh := hW.1.heap
  obtain ⟨f1, f2, f3, f4, f5, f6, f7, f8⟩ := hh.block_facts hm
  obtain ⟨e1, e2, e3⟩ := hW.block_words hm
  obtain ⟨g1, g2⟩ := hW.hdr_ftr hm
  rw [hx] at g1 g2 e3
  obtain ⟨c1, c2⟩ := hh.chain
  have c3 : s.heap_listp + 8 + x.size = s.brk := c2
  have hnext : NEXT_BLKP s.mem x.addr = s.brk := by
    unfold NEXT_BLKP
    have : psub x.addr WSIZE = HDRP x.addr := rfl
    rw [this, e2, padd_eq _ _ (by omega)]
    omega
  have hepi : GET_SIZE s.mem (HDRP s.brk) = 0 := by
    rw [HDRP_eq _ (by omega) (by omega), GET_SIZE_eq, hh.epi]
  have hseg := hW.1.lists.seg (bucket x.size)
  simp only [if_true] at hseg
  obtain ⟨s1, s2, s3⟩ := hseg
  have s4 : GETA s x.addr = 0 := s3
  refine ⟨?_, g1, g2, e3, s1.symm, ?_, s4, ?_⟩
  · have := walk_one s.mem x.addr (by rw [e2]; omega) (by rw [hnext]; exact hepi)
    rw [hnext] at this
    exact this
  · intro k hk
    have hk' := hW.1.lists.seg k
    simp only [if_neg hk] at hk'
    exact hk'
  · show GETA s (padd x.addr 4) = 0
    rw [padd_eq _ 4 (by omega)]
    exact s2

theorem PUTAFREE_brk (s : State) (p v : Nat) : (PUTAFREE s p v).brk = s.brk := rfl

theorem PUTAFREE_heap_listp (s : State) (p v : Nat) :
    (PUTAFREE s p v).heap_listp = s.heap_listp := rfl

theorem removefromlist_brk (s : State) (nx pv sz : Nat) :
    (removefromlist s nx pv sz).brk = s.brk := by
  unfold removefromlist
  simp only [update_brk]
  split <;> split <;> rfl

theorem removefromlist_heap_listp (s : State) (nx pv sz : Nat) :
    (removefromlist s nx pv sz).heap_listp = s.heap_listp := by
  unfold removefromlist
  simp only [update_heap_listp]
  split <;> split <;> rfl

theorem addtolist_brk (s : State) (bp : Nat) : (addtolist s bp).brk = s.brk := by
  unfold addtolist
  simp only [update_brk]
  split <;> rfl

theorem addtolist_heap_listp (s : State) (bp : Nat) :
    (addtolist s bp).heap_listp = s.heap_listp := by
  unfold addtolist
  simp only [update_heap_listp]
  split <;> rfl

/-- `place` never moves the region end or the base pointer. -/
theorem place_frame (s : State) (bp asize : Nat) :
    (place s bp asize).brk = s.brk ∧ (place s bp asize).heap_listp = s.heap_listp := by
  by_cases h : (GET_SIZE s.mem (HDRP bp) + U64 - asize % U64) % U64 ≥ BSIZE
  · simp only [place, if_pos h, addtolist_brk, addtolist_heap_listp, put_brk, put_heap_listp,
      removefromlist_brk, removefromlist_heap_listp, and_self]
  · simp only [place, if_neg h, put_brk, put_heap_listp, removefromlist_brk,
      removefromlist_heap_listp, and_self]

/-- `coalesce` never moves the region end or the base pointer. -/
theorem coalesce_frame (s : State) (bp : Nat) :
    (coalesce s bp).2.brk = s.brk ∧ (coalesce s bp).2.heap_listp = s.heap_listp := by
  by_cases h0 : s.forinit ≠ 0
  · simp only [coalesce, if_pos h0]
    exact ⟨rfl, rfl⟩
  by_cases h1 : GET_ALLOC s.mem (HDRP (PREV_BLKP s.mem bp)) ≠ 0
      ∧ GET_ALLOC s.mem (HDRP (NEXT_BLKP s.mem bp)) ≠ 0
  · simp only [coalesce, if_neg h0, if_pos h1, addtolist_brk, addtolist_heap_listp, and_self]
  by_cases h2 : GET_ALLOC s.mem (HDRP (PREV_BLKP s.mem bp)) ≠ 0
      ∧ ¬ GET_ALLOC s.mem (HDRP (NEXT_BLKP s.mem bp)) ≠ 0
  · simp only [coalesce, if_neg h0, if_neg h1, if_pos h2, addtolist_brk, addtolist_heap_listp,
      put_brk, put_heap_listp, removefromlist_brk, removefromlist_heap_listp, and_self]
  by_cases h3 : ¬ GET_ALLOC s.mem (HDRP (PREV_BLKP s.mem bp)) ≠ 0
      ∧ GET_ALLOC s.mem (HDRP (NEXT_BLKP s.mem bp)) ≠ 0
  · simp only [coalesce, if_neg h0, if_neg h1, if_neg h2, if_pos h3, addtolist_brk,
      addtolist_heap_listp, put_brk, put_heap_listp, removefromlist_brk,
      removefromlist_heap_listp, and_self]
  · simp only [coalesce, if_neg h0, if_neg h1, if_neg h2, if_neg h3, addtolist_brk,
      addtolist_heap_listp, put_brk, put_heap_listp, removefromlist_brk,
      removefromlist_heap_listp, and_self]

/-- `extend_heap` never moves the base pointer or lowers the region end; when
the provider grants, the region grows by the requested size. -/
theorem extend_heap_frame (g : Nat → Bool) (s : State) (words : Nat) :
    (extend_heap g s words).2.heap_listp = s.heap_listp
      ∧ s.brk ≤ (extend_heap g s words).2.brk
      ∧ (g s.calls = true →
          (extend_heap g s words).2.brk = s.brk
            + (if words % 2 ≠ 0 then ((words + 1) * WSIZE) % U64 else (words * WSIZE) % U64)) := by
  by_cases hg : g s.calls = true
  · by_cases hb : s.brk = 18446744073709551616 - 1
    · have e : extend_heap g s words = (0, { s with
          brk := s.brk + (if words % 2 ≠ 0 then ((words + 1) * WSIZE) % U64
            else (words * WSIZE) % U64), calls := s.calls + 1 }) := by
        simp only [extend_heap, mem_sbrk, hg, if_true, U64, hb]
      rw [e]
      exact ⟨rfl, Nat.le_add_right _ _, fun _ => rfl⟩
    · simp only [extend_heap, mem_sbrk, hg, if_true, U64, hb, if_false]
      refine ⟨(coalesce_frame _ _).2, ?_, fun _ => (coalesce_frame _ _).1⟩
      rw [(coalesce_frame _ _).1]
      exact Nat.le_add_right _ _
  · have hg' : g s.calls = false := by simpa using hg
    rw [extend_refused g s words hg']
    exact ⟨rfl, le_refl _, fun h => absurd h hg⟩

/-- `malloc` on an initialised heap never moves the base pointer or lowers the
region end. -/
theorem malloc_frame (fuel : Nat) (g : Nat → Bool) (s : State) (n p : Nat) (t : State)
    (hH : s.heap_listp ≠ 0) (h : malloc fuel g s n = some (p, t)) :
    t.heap_listp = s.heap_listp ∧ s.brk ≤ t.brk := by
  by_cases hn : n = 0
  · simp only [malloc, if_neg hH, hn, if_true, Option.some.injEq, Prod.mk.injEq] at h
    rw [← h.2]
    exact ⟨rfl, le_refl _⟩
  cases hfit : find_fit fuel s (adjust n) with
  | none => simp only [malloc, if_neg hH, if_neg hn, hfit] at h; exact absurd h (by simp)
  | some r =>
    by_cases hr : r = 0
    · subst hr
      rw [malloc_ext_eq fuel g s n hH hn hfit] at h
      obtain ⟨e1, e2, _⟩ := extend_heap_frame g s (MAX (adjust n) CHUNKSIZE / WSIZE)
      split at h
      · simp only [Option.some.injEq, Prod.mk.injEq] at h
        rw [← h.2]
        exact ⟨e1, e2⟩
      · simp only [Option.some.injEq, Prod.mk.injEq] at h
        rw [← h.2]
        exact ⟨(place_frame _ _ _).2.trans e1, by rw [(place_frame _ _ _).1]; exact e2⟩
    · rw [malloc_fit_eq fuel g s n r hH hn hfit hr] at h
      simp only [Option.some.injEq, Prod.mk.injEq] at h
      rw [← h.2]
      exact ⟨(place_frame _ _ _).2, by rw [(place_frame _ _ _).1]⟩

theorem mallocs_cons_inv (fuel : Nat) (g : Nat → Bool) (s t : State) (n : Nat)
    (ns ps : List Nat) (h : mallocs fuel g s (n :: ns) = some (ps, t)) :
    ∃ p t1 ps', malloc fuel g s n = some (p, t1) ∧ mallocs fuel g t1 ns = some (ps', t)
      ∧ ps = p :: ps' := by
  cases h1 : malloc fuel g s n with
  | none => simp only [mallocs, h1] at h; exact absurd h (by simp)
  | some r =>
    cases h2 : mallocs fuel g r.2 ns with
    | none => simp only [mallocs, h1, h2] at h; exact absurd h (by simp)
    | some q =>
      simp only [mallocs, h1, h2, Option.some.injEq, Prod.mk.injEq] at h
      exact ⟨r.1, r.2, q.1, rfl, by rw [h2, ← h.2], h.1.symm⟩

/-- A sequence of `malloc` calls on an initialised heap never moves the base
pointer or lowers the region end. -/
theorem mallocs_frame (fuel : Nat) (g : Nat → Bool) :
    ∀ (sizes : List Nat) (s t : State) (ps : List Nat), s.heap_listp ≠ 0 →
      mallocs fuel g s sizes = some (ps, t) → t.heap_listp = s.heap_listp ∧ s.brk ≤ t.brk
  | [], s, t, ps, _, h => by
    simp only [mallocs, Option.some.injEq, Prod.mk.injEq] at h
    rw [← h.2]
    exact ⟨rfl, le_refl _⟩
  | n :: ns, s, t, ps, hH, h => by
    obtain ⟨p, t1, ps', e1, e2, _⟩ := mallocs_cons_inv fuel g s t n ns ps h
    obtain ⟨a1, a2⟩ := malloc_frame fuel g s n p t1 hH e1
    obtain ⟨b1, b2⟩ := mallocs_frame fuel g ns t1 t ps' (by rw [a1]; exact hH) e2
    exact ⟨b1.trans a1, le_trans a2 b2⟩

theorem MAX_words (a : Nat) (h8 : a % 8 = 0) (hlt : a < 18446744073709551616) :
    (if MAX a CHUNKSIZE / WSIZE % 2 ≠ 0
      then ((MAX a CHUNKSIZE / WSIZE + 1) * WSIZE) % U64
      else (MAX a CHUNKSIZE / WSIZE * WSIZE) % U64) = MAX a CHUNKSIZE := by
  obtain ⟨m1, m2, m3, m4⟩ := MAX_facts a h8
  simp only [WSIZE, U64]
  have e1 : ¬ (MAX a CHUNKSIZE / 4 % 2 ≠ 0) := by omega
  rw [if_neg e1]
  omega

/-- `malloc` on a well-formed heap without adjacent free blocks returns, for
every request that does not overflow; when the region end after the call is
less than `2^32` bytes above the base, the heap is again well formed and
without adjacent free blocks. -/
theorem malloc_total (fuel : Nat) (g : Nat → Bool) (s : State) (bs : List Blk)
    (Ls : Nat → List Blk) (n : Nat) (hW : Wf s bs Ls) (hN : NoAdj bs) (h1 : 1 ≤ n)
    (h15 : n + 15 < 18446744073709551616) (hf : bs.length < fuel) :
    ∃ p t, malloc fuel g s n = some (p, t)
      ∧ (t.brk < s.heap_listp + 4294967296 →
        ∃ bs' Ls', Wf t bs' Ls' ∧ NoAdj bs' ∧ bs'.length ≤ bs.length + 2
          ∧ (p = 0 → live bs' = live bs)
          ∧ (p ≠ 0 → (live bs').Perm (p :: live bs))
          ∧ (g s.calls = true → p ≠ 0)) := by
  by_cases hc : (∀ c, c ∈ bs → c.alloc = 0 → c.size < adjust n) ∧ g s.calls = true
      ∧ ¬ (s.brk + MAX (adjust n) CHUNKSIZE < s.heap_listp + 4294967296)
  · obtain ⟨hsmall, hg, hb⟩ := hc
    obtain ⟨ha16, ha8, _, ha15⟩ := adjust_facts n h1 h15
    have hh := hW.1.heap
    have hlo := hh.base_lo
    have hbhi := hh.base_hi
    have hbrk := hh.brk_hi
    have hfit := find_fit_spec s Ls (adjust n) fuel hW.1.lists.seg hW.sizes
      (fun k => Nat.lt_of_le_of_lt (hW.lengths k) hf)
    have hz : firstFit (adjust n) (fromBuckets Ls (bucket (adjust n)) (12 - bucket (adjust n)))
        = 0 := by
      refine (firstFit_zero (adjust n) _ (fun b hb => ?_)).mpr (fun b hb => ?_)
      · obtain ⟨j, _, _, hj⟩ := (fromBuckets_mem Ls b _ _).mp hb
        exact (hW.sizes j b hj).2
      · obtain ⟨j, _, _, hj⟩ := (fromBuckets_mem Ls b _ _).mp hb
        obtain ⟨hm, hfree⟩ := hh.listed b (hW.1.lists.mem_listed hj)
        exact hsmall b hm hfree
    rw [hz] at hfit
    obtain ⟨_, _, e3⟩ := extend_heap_frame g s (MAX (adjust n) CHUNKSIZE / WSIZE)
    have ebrk := e3 hg
    rw [MAX_words (adjust n) ha8 (by omega)] at ebrk
    rw [malloc_ext_eq fuel g s n (by omega) (by omega) hfit]
    by_cases he : (extend_heap g s (MAX (adjust n) CHUNKSIZE / WSIZE)).1 = 0
    · rw [if_pos he]
      exact ⟨_, _, rfl, fun hlt => absurd hlt (by rw [ebrk]; omega)⟩
    · rw [if_neg he]
      exact ⟨_, _, rfl, fun hlt => absurd hlt (by rw [(place_frame _ _ _).1, ebrk]; omega)⟩
  · obtain ⟨p, t, bs', Ls', e, hW', hN', _, _, _, len, hz, hnz, _, hgr, _⟩ :=
      malloc_wf fuel g s bs Ls n hW hN h1 h15 hf
        (fun a1 a2 => by
          by_contra hb
          exact hc ⟨a1, a2, hb⟩)
    exact ⟨p, t, e, fun _ => ⟨bs', Ls', hW', hN', len, hz, hnz, hgr⟩⟩

/-- What a sequence of `malloc` calls leaves, when the region end after the
sequence is less than `2^32` bytes above the base. -/
theorem mallocs_post (fuel : Nat) (g : Nat → Bool) :
    ∀ (sizes : List Nat) (s : State) (bs : List Blk) (Ls : Nat → List Blk) (ps : List Nat)
      (t : State), Wf s bs Ls → NoAdj bs →
      (∀ n, n ∈ sizes → 1 ≤ n ∧ n + 15 < 18446744073709551616) →
      bs.length + 2 * sizes.length ≤ fuel →
      mallocs fuel g s sizes = some (ps, t) → t.brk < s.heap_listp + 4294967296 →
      ∃ bs' Ls', Wf t bs' Ls' ∧ NoAdj bs' ∧ t.heap_listp = s.heap_listp ∧ s.brk ≤ t.brk
        ∧ (live bs').Perm (ps.filter (fun p => decide (p ≠ 0)) ++ live bs)
        ∧ ((∀ k, g k = true) → ∀ p, p ∈ ps → p ≠ 0)
  | [], s, bs, Ls, ps, t, hW, hN, _, _, hrun, _ => by
    simp only [mallocs, Option.some.injEq, Prod.mk.injEq] at hrun
    obtain ⟨rfl, rfl⟩ := hrun
    exact ⟨bs, Ls, hW, hN, rfl, le_refl _, List.Perm.refl _,
      fun _ p hp => absurd hp (List.not_mem_nil _)⟩
  | n :: ns, s, bs, Ls, ps, t, hW, hN, hsz, hf, hrun, hb => by
    obtain ⟨h1, h15⟩ := hsz n (List.mem_cons_self _ _)
    rw [List.length_cons] at hf
    have hH0 : s.heap_listp ≠ 0 := by
      have := hW.1.heap.base_lo
      omega
    obtain ⟨p, t1, ps', e1, e2, rfl⟩ := mallocs_cons_inv fuel g s t n ns ps hrun
    obtain ⟨a1, a2⟩ := malloc_frame fuel g s n p t1 hH0 e1
    obtain ⟨b1, b2⟩ := mallocs_frame fuel g ns t1 t ps' (by rw [a1]; exact hH0) e2
    obtain ⟨p', t1', e1', himp⟩ := malloc_total fuel g s bs Ls n hW hN h1 h15 (by omega)
    rw [e1] at e1'
    simp only [Option.some.injEq, Prod.mk.injEq] at e1'
    obtain ⟨rfl, rfl⟩ := e1'
    obtain ⟨bs1, Ls1, hW1, hN1, len, hz, hnz, hgr⟩ := himp (by omega)
    obtain ⟨bs2, Ls2, hW2, hN2, eH2, _, hl, hall⟩ :=
      mallocs_post fuel g ns t1 bs1 Ls1 ps' t hW1 hN1
        (fun m hm => hsz m (List.mem_cons_of_mem _ hm)) (by omega) e2 (by rw [a1]; exact hb)
    refine ⟨bs2, Ls2, hW2, hN2, b1.trans a1, le_trans a2 b2, ?_, ?_⟩
    · by_cases hp : p = 0
      · rw [List.filter_cons_of_neg (by simpa using hp), ← hz hp]
        exact hl
      · rw [List.filter_cons_of_pos (by simpa using hp)]
        refine hl.trans ?_
        refine (List.Perm.append_left _ (hnz hp)).trans ?_
        exact List.perm_middle
    · intro hg q hq
      rcases List.mem_cons.mp hq with rfl | hq
      · exact hgr (hg _)
      · exact hall hg q hq

/-- A sequence of `malloc` calls on a well-formed heap returns, at least up to
the first call that takes the region end `2^32` bytes or more above the base. -/
theorem mallocs_reach (fuel : Nat) (g : Nat → Bool) :
    ∀ (sizes : List Nat) (s : State) (bs : List Blk) (Ls : Nat → List Blk),
      Wf s bs Ls → NoAdj bs →
      (∀ n, n ∈ sizes → 1 ≤ n ∧ n + 15 < 18446744073709551616) →
      bs.length + 2 * sizes.length ≤ fuel →
      ∃ k ps t, k ≤ sizes.length ∧ mallocs fuel g s (sizes.take k) = some (ps, t)
        ∧ (k = sizes.length ∨ s.heap_listp + 4294967296 ≤ t.brk)
  | [], s, bs, Ls, _, _, _, _ => ⟨0, [], s, le_refl _, rfl, Or.inl rfl⟩
  | n :: ns, s, bs, Ls, hW, hN, hsz, hf => by
    obtain ⟨h1, h15⟩ := hsz n (List.mem_cons_self _ _)
    rw [List.length_cons] at hf
    have hH0 : s.heap_listp ≠ 0 := by
      have := hW.1.heap.base_lo
      omega
    obtain ⟨p, t1, e1, himp⟩ := malloc_total fuel g s bs Ls n hW hN h1 h15 (by omega)
    obtain ⟨a1, a2⟩ := malloc_frame fuel g s n p t1 hH0 e1
    by_cases hb : t1.brk < s.heap_listp + 4294967296
    · obtain ⟨bs1, Ls1, hW1, hN1, len, _, _, _⟩ := himp hb
      obtain ⟨k, ps, t, hk, e2, hor⟩ := mallocs_reach fuel g ns t1 bs1 Ls1 hW1 hN1
        (fun m hm => hsz m (List.mem_cons_of_mem _ hm)) (by omega)
      refine ⟨k + 1, p :: ps, t, by rw [List.length_cons]; omega, ?_, ?_⟩
      · rw [List.take_succ_cons]
        exact mallocs_cons fuel g s t1 t n p _ ps e1 e2
      · rcases hor with h | h
        · exact Or.inl (by rw [List.length_cons, h])
        · exact Or.inr (by rw [← a1]; exact h)
    · refine ⟨1, [p], t1, by rw [List.length_cons]; omega, ?_, Or.inr (by omega)⟩
      rw [List.take_succ_cons, List.take_zero]
      exact mallocs_cons fuel g s t1 t1 n p [] [] e1 rfl

/-- Out of memory on a well-formed heap: when the request does not overflow, no
free block has the adjusted size and the provider refuses, `malloc` returns
NULL and the state is the state before the call except for the provider's
call counter. -/
theorem malloc_refused_wf (fuel : Nat) (g : Nat → Bool) (s : State) (bs : List Blk)
    (Ls : Nat → List Blk) (n : Nat) (hW : Wf s bs Ls) (h1 : 1 ≤ n)
    (h15 : n + 15 < 18446744073709551616) (hf : bs.length < fuel)
    (hsmall : ∀ c, c ∈ bs → c.alloc = 0 → c.size < adjust n) (hg : g s.calls = false) :
    malloc fuel g s n = some (0, { s with calls := s.calls + 1 }) := by
  have hh := hW.1.heap
  have hlo := hh.base_lo
  have hfit := find_fit_spec s Ls (adjust n) fuel hW.1.lists.seg hW.sizes
    (fun k => Nat.lt_of_le_of_lt (hW.lengths k) hf)
  have hz : firstFit (adjust n) (fromBuckets Ls (bucket (adjust n)) (12 - bucket (adjust n)))
      = 0 := by
    refine (firstFit_zero (adjust n) _ (fun b hb => ?_)).mpr (fun b hb => ?_)
    · obtain ⟨j, _, _, hj⟩ := (fromBuckets_mem Ls b _ _).mp hb
      exact (hW.sizes j b hj).2
    · obtain ⟨j, _, _, hj⟩ := (fromBuckets_mem Ls b _ _).mp hb
      obtain ⟨hm, hfree⟩ := hh.listed b (hW.1.lists.mem_listed hj)
      exact hsmall b hm hfree
  rw [hz] at hfit
  rw [malloc_ext_eq fuel g s n (by omega) (by omega) hfit, extend_refused g s _ hg]
  simp only [if_true]

/-- C11 as stated fails: on the freshly initialised heap the request size
`2^32 - 16` (for which `n + 15` does not overflow) gives `a = 4112`, and after
`free(a)` the same request returns `b = 4294971400`, not `a`: the merged free
block would have `2^32 + 504` bytes, which the 32-bit header stores as 504. -/
theorem C11_large_request_not_reused :
    ∃ a t1 b t2, malloc 8 grantAll (mm_init grantAll fresh).2 (4294967296 - 16) = some (a, t1)
      ∧ malloc 8 grantAll (free grantAll t1 a) (4294967296 - 16) = some (b, t2)
      ∧ (mm_init grantAll fresh).1 = 0 ∧ a = 4112 ∧ b = 4294971400
      ∧ GET_SIZE (free grantAll t1 a).mem (HDRP a) = 504 := by
  refine ⟨_, _, _, _, rfl, rfl, ?_, ?_, ?_, ?_⟩ <;> decide

/-- C11 (amended): after a successful `mm_init` on a region whose end is 8-byte
aligned, with a provider that grants every request, for every request size
`n ≥ 1` with `n + 535 < 2^32` (the region stays shorter than `2^32` bytes) and
fuel at least 2: `a = malloc(n)` is not null, and after `free(a)` the call
`malloc(n)` returns `a` again. -/
theorem C11_reuse (g : Nat → Bool) (s : State) (n fuel : Nat) (hg : ∀ k, g k = true)
    (hal : s.brk % 8 = 0) (hB : s.brk + 8 + 4294967296 ≤ 18446744073709551616)
    (h1 : 1 ≤ n) (hn : n + 535 < 4294967296) (hf : 2 ≤ fuel) :
    (mm_init g s).1 = 0
      ∧ ∃ a t1 b t2, malloc fuel g (mm_init g s).2 n = some (a, t1) ∧ a ≠ 0
        ∧ malloc fuel g (free g t1 a) n = some (b, t2) ∧ b = a := by
  obtain ⟨i0, hW0, iB, iH, _⟩ := init_wf g s (hg _) (hg _) hal hB
  refine ⟨i0, ?_⟩
  obtain ⟨ha16, ha8, _, ha15⟩ := adjust_facts n h1 (by omega)
  obtain ⟨m1, m2, m3, m4⟩ := MAX_facts (adjust n) ha8
  have hN0 : NoAdj [(⟨s.brk + 16, 512, 0⟩ : Blk)] :=
    (NoAdj_cons _ []).mpr ⟨(fun q h => by cases h), NoAdj_nil⟩
  have hF : live [(⟨s.brk + 16, 512, 0⟩ : Blk)] = [] := live_cons_free _ _ rfl
  obtain ⟨a, t1, bs1, Ls1, e1, hW1, hN1, eH1, b1, b2, len1, hz1, hnz1, loc1, hgr1, hsz1⟩ :=
    malloc_wf fuel g _ _ _ n hW0 hN0 h1 (by omega) (by simp only [List.length_singleton]; omega)
      (fun _ _ => by rw [iB, iH]; omega)
  have ha0 : a ≠ 0 := hgr1 (hg _)
  have haddr : a = s.brk + 16 := by
    rcases loc1 ha0 with ⟨c, hc, _, rfl⟩ | ⟨_, hlast⟩
    · rw [List.mem_singleton.mp hc]
    · exact absurd rfl (hlast _ rfl)
  obtain ⟨sz, hsz, hblk⟩ := hsz1 ha0
  have hbnd := (hW1.1.heap.block_facts hblk).2.1
  simp only at hbnd
  have hperm := hnz1 ha0
  rw [hF] at hperm
  obtain ⟨b0, hb0, hba, hb0a⟩ := mem_live.mp (hperm.symm.subset (List.mem_cons_self _ _))
  have hal0 : b0.alloc = 1 := by
    have := (hW1.1.heap.block_facts hb0).2.2.2.2.1
    omega
  obtain ⟨l1, l2, rfl⟩ := List.append_of_mem hb0
  obtain ⟨bs2, Ls2, hW2, hN2, hl2, eH2, eB2, _⟩ := free_wf g t1 l1 l2 b0 Ls1 hW1 hN1 hal0
  rw [hb0a] at hW2 eH2 eB2
  have hlive : live bs2 = [] := by
    have hlen := hperm.length_eq
    rw [live_append, live_cons_alloc _ _ hba] at hlen
    simp only [List.length_append, List.length_cons, live_nil, List.length_nil] at hlen
    rw [hl2]
    apply List.eq_nil_of_length_eq_zero
    rw [List.length_append]
    omega
  obtain ⟨hbs2, hLs2⟩ := single_of_empty hW2 hN2 hlive (by rw [eH2, eB2, eH1, iH]; omega)
  subst hbs2
  obtain ⟨b, t2, bs3, Ls3, e2, _, _, _, _, _, _, _, _, loc2, hgr2, _⟩ :=
    malloc_wf fuel g (free g t1 a) _ Ls2 n hW2 hN2 h1 (by omega)
      (by simp only [List.length_singleton]; omega)
      (fun hsmall _ => by
        have := hsmall _ (List.mem_singleton_self _) rfl
        simp only at this
        rw [eH2, eB2, eH1, iH] at this
        omega)
  refine ⟨a, t1, b, t2, e1, ha0, e2, ?_⟩
  have hb0' : b ≠ 0 := hgr2 (hg _)
  rcases loc2 hb0' with ⟨c, hc, _, rfl⟩ | ⟨_, hlast⟩
  · rw [List.mem_singleton.mp hc]
    show (free g t1 a).heap_listp + 8 = a
    rw [eH2, eH1, iH, haddr]
  · exact absurd rfl (hlast _ rfl)

/-- C11 (amended) at a concrete input: the region that starts at 4096, the
provider that grants everything, and `n = 16`. -/
theorem C11_witness :
    (mm_init grantAll fresh).1 = 0
      ∧ ∃ a t1 b t2, malloc 2 grantAll (mm_init grantAll fresh).2 16 = some (a, t1) ∧ a ≠ 0
        ∧ malloc 2 grantAll (free grantAll t1 a) 16 = some (b, t2) ∧ b = a :=
  C11_reuse grantAll fresh 16 2 (fun _ => rfl) (by decide) (by decide) (by decide)
    (by decide) (by decide)

/-- C12 as stated fails. On the freshly initialised heap `malloc(2^32 - 16)`
succeeds (`a = 4112`); after `free(a)` the only block that the heap walk visits
has size 504 and the walk stops at 4616, while the region ends at 4294971912:
the merged size `2^32 + 504` does not fit the 32-bit header. Also
`malloc(2^64 - 10)` succeeds (the adjusted size wraps to 0), and after `free`
the block at 4112 has size 1024 in a region of 512 bytes after the prologue. -/
theorem C12_release_not_maximal :
    (∃ a t, malloc 8 grantAll (mm_init grantAll fresh).2 (4294967296 - 16) = some (a, t)
      ∧ a = 4112 ∧ GET_SIZE (free grantAll t a).mem (HDRP 4112) = 504
      ∧ walk (free grantAll t a).mem 4 4112 = some ([4112], 4616)
      ∧ (free grantAll t a).brk = 4294971912 ∧ (free grantAll t a).heap_listp = 4104)
    ∧ (∃ a t, malloc 8 grantAll (mm_init grantAll fresh).2 (18446744073709551616 - 10)
        = some (a, t)
      ∧ a = 4112 ∧ GET_SIZE (free grantAll t a).mem (HDRP 4112) = 1024
      ∧ (free grantAll t a).brk = 4624 ∧ (free grantAll t a).heap_listp = 4104) := by
  constructor
  · refine ⟨_, _, rfl, ?_, ?_, ?_, ?_, ?_⟩ <;> decide
  · refine ⟨_, _, rfl, ?_, ?_, ?_, ?_⟩ <;> decide

/-- C12 (amended): after a successful `mm_init` on a region whose end is 8-byte
aligned, for every list of request sizes `n ≥ 1` with `n + 15 < 2^64` and fuel
for two blocks per request. The allocations return, at least up to the first
one that takes the region end `2^32` bytes or more above the base. When all
have returned and the region end is less than `2^32` bytes above the base,
releasing the non-null pointers exactly once in any order leaves a heap whose
walk from `base + 8` visits exactly one block and ends at the region end; that
block is free, its header and footer hold the size `region_end - base - 8`, it
is the head of the list of its bucket, every other list is empty, and both its
links are 0. -/
theorem C12_release_all (g : Nat → Bool) (s : State) (sizes : List Nat) (fuel : Nat)
    (h1 : g s.calls = true) (h2 : g (s.calls + 1) = true) (hal : s.brk % 8 = 0)
    (hB : s.brk + 8 + 4294967296 ≤ 18446744073709551616)
    (hsz : ∀ n, n ∈ sizes → 1 ≤ n ∧ n + 15 < 18446744073709551616)
    (hf : 2 * sizes.length + 1 ≤ fuel) :
    (mm_init g s).1 = 0
      ∧ (∃ k ps t, k ≤ sizes.length
          ∧ mallocs fuel g (mm_init g s).2 (sizes.take k) = some (ps, t)
          ∧ (k = sizes.length ∨ t.heap_listp + 4294967296 ≤ t.brk))
      ∧ ∀ ps t, mallocs fuel g (mm_init g s).2 sizes = some (ps, t) →
        t.brk < t.heap_listp + 4294967296 →
        ((∀ k, g k = true) → ∀ p, p ∈ ps → p ≠ 0)
        ∧ ∀ order, order.Perm (ps.filter (fun p => decide (p ≠ 0))) →
          ∃ u, frees g t order = u ∧ u.heap_listp = t.heap_listp ∧ u.brk = t.brk
            ∧ walk u.mem 2 (u.heap_listp + 8) = some ([u.heap_listp + 8], u.brk)
            ∧ GET_ALLOC u.mem (HDRP (u.heap_listp + 8)) = 0
            ∧ GET u.mem (HDRP (u.heap_listp + 8)) = PACK (u.brk - u.heap_listp - 8) 0
            ∧ GET u.mem (FTRP u.mem (u.heap_listp + 8)) = PACK (u.brk - u.heap_listp - 8) 0
            ∧ headOf u (bucket (u.brk - u.heap_listp - 8)) = u.heap_listp + 8
            ∧ (∀ k, k ≠ bucket (u.brk - u.heap_listp - 8) → headOf u k = 0)
            ∧ GETA u (u.heap_listp + 8) = 0
            ∧ GETA u (padd (u.heap_listp + 8) WSIZE) = 0 := by
  obtain ⟨i0, hW0, iB, iH, _⟩ := init_wf g s h1 h2 hal hB
  have hN0 : NoAdj [(⟨s.brk + 16, 512, 0⟩ : Blk)] :=
    (NoAdj_cons _ []).mpr ⟨(fun q h => by cases h), NoAdj_nil⟩
  have hF : live [(⟨s.brk + 16, 512, 0⟩ : Blk)] = [] := live_cons_free _ _ rfl
  have hH0 : (mm_init g s).2.heap_listp ≠ 0 := by rw [iH]; omega
  have hlen : [(⟨s.brk + 16, 512, 0⟩ : Blk)].length + 2 * sizes.length ≤ fuel := by
    simp only [List.length_singleton]; omega
  refine ⟨i0, ?_, ?_⟩
  · obtain ⟨k, ps, t, hk, e, hor⟩ := mallocs_reach fuel g sizes _ _ _ hW0 hN0 hsz hlen
    refine ⟨k, ps, t, hk, e, ?_⟩
    rw [(mallocs_frame fuel g _ _ t ps hH0 e).1]
    exact hor
  · intro ps t hrun hreg
    have hfr := mallocs_frame fuel g sizes _ t ps hH0 hrun
    obtain ⟨bs1, Ls1, hW1, hN1, eH1, b1, hperm, hall⟩ :=
      mallocs_post fuel g sizes _ _ _ ps t hW0 hN0 hsz hlen hrun (by rw [← hfr.1]; exact hreg)
    rw [hF, List.append_nil] at hperm
    refine ⟨hall, ?_⟩
    intro order ho
    obtain ⟨bs2, Ls2, hW2, hN2, hl2, eH2, eB2⟩ :=
      frees_wf g order t bs1 Ls1 hW1 hN1 (ho.trans hperm.symm)
    obtain ⟨hbs2, hLs2⟩ := single_of_empty hW2 hN2 hl2 (by rw [eH2, eB2, eH1, iH]; omega)
    subst hbs2
    subst hLs2
    obtain ⟨w1, w2, w3, w4, w5, w6, w7, w8⟩ :=
      single_facts (x := ⟨(frees g t order).heap_listp + 8,
        (frees g t order).brk - (frees g t order).heap_listp - 8, 0⟩) hW2 rfl
    exact ⟨_, rfl, eH2, eB2, w1, w4, w2, w3, w5, w6, w7, w8⟩

/-- C12 (amended) at a concrete input: three requests of 24 bytes on the region
that starts at 4096 return 4112, 4144 and 4176 and leave the region end at
4624; released in any order, and in particular in the order a, c, b, they
leave one free block of 512 bytes. -/
theorem C12_witness :
    ∃ t, mallocs 8 grantAll (mm_init grantAll fresh).2 [24, 24, 24]
          = some ([4112, 4144, 4176], t)
      ∧ t.brk = 4624 ∧ t.heap_listp = 4104
      ∧ (∀ order, order.Perm [4112, 4144, 4176] →
          ∃ u, frees grantAll t order = u ∧ u.heap_listp = t.heap_listp ∧ u.brk = t.brk
            ∧ walk u.mem 2 (u.heap_listp + 8) = some ([u.heap_listp + 8], u.brk)
            ∧ GET_ALLOC u.mem (HDRP (u.heap_listp + 8)) = 0
            ∧ GET u.mem (HDRP (u.heap_listp + 8)) = PACK (u.brk - u.heap_listp - 8) 0
            ∧ GET u.mem (FTRP u.mem (u.heap_listp + 8)) = PACK (u.brk - u.heap_listp - 8) 0
            ∧ headOf u (bucket (u.brk - u.heap_listp - 8)) = u.heap_listp + 8
            ∧ (∀ k, k ≠ bucket (u.brk - u.heap_listp - 8) → headOf u k = 0)
            ∧ GETA u (u.heap_listp + 8) = 0
            ∧ GETA u (padd (u.heap_listp + 8) WSIZE) = 0)
      ∧ GET (frees grantAll t [4112, 4176, 4144]).mem (HDRP 4112) = PACK 512 0
      ∧ walk (frees grantAll t [4112, 4176, 4144]).mem 2 4112 = some ([4112], 4624) := by
  refine ⟨_, rfl, by decide, by decide, fun order ho => ?_, by decide, by decide⟩
  exact ((C12_release_all grantAll fresh [24, 24, 24] 8 rfl rfl (by decide) (by decide)
    (by decide) (by decide)).2.2 _ _ rfl (by decide)).2 order ho

/-- C8, evaluated at a failing input.  The heap is freshly initialised and well
formed (one free block of 512 bytes at 4112), the provider refuses every
request after `mm_init`, and the request is `2^64 - 10` bytes, which no free
block can hold.  `malloc` does not return NULL and does not leave the state
unchanged: the adjusted size wraps to 0, the search returns the free block
4112, `malloc` returns it without calling the provider, and `place` has
overwritten the prologue footer (the word at 4104 goes from 9 to 1). -/
theorem C8_overflow_not_refused :
    Wf (mm_init grantAll fresh).2 [⟨4112, 512, 0⟩]
        (fun k => if k = 5 then [⟨4112, 512, 0⟩] else [])
      ∧ grantInitOnly (mm_init grantAll fresh).2.calls = false
      ∧ adjust (U64 - 10) = 0
      ∧ ∃ r, malloc 8 grantInitOnly (mm_init grantAll fresh).2 (U64 - 10) = some r
        ∧ r.1 = 4112 ∧ r.2.calls = (mm_init grantAll fresh).2.calls
        ∧ GET (mm_init grantAll fresh).2.mem 4104 = 9 ∧ GET r.2.mem 4104 = 1 := by
  refine ⟨(init_wf grantAll fresh rfl rfl (by decide) (by decide)).2.1, by decide, by decide,
    _, rfl, ?_, ?_, ?_, ?_⟩ <;> decide

end MM
